import Mathlib

/-!
# HolonAI — formal verification of the holonic agent runtime

Shallow embedding of the HolonAI repository (`holonic_engine` package):
JSON values, the agent tree (`HolonicObject`), the heartbeat scheduler
(`HolonicHeart.beat`), reply parsing, messaging, and the SQL persistence
layer, together with theorems settling the specification claims.

Machine integers: Python integers are unbounded, so `Int`/`Nat` are used
directly.  Timestamps are modelled as microseconds since an arbitrary
epoch (an `Int`), matching the microsecond resolution of Python
`datetime`; `isoOf` stands for ISO-8601 rendering (any injective
rendering of the timestamp works for the claims).
-/

namespace HolonAI

/-- JSON values, the data model of knowledge, HUDs and AI replies.
Numeric literals are restricted to integers (the runtime's own payloads
in the claims are integral); object fields are an ordered association
list, mirroring Python dict insertion order. -/
inductive Json where
  | null : Json
  | bool (b : Bool) : Json
  | num (n : Int) : Json
  | str (s : String) : Json
  | arr (items : List Json) : Json
  | obj (fields : List (String × Json)) : Json

mutual

/-- Boolean equality on JSON values (the derive handler does not support
nested inductives on this toolchain). -/
def Json.beq : Json → Json → Bool
  | .null, .null => true
  | .bool a, .bool b => a = b
  | .num a, .num b => a = b
  | .str a, .str b => a = b
  | .arr xs, .arr ys => Json.beqList xs ys
  | .obj xs, .obj ys => Json.beqFields xs ys
  | _, _ => false

/-- Pointwise `Json.beq` on lists. -/
def Json.beqList : List Json → List Json → Bool
  | [], [] => true
  | x :: xs, y :: ys => Json.beq x y && Json.beqList xs ys
  | _, _ => false

/-- Pointwise `Json.beq` on field lists. -/
def Json.beqFields : List (String × Json) → List (String × Json) → Bool
  | [], [] => true
  | (k1, v1) :: xs, (k2, v2) :: ys =>
      k1 = k2 && Json.beq v1 v2 && Json.beqFields xs ys
  | _, _ => false

end

mutual

theorem Json.beq_iff : ∀ (a b : Json), Json.beq a b = true ↔ a = b
  | .null, b => by cases b <;> simp [Json.beq]
  | .bool x, b => by cases b <;> simp [Json.beq]
  | .num x, b => by cases b <;> simp [Json.beq]
  | .str x, b => by cases b <;> simp [Json.beq]
  | .arr xs, b => by
      cases b <;> simp [Json.beq]
      exact Json.beqList_iff xs _
  | .obj xs, b => by
      cases b <;> simp [Json.beq]
      exact Json.beqFields_iff xs _

theorem Json.beqList_iff : ∀ (xs ys : List Json), Json.beqList xs ys = true ↔ xs = ys
  | [], ys => by cases ys <;> simp [Json.beqList]
  | x :: xs, ys => by
      cases ys with
      | nil => simp [Json.beqList]
      | cons y ys =>
          simp only [Json.beqList, Bool.and_eq_true, List.cons.injEq]
          rw [Json.beq_iff x y, Json.beqList_iff xs ys]

theorem Json.beqFields_iff :
    ∀ (xs ys : List (String × Json)), Json.beqFields xs ys = true ↔ xs = ys
  | [], ys => by cases ys <;> simp [Json.beqFields]
  | (k1, v1) :: xs, ys => by
      cases ys with
      | nil => simp [Json.beqFields]
      | cons p ys =>
          obtain ⟨k2, v2⟩ := p
          simp only [Json.beqFields, Bool.and_eq_true, List.cons.injEq, Prod.mk.injEq,
            decide_eq_true_eq]
          rw [Json.beq_iff v1 v2, Json.beqFields_iff xs ys]

end

instance : DecidableEq Json :=
  fun a b => decidable_of_iff _ (Json.beq_iff a b)

/-- Association-list lookup (Python `dict` access; first match — the
runtime never builds duplicate keys). -/
def alookup {α : Type} : List (String × α) → String → Option α
  | [], _ => none
  | (k, v) :: rest, key => if k = key then some v else alookup rest key

/-- Association-list assignment (`d[key] = v`): replaces in place when the
key exists — keeping its position, as Python dicts do — else appends. -/
def aset {α : Type} : List (String × α) → String → α → List (String × α)
  | [], key, v => [(key, v)]
  | (k, w) :: rest, key, v =>
      if k = key then (k, v) :: rest else (k, w) :: aset rest key v

/-- Association-list deletion (`del d[key]`, first occurrence). -/
def aremove {α : Type} : List (String × α) → String → List (String × α)
  | [], _ => []
  | (k, w) :: rest, key => if k = key then rest else (k, w) :: aremove rest key

/-- Python `d.update(m)`: assign every entry of `m` into `d` in order. -/
def aupdate {α : Type} (d : List (String × α)) (m : List (String × α)) :
    List (String × α) :=
  m.foldl (fun acc p => aset acc p.1 p.2) d

/-- Look up a key in a JSON object's field list. -/
def jlookup (fs : List (String × Json)) (key : String) : Option Json :=
  alookup fs key

/-- `d.get(key, default)` on a JSON object. -/
def Json.getD (j : Json) (key : String) (dflt : Json) : Json :=
  match j with
  | .obj fs => (jlookup fs key).getD dflt
  | _ => dflt

/-- Whether a JSON value is an object (a Python `dict`). -/
def Json.isObj : Json → Bool
  | .obj _ => true
  | _ => false

/-- Python truthiness of a JSON value (`bool(x)`). -/
def Json.truthy : Json → Bool
  | .null => false
  | .bool b => b
  | .num n => n ≠ 0
  | .str s => s ≠ ""
  | .arr xs => !xs.isEmpty
  | .obj fs => !fs.isEmpty

/-! ## Path engine (`agent.py`: `_parse_path`, `_get_value_at_path`,
`_set_value_at_path`, `_delete_at_path`) -/

/-- A parsed path segment: a mapping key or a sequence index. -/
inductive PKey where
  | key (s : String)
  | idx (n : Nat)
  deriving DecidableEq

/-- Decimal digits to a number (`int("…")` on a digit run). -/
def digitsToNat (cs : List Char) : Nat :=
  cs.foldl (fun acc c => acc * 10 + (c.toNat - 48)) 0

/-- Characters that separate path segments. -/
def isPathSep (c : Char) : Bool := c = '.' ∨ c = '[' ∨ c = ']'

/-- Scanner behind `_parse_path`'s regex
`([^.\x5b\x5d]+)|\x5b(\d+)\x5d|\x5b([^\x5d]+)\x5d`: words between
dots/brackets become string keys, `[digits]` a numeric index, `[text]` a
string key; unmatched separator characters are skipped.  Fuel is the
remaining character count (each step consumes at least one character). -/
def parsePathAux : Nat → List Char → List PKey
  | 0, _ => []
  | _, [] => []
  | fuel + 1, c :: rest =>
      if c = '.' ∨ c = ']' then parsePathAux fuel rest
      else if c = '[' then
        let inside := rest.takeWhile (fun x => x ≠ ']')
        if inside.length = rest.length ∨ inside.isEmpty then
          -- no closing bracket, or an empty `[]`: the regex skips the `[`
          parsePathAux fuel rest
        else
          let after := rest.drop (inside.length + 1)
          (if inside.all Char.isDigit then PKey.idx (digitsToNat inside)
           else PKey.key (String.mk inside)) :: parsePathAux fuel after
      else
        let word := (c :: rest).takeWhile (fun x => !isPathSep x)
        PKey.key (String.mk word) :: parsePathAux fuel ((c :: rest).drop word.length)

/-- `_parse_path`: parse a dot/bracket path into segments. -/
def parsePath (s : String) : List PKey :=
  parsePathAux (s.length + 1) s.data

/-- Errors of the path engine and action dispatch (`KeyError`,
`IndexError`, `TypeError`, and `ValueError` on an empty path). -/
inductive PErr where
  | keyError
  | indexError
  | typeError
  | emptyPath
  deriving DecidableEq

/-- `_get_value_at_path` on parsed keys: traverse maps by string key and
sequences by in-range index; anything else raises `KeyError`. -/
def getAtPath (data : Json) : List PKey → Except PErr Json
  | [] => .ok data
  | k :: rest =>
      match data, k with
      | .obj fs, .key s =>
          match jlookup fs s with
          | some v => getAtPath v rest
          | none => .error .keyError
      | .arr xs, .idx n =>
          if h : n < xs.length then getAtPath (xs.get ⟨n, h⟩) rest
          else .error .keyError
      | _, _ => .error .keyError

/-- `_set_value_at_path` on parsed keys.  The walk over all but the last
key creates intermediate maps for missing dict keys and indexes existing
sequence entries (`IndexError` out of range); the final key assigns into
a map or an in-range sequence slot (`TypeError` for a string key on a
sequence).  A numeric key applied to a map is stored under its decimal
string (Python would store an `int` key, which serializes to the same
JSON).  An empty path raises `ValueError`. -/
def setAtPath (data : Json) (keys : List PKey) (v : Json) : Except PErr Json :=
  match keys with
  | [] => .error .emptyPath
  | [k] =>
      match data, k with
      | .arr xs, .idx n =>
          if n < xs.length then .ok (.arr (xs.set n v)) else .error .indexError
      | .arr _, .key _ => .error .typeError
      | .obj fs, .key s => .ok (.obj (aset fs s v))
      | .obj fs, .idx n => .ok (.obj (aset fs (toString n) v))
      | _, _ => .error .typeError
  | k :: rest =>
      match data, k with
      | .obj fs, .key s =>
          match jlookup fs s with
          | some child => do
              let c ← setAtPath child rest v
              .ok (.obj (aset fs s c))
          | none => do
              let c ← setAtPath (.obj []) rest v
              .ok (.obj (aset fs s c))
      | .obj fs, .idx n =>
          match jlookup fs (toString n) with
          | some child => do
              let c ← setAtPath child rest v
              .ok (.obj (aset fs (toString n) c))
          | none => do
              let c ← setAtPath (.obj []) rest v
              .ok (.obj (aset fs (toString n) c))
      | .arr xs, .idx n =>
          if h : n < xs.length then do
            let c ← setAtPath (xs.get ⟨n, h⟩) rest v
            .ok (.arr (xs.set n c))
          else .error .indexError
      | _, _ => .error .keyError

/-- `_delete_at_path` on parsed keys: bounds-checked traversal, then
delete a present map key or pop an in-range sequence index; otherwise
`KeyError`.  An empty path raises `ValueError`. -/
def deleteAtPath (data : Json) (keys : List PKey) : Except PErr Json :=
  match keys with
  | [] => .error .emptyPath
  | [k] =>
      match data, k with
      | .arr xs, .idx n =>
          if n < xs.length then .ok (.arr (xs.eraseIdx n)) else .error .keyError
      | .obj fs, .key s =>
          if (jlookup fs s).isSome then .ok (.obj (aremove fs s))
          else .error .keyError
      | _, _ => .error .keyError
  | k :: rest =>
      match data, k with
      | .obj fs, .key s =>
          match jlookup fs s with
          | some child => do
              let c ← deleteAtPath child rest
              .ok (.obj (aset fs s c))
          | none => .error .keyError
      | .arr xs, .idx n =>
          if h : n < xs.length then do
            let c ← deleteAtPath (xs.get ⟨n, h⟩) rest
            .ok (.arr (xs.set n c))
          else .error .keyError
      | _, _ => .error .keyError

/-! ## Bindings, agents and the tree (`agent.py`, `containers.py`)

Purpose/self bindings are modelled as a flat ordered map from key to a
leaf that is either a static JSON value or a dynamic zero-argument
callable.  The dynamic callables occurring in the runtime are the fixed
self-leaves registered by `HolonicObject.__attrs_post_init__`, modelled
first-order by `DynRef`; `purpose_set`/`self_set` are used with
single-segment paths throughout the claims. -/

/-- The well-known dynamic (callable) binding leaves registered at
construction. -/
inductive DynRef where
  | currentTime
  | holonId
  | holonTree
  | knowledgeRef
  | tokenBankRef
  | lastHeartbeatRef
  | nextHeartbeatRef
  | heartRateRef
  deriving DecidableEq

/-- A binding leaf: a static JSON value or a dynamic callable. -/
inductive Leaf where
  | static (j : Json)
  | dyn (d : DynRef)
  deriving DecidableEq

/-- An ordered purpose/self binding map. -/
abbrev Bindings := List (String × Leaf)

/-- The static (non-callable) leaves of a binding map, in order —
`{k: v for k, v in bindings.items() if not callable(v)}`. -/
def staticOf (b : Bindings) : List (String × Json) :=
  b.filterMap (fun p => match p.2 with
    | .static j => some (p.1, j)
    | .dyn _ => none)

/-- Timestamps: microseconds since an arbitrary epoch. -/
abbrev Time := Int

/-- `now.replace(microsecond=0)`: zero out the sub-second part. -/
def floorSec (t : Time) : Time := t - t.emod 1000000

/-- Stand-in for `datetime.isoformat()`: any injective rendering of the
timestamp serves the claims. -/
def isoOf (t : Time) : String := toString t

/-- A message between holons (`agent.py:Message`). -/
structure Msg where
  id : String
  senderId : String
  recipientIds : List String
  content : Json
  tokensAttached : Int
  timestamp : Time
  deriving DecidableEq

/-- A registered action: name and human-readable purpose.  Signature
descriptors are constant per action and play no role in the claims, so
they are elided from the model. -/
structure ActionItem where
  name : String
  purpose : String
  deriving DecidableEq

/-- The built-in actions every agent registers
(`HolonicObject.__attrs_post_init__`). -/
def builtinActions : List ActionItem :=
  [⟨"knowledge_set", "Set a value in knowledge at a dot.path"⟩,
   ⟨"knowledge_delete", "Delete a value from knowledge at a dot.path"⟩,
   ⟨"child_purpose_set", "Set purpose on a child holon by GUID"⟩,
   ⟨"child_purpose_clear", "Clear all purpose from a child holon"⟩,
   ⟨"create_child", "Create a new child holon, optionally copying from a template GUID"⟩,
   ⟨"send_message", "Send a message to one or more holons by GUID"⟩,
   ⟨"sleep", "Delay next heartbeat by specified seconds from its current scheduled time"⟩]

/-- The mutable state of one `HolonicObject`, children aside.
`activeHeartbeat` is the in-flight marker: it is referenced by
`HolonicHeart.beat` (`has_active_heartbeat` / `mark_heartbeat_started`)
but its definition is not under `src/`; modelled from the spec as an
optional scheduled time, present iff a heartbeat is in flight. -/
structure AgentState where
  id : String
  purposeBindings : Bindings
  selfBindings : Bindings
  knowledge : Json
  tokenBank : Int
  heartRate : Int
  lastHeartbeat : Option Time
  nextHeartbeat : Time
  activeHeartbeat : Option Time
  actions : List ActionItem
  inbox : List Msg
  storageBound : Bool
  deriving DecidableEq

/-- The dynamic self bindings populated at construction
(`__attrs_post_init__`). -/
def defaultSelfBindings : Bindings :=
  [("current_time", .dyn .currentTime),
   ("holon_id", .dyn .holonId),
   ("holon_tree", .dyn .holonTree),
   ("knowledge", .dyn .knowledgeRef),
   ("token_bank", .dyn .tokenBankRef),
   ("last_heartbeat", .dyn .lastHeartbeatRef),
   ("next_heartbeat", .dyn .nextHeartbeatRef),
   ("heart_rate_secs", .dyn .heartRateRef)]

/-- A freshly constructed `HolonicObject` with the given id at the given
time (attrs defaults plus `__attrs_post_init__`). -/
def newAgent (aid : String) (now : Time) : AgentState :=
  { id := aid
    purposeBindings := []
    selfBindings := defaultSelfBindings
    knowledge := .obj []
    tokenBank := 0
    heartRate := 1
    lastHeartbeat := none
    nextHeartbeat := now
    activeHeartbeat := none
    actions := builtinActions
    inbox := []
    storageBound := false }

/-- The agent tree: a node's state plus its `holon_children` in order.
Parent links are recovered from the tree structure. -/
inductive HTree where
  | node (state : AgentState) (children : List HTree)

/-- State of the root node. -/
def HTree.state : HTree → AgentState
  | .node s _ => s

/-- Children of the root node. -/
def HTree.children : HTree → List HTree
  | .node _ cs => cs

mutual

/-- All agent states of a tree in depth-first preorder. -/
def HTree.flatten : HTree → List AgentState
  | .node s cs => s :: HTree.flattenList cs

/-- `HTree.flatten` over a forest. -/
def HTree.flattenList : List HTree → List AgentState
  | [] => []
  | t :: ts => t.flatten ++ HTree.flattenList ts

end

mutual

/-- `collect_due_heartbeats`: every `(agent, next_heartbeat)` pair of the
tree, depth-first preorder (self first, then children recursively). -/
def HTree.collectDue : HTree → List (AgentState × Time)
  | .node s cs => (s, s.nextHeartbeat) :: HTree.collectDueList cs

/-- `HTree.collectDue` over a forest. -/
def HTree.collectDueList : List HTree → List (AgentState × Time)
  | [] => []
  | t :: ts => t.collectDue ++ HTree.collectDueList ts

end

mutual

/-- `_find_in_subtree`: first node with the given id, depth-first. -/
def HTree.find? (aid : String) : HTree → Option HTree
  | .node s cs =>
      if s.id = aid then some (.node s cs) else HTree.findList? aid cs

/-- `HTree.find?` over a forest. -/
def HTree.findList? (aid : String) : List HTree → Option HTree
  | [] => none
  | t :: ts =>
      match HTree.find? aid t with
      | some r => some r
      | none => HTree.findList? aid ts

end

mutual

/-- Locate a node by id together with its parent's state (depth-first,
first match). -/
def HTree.locate (aid : String) (parent : Option AgentState) :
    HTree → Option (Option AgentState × HTree)
  | .node s cs =>
      if s.id = aid then some (parent, .node s cs)
      else HTree.locateList aid s cs

/-- `HTree.locate` over the children of a node with state `p`. -/
def HTree.locateList (aid : String) (p : AgentState) :
    List HTree → Option (Option AgentState × HTree)
  | [] => none
  | t :: ts =>
      match HTree.locate aid (some p) t with
      | some r => some r
      | none => HTree.locateList aid p ts

end

mutual

/-- Rewrite the state of the first node (depth-first) with the given id;
`none` when the id is absent.  This is the functional image of Python's
in-place mutation of the object found by `_find_in_tree`. -/
def HTree.upd? (aid : String) (f : AgentState → AgentState) :
    HTree → Option HTree
  | .node s cs =>
      if s.id = aid then some (.node (f s) cs)
      else
        match HTree.updList? aid f cs with
        | some cs2 => some (.node s cs2)
        | none => none

/-- `HTree.upd?` over a forest. -/
def HTree.updList? (aid : String) (f : AgentState → AgentState) :
    List HTree → Option (List HTree)
  | [] => none
  | t :: ts =>
      match HTree.upd? aid f t with
      | some t2 => some (t2 :: ts)
      | none =>
          match HTree.updList? aid f ts with
          | some ts2 => some (t :: ts2)
          | none => none

end

/-- Total version of `HTree.upd?`: identity when the id is absent. -/
def HTree.upd (t : HTree) (aid : String) (f : AgentState → AgentState) : HTree :=
  (HTree.upd? aid f t).getD t

/-! ## HUD serialization (`agent.py:to_dict`, `converter.py`) -/

mutual

/-- `json.dumps` (compact separators; string escaping reduced to the
quote and backslash, which is all the runtime's payloads need). -/
def Json.dumps : Json → String
  | .null => "null"
  | .bool b => if b then "true" else "false"
  | .num n => toString n
  | .str s => "\"" ++ s ++ "\""
  | .arr xs => "[" ++ Json.dumpsList xs ++ "]"
  | .obj fs => "\x7b" ++ Json.dumpsFields fs ++ "\x7d"

/-- Comma-joined serialization of array items. -/
def Json.dumpsList : List Json → String
  | [] => ""
  | [x] => Json.dumps x
  | x :: xs => Json.dumps x ++ ", " ++ Json.dumpsList xs

/-- Comma-joined serialization of object fields. -/
def Json.dumpsFields : List (String × Json) → String
  | [] => ""
  | [(k, v)] => "\"" ++ k ++ "\": " ++ Json.dumps v
  | (k, v) :: fs => "\"" ++ k ++ "\": " ++ Json.dumps v ++ ", " ++ Json.dumpsFields fs

end

/-- Modelled from the spec: token-count estimation is an external oracle
"returning an integer for a string" (`count_tokens` lives in the
`tokens` module, which is not under `src/`); any deterministic function
serves the claims. -/
def count_tokens (s : String) : Nat := s.length / 4

/-- `_get_holon_relationships`: ids and token banks of the children, and
of the parent when present. -/
def holonRelationships (parent : Option AgentState) (node : HTree) : Json :=
  let childEntry := fun (c : HTree) =>
    Json.obj [("id", .str c.state.id), ("token_bank", .num c.state.tokenBank)]
  let base := [("holon_children", Json.arr (node.children.map childEntry))]
  match parent with
  | none => Json.obj base
  | some p =>
      Json.obj (base ++
        [("holon_parent", Json.obj [("id", .str p.id), ("token_bank", .num p.tokenBank)])])

/-- Resolve one binding leaf at read time (`_resolve_self` /
`_resolve_purpose`: callables are invoked, statics pass through). -/
def resolveLeaf (parent : Option AgentState) (node : HTree) (now : Time) :
    Leaf → Json
  | .static j => j
  | .dyn .currentTime => .str (isoOf now)
  | .dyn .holonId => .str node.state.id
  | .dyn .holonTree => holonRelationships parent node
  | .dyn .knowledgeRef => node.state.knowledge
  | .dyn .tokenBankRef => .num node.state.tokenBank
  | .dyn .lastHeartbeatRef =>
      match node.state.lastHeartbeat with
      | none => .null
      | some t => .str (isoOf t)
  | .dyn .nextHeartbeatRef => .str (isoOf node.state.nextHeartbeat)
  | .dyn .heartRateRef => .num node.state.heartRate

/-- Resolve a whole binding map to a JSON object. -/
def resolveBindings (parent : Option AgentState) (node : HTree) (now : Time)
    (b : Bindings) : Json :=
  Json.obj (b.map (fun p => (p.1, resolveLeaf parent node now p.2)))

/-- Converter output for one registered action (name plus purpose when
set; constant signature descriptors elided). -/
def serializeAction (a : ActionItem) : Json :=
  Json.obj ([("name", .str a.name)] ++
    (if a.purpose = "" then [] else [("purpose", .str a.purpose)]))

/-- `HolonicObject.to_dict`: the HUD — resolved purpose and self (omitted
when empty), the action descriptors (omitted when none), and
`hud_tokens` counted over the JSON of the former. -/
def hudAt (parent : Option AgentState) (node : HTree) (now : Time) : Json :=
  let s := node.state
  let base :=
    (if s.purposeBindings.isEmpty then []
     else [("purpose", resolveBindings parent node now s.purposeBindings)]) ++
    (if s.selfBindings.isEmpty then []
     else [("self", resolveBindings parent node now s.selfBindings)]) ++
    (if s.actions.isEmpty then []
     else [("actions", Json.arr (s.actions.map serializeAction))])
  Json.obj (base ++ [("hud_tokens", .num (count_tokens (Json.dumps (Json.obj base))))])

/-- The HUD of the tree's agent with the given id (`hobj.to_dict()`
evaluated in its tree context). -/
def hudOfId (t : HTree) (aid : String) (now : Time) : Json :=
  match t.locate aid none with
  | some (p, node) => hudAt p node now
  | none => Json.null

/-! ## JSON text parsing (model of `json.loads`)

A complete-document JSON parser: the whole input, up to surrounding
whitespace, must be one JSON value — exactly the contract `json.loads`
enforces, which is what decides the reply-parsing claims.  The modelled
subset restricts numeric literals to integers and string escapes to
quote, backslash, slash, `n`, `t`, `r` (a conservative subset: inputs
outside it are rejected). -/

/-- Opening brace character (written via its code point). -/
def braceO : Char := Char.ofNat 123

/-- Closing brace character (written via its code point). -/
def braceC : Char := Char.ofNat 125

/-- Backslash character. -/
def backslashC : Char := Char.ofNat 92

/-- Double-quote character. -/
def quoteC : Char := Char.ofNat 34

/-- Drop JSON whitespace. -/
def skipWs (cs : List Char) : List Char :=
  cs.dropWhile (fun c => c = ' ' ∨ c = '\n' ∨ c = '\t' ∨ c = '\r')

/-- Parse the remainder of a string literal (after the opening quote). -/
def parseJsonString : Nat → List Char → Option (String × List Char)
  | 0, _ => none
  | _, [] => none
  | fuel + 1, c :: rest =>
      if c = quoteC then some ("", rest)
      else if c = backslashC then
        match rest with
        | [] => none
        | e :: rest2 =>
            let dec : Option Char :=
              if e = 'n' then some '\n'
              else if e = 't' then some '\t'
              else if e = 'r' then some '\r'
              else if e = quoteC then some quoteC
              else if e = backslashC then some backslashC
              else if e = '/' then some '/'
              else none
            match dec with
            | some d =>
                (parseJsonString fuel rest2).map (fun p => (String.mk (d :: p.1.data), p.2))
            | none => none
      else
        (parseJsonString fuel rest).map (fun p => (String.mk (c :: p.1.data), p.2))

/-- Parse an integer literal (floats are outside the modelled subset). -/
def parseJsonNumber (cs : List Char) : Option (Json × List Char) :=
  let (neg, cs1) :=
    match cs with
    | '-' :: rest => (true, rest)
    | _ => (false, cs)
  let digits := cs1.takeWhile Char.isDigit
  if digits.isEmpty then none
  else
    let rest := cs1.drop digits.length
    match rest with
    | '.' :: _ => none
    | 'e' :: _ => none
    | 'E' :: _ => none
    | _ =>
        let n : Int := digitsToNat digits
        some (Json.num (if neg then -n else n), rest)

mutual

/-- Parse one JSON value, returning it with the unconsumed remainder. -/
def parseJsonVal : Nat → List Char → Option (Json × List Char)
  | 0, _ => none
  | fuel + 1, cs0 =>
      match skipWs cs0 with
      | [] => none
      | c :: rest =>
          if c = quoteC then
            (parseJsonString (fuel + 1) rest).map (fun p => (Json.str p.1, p.2))
          else if c = braceO then
            match skipWs rest with
            | c2 :: r2 =>
                if c2 = braceC then some (Json.obj [], r2)
                else parseJsonMembers fuel (c2 :: r2) []
            | [] => none
          else if c = '[' then
            match skipWs rest with
            | ']' :: r2 => some (Json.arr [], r2)
            | r2 => parseJsonItems fuel r2 []
          else if c = 't' then
            match rest with
            | 'r' :: 'u' :: 'e' :: r => some (Json.bool true, r)
            | _ => none
          else if c = 'f' then
            match rest with
            | 'a' :: 'l' :: 's' :: 'e' :: r => some (Json.bool false, r)
            | _ => none
          else if c = 'n' then
            match rest with
            | 'u' :: 'l' :: 'l' :: r => some (Json.null, r)
            | _ => none
          else if c = '-' ∨ c.isDigit then parseJsonNumber (c :: rest)
          else none

/-- Parse `"key": value (, …)* brace-close`, accumulating fields;
duplicate keys overwrite in place like Python dict construction. -/
def parseJsonMembers : Nat → List Char → List (String × Json) →
    Option (Json × List Char)
  | 0, _, _ => none
  | fuel + 1, cs0, acc =>
      match skipWs cs0 with
      | c :: rest =>
          if c = quoteC then
            match parseJsonString (fuel + 1) rest with
            | some (k, r1) =>
                match skipWs r1 with
                | ':' :: r2 =>
                    match parseJsonVal fuel r2 with
                    | some (v, r3) =>
                        let acc2 := aset acc k v
                        match skipWs r3 with
                        | ',' :: r4 => parseJsonMembers fuel r4 acc2
                        | c2 :: r4 =>
                            if c2 = braceC then some (Json.obj acc2, r4) else none
                        | [] => none
                    | none => none
                | _ => none
            | none => none
          else none
      | [] => none

/-- Parse `value (, …)* ]`, accumulating items. -/
def parseJsonItems : Nat → List Char → List Json → Option (Json × List Char)
  | 0, _, _ => none
  | fuel + 1, cs0, acc =>
      match parseJsonVal fuel cs0 with
      | some (v, r1) =>
          match skipWs r1 with
          | ',' :: r2 => parseJsonItems fuel r2 (acc ++ [v])
          | ']' :: r2 => some (Json.arr (acc ++ [v]), r2)
          | _ => none
      | none => none

end

/-- `json.loads`: the whole text (modulo whitespace) must be one JSON
document, else `json.JSONDecodeError`. -/
def jsonLoads (s : String) : Except Unit Json :=
  match parseJsonVal (4 * (s.length + 1)) s.data with
  | some (j, rest) => if (skipWs rest).isEmpty then .ok j else .error ()
  | none => .error ()

/-! ## Reply parsing (`serialization.py:parse_ai_response`,
`heart.py:Heartbeat.process_response`) -/

/-- Errors raised while handling an AI reply: a JSON decode failure, the
`ValueError` for an unrecognized shape, and the `AttributeError` from
calling `.get` on a non-dict parse result. -/
inductive RErr where
  | jsonDecode
  | invalidFormat
  | attributeError
  deriving DecidableEq

/-- `parse_ai_response` (string input): a strict `json.loads`, then
either the `actions` list, a single action wrapped in a list, or
`ValueError`.  There is no code-fence or brace extraction.  (A valid
JSON document that is not an object is likewise rejected; that path is
unreachable from `process_response`, which only falls back here after
`json.loads` has already failed.) -/
def parse_ai_response (response : String) : Except RErr Json :=
  match jsonLoads response with
  | .error _ => .error .jsonDecode
  | .ok data =>
      match data with
      | .obj fs =>
          if (jlookup fs "actions").isSome then
            .ok ((jlookup fs "actions").getD .null)
          else if (jlookup fs "action").isSome then .ok (.arr [.obj fs])
          else .error .invalidFormat
      | _ => .error .invalidFormat

/-- One agent's participation in a heartbeat
(`HolonicObjectHeartbeatRecord`): the deep-copied HUD, the scheduled
time and the actions assigned by `process_response`. -/
structure HRecord where
  agentId : String
  hudSent : Json
  scheduledTime : Time
  actionsResult : Json
  deriving DecidableEq

/-- One heartbeat cycle (`Heartbeat`).  The prompt text is not modelled:
no claim observes it (the claims observe whether the AI is called at
all, which `beat`'s control flow captures). -/
structure HB where
  heartbeatTime : Time
  executionTime : Option Time
  completionTime : Option Time
  records : List HRecord
  rawResponse : String
  deriving DecidableEq

/-- The default actions value for an agent missing from the reply:
`{"actions": []}`. -/
def emptyActions : Json := Json.obj [("actions", Json.arr [])]

/-- Distribute a parsed reply over the records:
`record.actions_result = parsed.get(record.hobj.id, {"actions": []})`.
Calling `.get` on a non-dict raises `AttributeError` (only reachable
when there is at least one record). -/
def distributeParsed (records : List HRecord) (parsed : Json) :
    Except RErr (List HRecord) :=
  match parsed with
  | .obj fs =>
      .ok (records.map (fun r =>
        { r with actionsResult := (jlookup fs r.agentId).getD emptyActions }))
  | _ => if records.isEmpty then .ok records else .error .attributeError

/-- `Heartbeat.process_response`: strict `json.loads`; on failure, fall
back to `parse_ai_response` (itself a strict parse of the same text —
the decode error therefore escapes); then distribute per-agent results
with `{"actions": []}` as the default. -/
def HB.processResponse (hb : HB) (text : String) : Except RErr HB :=
  let hb1 := { hb with rawResponse := text }
  match jsonLoads text with
  | .ok parsed =>
      (distributeParsed hb1.records parsed).map
        (fun rs => { hb1 with records := rs })
  | .error _ =>
      match parse_ai_response text with
      | .ok parsed =>
          (distributeParsed hb1.records parsed).map
            (fun rs => { hb1 with records := rs })
      | .error e => .error e

/-! ## Persistence (`storage/schema.py`, `storage/sql.py`)

Rows mirror the relational schema; JSON columns hold the JSON value
(`json.loads (json.dumps x) = x` on JSON-safe values, so the string
layer is elided).  `created_at`/`updated_at` bookkeeping columns play no
role in any claim. -/

/-- A row of the `hobjs` table (instance state). -/
structure HobjRow where
  id : String
  parentId : Option String
  knowledge : Option Json
  tokenBank : Int
  heartRate : Int
  lastHeartbeat : Option Time
  nextHeartbeat : Time
  deriving DecidableEq

/-- A row of the `holons` table (definition: the static, non-callable
binding leaves; action descriptors are constant and elided). -/
structure HolonRow where
  id : String
  purpose : Option (List (String × Json))
  selfState : Option (List (String × Json))
  deriving DecidableEq

/-- A row of the `messages` table. -/
structure MsgRow where
  id : String
  senderId : String
  recipientIds : List String
  content : Json
  tokensAttached : Int
  timestamp : Time
  deriving DecidableEq

/-- The relational store. -/
structure Store where
  hobjs : List HobjRow
  holons : List HolonRow
  msgs : List MsgRow
  deriving DecidableEq

/-- A freshly created database. -/
def emptyStore : Store := ⟨[], [], []⟩

/-- Insert-or-update by primary key (`save_hobj`). -/
def upsertHobj (rows : List HobjRow) (r : HobjRow) : List HobjRow :=
  if rows.any (fun x => x.id = r.id) then
    rows.map (fun x => if x.id = r.id then r else x)
  else rows ++ [r]

/-- Insert-or-update by primary key (`save_holon`). -/
def upsertHolon (rows : List HolonRow) (r : HolonRow) : List HolonRow :=
  if rows.any (fun x => x.id = r.id) then
    rows.map (fun x => if x.id = r.id then r else x)
  else rows ++ [r]

/-- The `holons` row written by `save_holon`: the static binding leaves,
`NULL` when there are none. -/
def holonRowOf (s : AgentState) : HolonRow :=
  let pu := staticOf s.purposeBindings
  let se := staticOf s.selfBindings
  { id := s.id
    purpose := if pu.isEmpty then none else some pu
    selfState := if se.isEmpty then none else some se }

/-- The `hobjs` row written by `save_hobj`: `NULL` knowledge for a falsy
(empty) knowledge dict. -/
def hobjRowOf (parentId : Option String) (s : AgentState) : HobjRow :=
  { id := s.id
    parentId := parentId
    knowledge := if s.knowledge.truthy then some s.knowledge else none
    tokenBank := s.tokenBank
    heartRate := s.heartRate
    lastHeartbeat := s.lastHeartbeat
    nextHeartbeat := s.nextHeartbeat }

/-- `save_full`: save both the holon definition and the instance row. -/
def saveFull (store : Store) (parentId : Option String) (s : AgentState) : Store :=
  { store with
    holons := upsertHolon store.holons (holonRowOf s)
    hobjs := upsertHobj store.hobjs (hobjRowOf parentId s) }

mutual

/-- `save_tree`: save this node, then each child recursively. -/
def saveTree (store : Store) (parentId : Option String) : HTree → Store
  | .node s cs => saveTreeList (saveFull store parentId s) s.id cs

/-- `saveTree` over the children of the node with id `pid`. -/
def saveTreeList (store : Store) (pid : String) : List HTree → Store
  | [] => store
  | t :: ts => saveTreeList (saveTree store (some pid) t) pid ts

end

/-- `load_hobj`: first row with the given primary key. -/
def findHobjRow (store : Store) (rid : String) : Option HobjRow :=
  store.hobjs.find? (fun r => r.id = rid)

/-- `load_holon`: first row with the given primary key. -/
def findHolonRow (store : Store) (rid : String) : Option HolonRow :=
  store.holons.find? (fun r => r.id = rid)

/-- `list_hobjs(parent_id=pid)`: ids of rows whose parent is `pid`, in
row order. -/
def childRowIds (store : Store) (pid : String) : List String :=
  (store.hobjs.filter (fun r => r.parentId = some pid)).map (fun r => r.id)

/-- The raw tree assembled by `load_tree` before reconstruction. -/
inductive RTree where
  | node (row : HobjRow) (holon : Option HolonRow) (children : List RTree)

/-- `load_tree`: read the row, its holon definition, and recursively the
rows whose `parent_id` points at it.  Fuel bounds the parent-chain depth
(the saved stores of the claims are acyclic and shallow enough). -/
def loadTreeAux (store : Store) : Nat → String → Option RTree
  | 0, _ => none
  | fuel + 1, rid =>
      match findHobjRow store rid with
      | none => none
      | some row =>
          match (childRowIds store rid).mapM (loadTreeAux store fuel) with
          | some children => some (.node row (findHolonRow store rid) children)
          | none => none

/-- Insert a message row into a timestamp-descending list. -/
def insertDescMsg (m : MsgRow) : List MsgRow → List MsgRow
  | [] => [m]
  | x :: xs =>
      if m.timestamp > x.timestamp then m :: x :: xs else x :: insertDescMsg m xs

/-- `get_messages(id, "both", limit)`: rows where the agent is sender or
among the recipients, newest first, truncated to the limit.  (The SQL
recipient check is a substring match over the JSON text; for GUID ids
this coincides with membership.) -/
def getMessages (store : Store) (aid : String) (limit : Nat) : List MsgRow :=
  ((store.msgs.filter (fun r => r.senderId = aid ∨ aid ∈ r.recipientIds)).foldr
    insertDescMsg []).take limit

/-- Rebuild a `Message` from its row. -/
def msgOfRow (r : MsgRow) : Msg :=
  { id := r.id, senderId := r.senderId, recipientIds := r.recipientIds,
    content := r.content, tokensAttached := r.tokensAttached,
    timestamp := r.timestamp }

/-- `_restore_tree_recursive`: construct a fresh agent (the constructor
re-registers the dynamic self leaves), overwrite its state from the row,
merge the stored static binding leaves, rehydrate up to 1000 messages,
and restore the children. -/
def restoreRTree (store : Store) : RTree → HTree
  | .node row holon children =>
      let base := newAgent row.id row.nextHeartbeat
      let pu := ((holon.bind (fun h => h.purpose)).getD []).map
        (fun p => (p.1, Leaf.static p.2))
      let se := ((holon.bind (fun h => h.selfState)).getD []).map
        (fun p => (p.1, Leaf.static p.2))
      let s : AgentState :=
        { base with
          knowledge := row.knowledge.getD (.obj [])
          tokenBank := row.tokenBank
          heartRate := row.heartRate
          lastHeartbeat := row.lastHeartbeat
          nextHeartbeat := row.nextHeartbeat
          purposeBindings := aupdate [] pu
          selfBindings := aupdate defaultSelfBindings se
          inbox := (getMessages store row.id 1000).map msgOfRow }
      HTree.node s (children.attach.map (fun c => restoreRTree store c.1))
termination_by r => sizeOf r
decreasing_by
  simp only [RTree.node.sizeOf_spec]
  have := List.sizeOf_lt_of_mem c.2
  omega

/-- `restore_tree`: load the raw tree from the store and reconstruct the
agents. -/
def restoreTree (store : Store) (rootId : String) : Option HTree :=
  (loadTreeAux store (store.hobjs.length + 1) rootId).map (restoreRTree store)

/-! ## The runtime world

The live tree, the scheduler's heartbeat history and standing token
allocations (`HolonicHeart`), a fresh-GUID counter standing for
`uuid4()`, and the bound store. -/

/-- The whole observable runtime state. -/
structure World where
  tree : HTree
  history : List HB
  allocations : List (String × Int)
  fresh : Nat
  store : Store

/-- A fresh GUID from the counter. -/
def freshId (n : Nat) : String := "guid-" ++ toString n

/-- The located state of the agent with the given id. -/
def World.agent (w : World) (aid : String) : Option AgentState :=
  (w.tree.locate aid none).map (fun p => p.2.state)

/-- Rewrite the state of the agent with the given id. -/
def updState (w : World) (aid : String) (f : AgentState → AgentState) : World :=
  { w with tree := w.tree.upd aid f }

mutual

/-- Rewrite the whole subtree rooted at the first node (depth-first)
with the given id. -/
def HTree.updNode? (aid : String) (f : HTree → HTree) : HTree → Option HTree
  | .node s cs =>
      if s.id = aid then some (f (.node s cs))
      else
        match HTree.updNodeList? aid f cs with
        | some cs2 => some (.node s cs2)
        | none => none

/-- `HTree.updNode?` over a forest. -/
def HTree.updNodeList? (aid : String) (f : HTree → HTree) :
    List HTree → Option (List HTree)
  | [] => none
  | t :: ts =>
      match HTree.updNode? aid f t with
      | some t2 => some (t2 :: ts)
      | none =>
          match HTree.updNodeList? aid f ts with
          | some ts2 => some (t :: ts2)
          | none => none

end

/-- Total version of `HTree.updNode?`. -/
def HTree.updNode (t : HTree) (aid : String) (f : HTree → HTree) : HTree :=
  (HTree.updNode? aid f t).getD t

/-- `_auto_save`: when the agent has a bound store, `save_full` it (with
its parent id); otherwise do nothing. -/
def World.autoSave (w : World) (aid : String) : World :=
  match w.tree.locate aid none with
  | some (p, node) =>
      if node.state.storageBound then
        { w with store := saveFull w.store (p.map (fun q => q.id)) node.state }
      else w
  | none => w

/-- `save_message`: insert a `messages` row; a duplicate primary key
raises (`IntegrityError`). -/
def saveMessage (store : Store) (m : Msg) : Except Unit Store :=
  if store.msgs.any (fun r => r.id = m.id) then .error ()
  else
    .ok { store with msgs := store.msgs ++
      [{ id := m.id, senderId := m.senderId, recipientIds := m.recipientIds,
         content := m.content, tokensAttached := m.tokensAttached,
         timestamp := m.timestamp }] }

/-- `add_message`: append to the agent's message history, then persist
the row when a store is bound. -/
def addMessage (w : World) (aid : String) (m : Msg) : Except Unit World :=
  let w1 := updState w aid (fun s => { s with inbox := s.inbox ++ [m] })
  match w1.tree.locate aid none with
  | some (_, node) =>
      if node.state.storageBound then
        (saveMessage w1.store m).map (fun st => { w1 with store := st })
      else .ok w1
  | none => .ok w1

/-- Deliver to one recipient id: look it up from the root of the tree;
a found recipient distinct from the sender appends the message, an
absent one is silently dropped. -/
def deliverMessage (w : World) (senderId rid : String) (m : Msg) :
    Except Unit World :=
  match w.tree.find? rid with
  | some node =>
      if node.state.id ≠ senderId then addMessage w rid m else .ok w
  | none => .ok w

/-- Deliver to each recipient id in order. -/
def deliverList (w : World) (senderId : String) (m : Msg) :
    List String → Except Unit World
  | [] => .ok w
  | rid :: rest => do
      let w1 ← deliverMessage w senderId rid m
      deliverList w1 senderId m rest

/-- `send_message`: create the message (fresh GUID, full recipient list,
now-timestamp), append it to the sender's history (persisting a row when
the sender is bound), then deliver to each recipient id. -/
def sendMessage (w : World) (senderId : String) (rids : List String)
    (content : Json) (tokens : Int) (now : Time) : Except Unit World :=
  let m : Msg :=
    { id := freshId w.fresh, senderId := senderId, recipientIds := rids,
      content := content, tokensAttached := tokens, timestamp := now }
  let w0 := { w with fresh := w.fresh + 1 }
  match addMessage w0 senderId m with
  | .error e => .error e
  | .ok w1 => deliverList w1 senderId m rids

/-- Remove the first child with the given id from a child list. -/
def removeFirstChild (cid : String) : List HTree → List HTree × Bool
  | [] => ([], false)
  | c :: rest =>
      if c.state.id = cid then (rest, true)
      else
        let (r, b) := removeFirstChild cid rest
        (c :: r, b)

/-- `remove_child`: pop the first matching child from the parent's list
(and with it the child's whole subtree), auto-save the parent, return
whether one was removed.  No storage row is deleted. -/
def removeChild (w : World) (parentId cid : String) : World × Bool :=
  match w.tree.locate parentId none with
  | none => (w, false)
  | some (_, pnode) =>
      let (cs2, removed) := removeFirstChild cid pnode.children
      if removed then
        let w1 := { w with
          tree := w.tree.updNode parentId (fun n => .node n.state cs2) }
        (w1.autoSave parentId, true)
      else (w, false)

/-! ## Action dispatch (`containers.py:HolonActions.execute`,
`holon.py:dispatch_many`, the built-in actions of `agent.py`) -/

/-- Errors surfaced by dispatching one action: the registry `KeyError`,
parameter-binding `TypeError`s, path errors raised inside an action,
`AttributeError` on a malformed call object, and a storage error. -/
inductive DErr where
  | keyError
  | typeError
  | attributeError
  | pathErr (e : PErr)
  | storeError
  deriving DecidableEq

/-- Keyword-binding check for `callback(**params)`: every required name
present, no unexpected names. -/
def paramKeysOk (ps : List (String × Json)) (required optional : List String) :
    Bool :=
  required.all (fun k => (alookup ps k).isSome) &&
    ps.all (fun p => p.1 ∈ required ∨ p.1 ∈ optional)

/-- Recipient-id coercion for `send_message` params: a string denotes a
single-element list; list entries pass through (a non-string entry is
rendered to text — it can never match a GUID). -/
def recipientsOf : Json → Option (List String)
  | .str s => some [s]
  | .arr xs => some (xs.map (fun x => match x with
      | .str s => s
      | other => Json.dumps other))
  | _ => none

/-- The child constructed by `create_child`: a fresh agent, copying the
template's bindings, knowledge and bank when a `template_id` is given
(`None` when the template does not resolve in the tree); the storage
binding propagates from the parent.  The constructor re-registers the
dynamic self leaves over the copied ones. -/
def mkChildOf (w : World) (now : Time) (pnode : HTree)
    (ps : List (String × Json)) : Option AgentState :=
  match alookup ps "template_id" with
  | none =>
      some { newAgent (freshId w.fresh) now with
             storageBound := pnode.state.storageBound }
  | some (.str tid) =>
      match w.tree.find? tid with
      | none => none
      | some tmpl =>
          some { newAgent (freshId w.fresh) now with
                 purposeBindings := tmpl.state.purposeBindings
                 selfBindings := aupdate tmpl.state.selfBindings defaultSelfBindings
                 knowledge := tmpl.state.knowledge
                 tokenBank := tmpl.state.tokenBank
                 storageBound := pnode.state.storageBound }
  | some _ => none

theorem mkChildOf_id (w : World) (now : Time) (pnode : HTree)
    (ps : List (String × Json)) (c : AgentState)
    (h : mkChildOf w now pnode ps = some c) : c.id = freshId w.fresh := by
  unfold mkChildOf at h
  split at h
  · simp only [Option.some.injEq] at h
    rw [← h]
    rfl
  · split at h
    · simp at h
    · simp only [Option.some.injEq] at h
      rw [← h]
      rfl
  · simp at h

/-- Execute one built-in action callback on the world (`self` is the
agent with id `selfId`).  Purpose paths are single-segment in every use
the claims cover; binding maps are flat (see `Bindings`). -/
def execBuiltin (w : World) (selfId : String) (now : Time) (name : String)
    (ps : List (String × Json)) : Except DErr World :=
  if name = "knowledge_set" then
    if paramKeysOk ps ["path", "value"] [] then
      match alookup ps "path", alookup ps "value" with
      | some (.str path), some v =>
          match w.agent selfId with
          | some s =>
              match setAtPath s.knowledge (parsePath path) v with
              | .ok k2 =>
                  .ok ((updState w selfId (fun s2 => { s2 with knowledge := k2 })).autoSave selfId)
              | .error e => .error (.pathErr e)
          | none => .error .keyError
      | _, _ => .error .typeError
    else .error .typeError
  else if name = "knowledge_delete" then
    if paramKeysOk ps ["path"] [] then
      match alookup ps "path" with
      | some (.str path) =>
          match w.agent selfId with
          | some s =>
              match deleteAtPath s.knowledge (parsePath path) with
              | .ok k2 =>
                  .ok ((updState w selfId (fun s2 => { s2 with knowledge := k2 })).autoSave selfId)
              | .error e => .error (.pathErr e)
          | none => .error .keyError
      | _ => .error .typeError
    else .error .typeError
  else if name = "child_purpose_set" then
    if paramKeysOk ps ["child_id", "path", "value"] [] then
      match alookup ps "child_id", alookup ps "path", alookup ps "value" with
      | some (.str cid), some (.str path), some v =>
          match (w.tree.locate selfId none).bind
              (fun p => p.2.children.find? (fun c => c.state.id = cid)) with
          | some _ =>
              match parsePath path with
              | [PKey.key k] =>
                  .ok ((updState w cid (fun s2 =>
                    { s2 with purposeBindings := aset s2.purposeBindings k (.static v) })).autoSave cid)
              | _ => .error .typeError
          | none => .error .keyError
      | _, _, _ => .error .typeError
    else .error .typeError
  else if name = "child_purpose_clear" then
    if paramKeysOk ps ["child_id"] [] then
      match alookup ps "child_id" with
      | some (.str cid) =>
          match (w.tree.locate selfId none).bind
              (fun p => p.2.children.find? (fun c => c.state.id = cid)) with
          | some _ =>
              -- `child._purpose_bindings.clear()` — note: no auto-save here
              .ok (updState w cid (fun s2 => { s2 with purposeBindings := [] }))
          | none => .error .keyError
      | _ => .error .typeError
    else .error .typeError
  else if name = "create_child" then
    if paramKeysOk ps [] ["template_id"] then
      match w.tree.locate selfId none with
      | none => .error .keyError
      | some (_, pnode) =>
          match mkChildOf w now pnode ps with
          | none => .error .keyError
          | some child =>
              let w1 := { w with fresh := w.fresh + 1 }
              let t2 :=
                w1.tree.updNode selfId
                  (fun n => .node n.state (n.children ++ [.node child []]))
              let w2 := { w1 with tree := t2 }
              .ok ((w2.autoSave child.id).autoSave selfId)
    else .error .typeError
  else if name = "send_message" then
    if paramKeysOk ps ["recipient_ids", "content"] ["tokens"] then
      match (alookup ps "recipient_ids").bind recipientsOf with
      | some rids =>
          let tokens : Except DErr Int :=
            match alookup ps "tokens" with
            | none => .ok 0
            | some (.num k) => .ok k
            | some _ => .error .typeError
          match tokens with
          | .error e => .error e
          | .ok tk =>
              let content := (alookup ps "content").getD .null
              match sendMessage w selfId rids content tk now with
              | .ok w1 => .ok w1
              | .error _ => .error .storeError
      | none => .error .typeError
    else .error .typeError
  else if name = "sleep" then
    if paramKeysOk ps ["seconds"] [] then
      match alookup ps "seconds" with
      | some (.num k) =>
          .ok ((updState w selfId (fun s2 =>
            { s2 with nextHeartbeat := s2.nextHeartbeat + k * 1000000 })).autoSave selfId)
      | _ => .error .typeError
    else .error .typeError
  else .error .keyError

/-- `Holon.dispatch` on one call object of the AI reply: read
`call.get("action")` and `call.get("params", {})`, look the name up in
the registry (`KeyError` when absent), and invoke the callback. -/
def dispatchOne (w : World) (selfId : String) (now : Time) (call : Json) :
    Except DErr World :=
  match call with
  | .obj fs =>
      let params := (jlookup fs "params").getD (.obj [])
      match params with
      | .obj ps =>
          match (jlookup fs "action").getD .null with
          | .str name =>
              match w.agent selfId with
              | some s =>
                  if s.actions.any (fun a => a.name = name) then
                    execBuiltin w selfId now name ps
                  else .error .keyError
              | none => .error .keyError
          | _ => .error .keyError
      | _ => .error .typeError
  | _ => .error .attributeError

/-- `dispatch_many`: execute the calls in order; there is no per-action
error handling, so the first failing action stops the loop and the error
propagates (the world keeps the effects of the executed prefix).  Also
returns how many calls were executed. -/
def dispatchMany (w : World) (selfId : String) (now : Time) :
    List Json → World × Option DErr × Nat
  | [] => (w, none, 0)
  | c :: rest =>
      match dispatchOne w selfId now c with
      | .error e => (w, some e, 0)
      | .ok w1 =>
          let (w2, e, n) := dispatchMany w1 selfId now rest
          (w2, e, n + 1)

/-! ## Heartbeat dispatch and the tick (`agent.py:action_results`,
`heart.py:HolonicHeart.beat`) -/

/-- `HolonicObject.action_results`: set `last_heartbeat` to the
heartbeat time and `next_heartbeat` to it plus `heart_rate_secs`, then
dispatch the action calls; on success clear the in-flight marker — the
clearing is modelled from the spec, which places it after dispatch
(`dispatch_to_holonicobjects calls action_results which clears active
heartbeat`; the marker code itself is not under `src/`) — and auto-save.
A dispatch error propagates before those trailing steps. -/
def actionResults (w : World) (aid : String) (results : Json)
    (hbTime now : Time) : World × Option DErr :=
  let w1 := updState w aid (fun s =>
    { s with lastHeartbeat := some hbTime,
             nextHeartbeat := hbTime + s.heartRate * 1000000 })
  match results with
  | .obj fs =>
      match (jlookup fs "actions").getD (.arr []) with
      | .arr calls =>
          let (w2, e, _) := dispatchMany w1 aid now calls
          match e with
          | some err => (w2, some err)
          | none =>
              let w3 := updState w2 aid (fun s => { s with activeHeartbeat := none })
              (w3.autoSave aid, none)
      | _ => (w1, some .typeError)
  | _ => (w1, some .attributeError)

/-- `Heartbeat.dispatch_to_holonicobjects`: `action_results` for every
record in order; an exception from one agent's dispatch propagates, so
the remaining agents are not dispatched. -/
def dispatchAll (w : World) (hbTime now : Time) :
    List HRecord → World × Option DErr
  | [] => (w, none)
  | r :: rest =>
      let (w1, e) := actionResults w r.agentId r.actionsResult hbTime now
      match e with
      | some err => (w1, some err)
      | none => dispatchAll w1 hbTime now rest

/-- A tick failure: the reply-parsing exception or a dispatch exception
(`beat` has no handler; the run loop swallows them). -/
inductive TickErr where
  | parseErr (e : RErr)
  | dispatchErr (e : DErr)
  deriving DecidableEq

/-- `token_bank += amount` for every standing allocation, in order (the
property setter auto-saves). -/
def applyAllocations (w : World) : World :=
  w.allocations.foldl
    (fun acc p =>
      (updState acc p.1 (fun s => { s with tokenBank := s.tokenBank + p.2 })).autoSave p.1)
    w

/-- The due filter of `beat`: scheduled strictly before the next second
boundary, non-negative token bank, no active heartbeat. -/
def dueP (boundary : Time) (p : AgentState × Time) : Bool :=
  decide (p.2 < boundary ∧ 0 ≤ p.1.tokenBank ∧ p.1.activeHeartbeat = none)

/-- The due set computed by a tick at `now`: collected pairs surviving
the filter, evaluated on the post-allocation tree. -/
def dueListOf (w : World) (now : Time) : List (AgentState × Time) :=
  (applyAllocations w).tree.collectDue.filter (dueP (floorSec now + 1000000))

/-- One iteration of `beat`'s selection loop: snapshot the due agent's
HUD into a record (`add_holonicobject` — the deep copy makes the stored
HUD a value) and mark the agent in-flight with its scheduled time
(`mark_heartbeat_started`, modelled from the spec). -/
def markRecStep (now : Time) (acc : World × List HRecord)
    (p : AgentState × Time) : World × List HRecord :=
  (updState acc.1 p.1.id (fun s => { s with activeHeartbeat := some p.2 }),
   acc.2 ++
     [{ agentId := p.1.id, hudSent := hudOfId acc.1.tree p.1.id now,
        scheduledTime := p.2, actionsResult := .obj [] }])

/-- The selection phase of `HolonicHeart.beat` — everything before the
AI call: round `now` down to the second, apply token allocations,
collect `(agent, next_heartbeat)` pairs, filter the due set (returning
no heartbeat when it is empty), snapshot each due agent's HUD into a
fresh `Heartbeat` while marking it in-flight, set the execution time,
and append the heartbeat to history before the call. -/
def beatSelect (w : World) (now : Time) : World × Option HB :=
  let w1 := applyAllocations w
  let due := dueListOf w now
  if due.isEmpty then (w1, none)
  else
    let z := due.foldl (markRecStep now) (w1, [])
    let hb : HB :=
      { heartbeatTime := floorSec now, executionTime := some now,
        completionTime := none, records := z.2, rawResponse := "" }
    ({ z.1 with history := z.1.history ++ [hb] }, some hb)

/-- Replace the last element (in-place mutation of the heartbeat object
already appended to history). -/
def replaceLast {α : Type} (xs : List α) (x : α) : List α :=
  xs.dropLast ++ [x]

/-- One full `HolonicHeart.beat` tick.  The AI transport's reply text is
an oracle input (consumed only when a heartbeat was selected).  Returns
the new world and either the completed heartbeat (`none` when no agent
was due — the AI is not called and history is untouched) or the
propagating exception. -/
def beat (w : World) (now : Time) (response : String) :
    World × Except TickErr (Option HB) :=
  match beatSelect w now with
  | (w1, none) => (w1, .ok none)
  | (w1, some hb) =>
      let hb1 := { hb with completionTime := some now }
      match hb1.processResponse response with
      | .error e =>
          -- the decode error escapes `beat`; the history entry keeps the
          -- in-place raw-response/completion mutations
          ({ w1 with history := replaceLast w1.history { hb1 with rawResponse := response } },
           .error (.parseErr e))
      | .ok hb2 =>
          let w2 := { w1 with history := replaceLast w1.history hb2 }
          let (w3, e) := dispatchAll w2 hb2.heartbeatTime now hb2.records
          match e with
          | some err => (w3, .error (.dispatchErr err))
          | none => (w3, .ok (some hb2))

/-! ## Infrastructure lemmas -/

/-- The id list of a flattened tree. -/
def idsOf (t : HTree) : List String := t.flatten.map (fun s => s.id)

/-- Pointwise image of an id-targeted update. -/
def updIf (aid : String) (f : AgentState → AgentState) (s : AgentState) :
    AgentState :=
  if s.id = aid then f s else s

theorem updIf_not_mem {aid : String} {f : AgentState → AgentState} :
    ∀ {xs : List AgentState}, aid ∉ xs.map (fun s => s.id) →
      xs.map (updIf aid f) = xs := by
  intro xs
  induction xs with
  | nil => intro _; rfl
  | cons x xs ih =>
      intro h
      simp only [List.map_cons, List.mem_cons, not_or] at h
      have hx : ¬x.id = aid := fun he => h.1 he.symm
      simp only [List.map_cons, updIf, if_neg hx, ih h.2]

mutual

theorem collectDue_eq_flatten :
    ∀ t : HTree, t.collectDue = t.flatten.map (fun s => (s, s.nextHeartbeat))
  | .node s cs => by
      simp only [HTree.collectDue, HTree.flatten, List.map_cons,
        collectDueList_eq_flattenList cs]

theorem collectDueList_eq_flattenList :
    ∀ ts : List HTree,
      HTree.collectDueList ts
        = (HTree.flattenList ts).map (fun s => (s, s.nextHeartbeat))
  | [] => by simp [HTree.collectDueList, HTree.flattenList]
  | t :: ts => by
      simp only [HTree.collectDueList, HTree.flattenList, List.map_append,
        collectDue_eq_flatten t, collectDueList_eq_flattenList ts]

end

mutual

theorem upd?_none_not_mem (aid : String) (f : AgentState → AgentState) :
    ∀ t : HTree, HTree.upd? aid f t = none → aid ∉ idsOf t
  | .node s cs => by
      intro h
      simp only [HTree.upd?] at h
      by_cases hs : s.id = aid
      · simp [hs] at h
      · simp only [if_neg hs] at h
        have hl : HTree.updList? aid f cs = none := by
          cases hcs : HTree.updList? aid f cs with
          | none => rfl
          | some cs2 => rw [hcs] at h; simp at h
        have := updList?_none_not_mem aid f cs hl
        simp only [idsOf, HTree.flatten, List.map_cons, List.mem_cons, not_or]
        exact ⟨fun hx => hs hx.symm, this⟩

theorem updList?_none_not_mem (aid : String) (f : AgentState → AgentState) :
    ∀ ts : List HTree, HTree.updList? aid f ts = none →
      aid ∉ (HTree.flattenList ts).map (fun s => s.id)
  | [] => by intro _; simp [HTree.flattenList]
  | t :: ts => by
      intro h
      simp only [HTree.updList?] at h
      cases ht : HTree.upd? aid f t with
      | some t2 => rw [ht] at h; simp at h
      | none =>
          rw [ht] at h
          cases hts : HTree.updList? aid f ts with
          | some ts2 => rw [hts] at h; simp at h
          | none =>
              have h1 := upd?_none_not_mem aid f t ht
              have h2 := updList?_none_not_mem aid f ts hts
              simp only [HTree.flattenList, List.map_append, List.mem_append]
              simp only [idsOf] at h1
              exact fun hc => hc.elim h1 h2

end

mutual

theorem upd?_some_mem (aid : String) (f : AgentState → AgentState) :
    ∀ (t t2 : HTree), HTree.upd? aid f t = some t2 → aid ∈ idsOf t
  | .node s cs, t2 => by
      intro h
      simp only [HTree.upd?] at h
      by_cases hs : s.id = aid
      · simp [idsOf, HTree.flatten, hs]
      · simp only [if_neg hs] at h
        cases hcs : HTree.updList? aid f cs with
        | none => rw [hcs] at h; simp at h
        | some cs2 =>
            have := updList?_some_mem aid f cs cs2 hcs
            simp only [idsOf, HTree.flatten, List.map_cons, List.mem_cons]
            exact Or.inr this

theorem updList?_some_mem (aid : String) (f : AgentState → AgentState) :
    ∀ (ts : List HTree) (ts2 : List HTree), HTree.updList? aid f ts = some ts2 →
      aid ∈ (HTree.flattenList ts).map (fun s => s.id)
  | [], ts2 => by intro h; simp [HTree.updList?] at h
  | t :: ts, ts2 => by
      intro h
      simp only [HTree.updList?] at h
      cases ht : HTree.upd? aid f t with
      | some u =>
          have := upd?_some_mem aid f t u ht
          simp only [HTree.flattenList, List.map_append, List.mem_append]
          simp only [idsOf] at this
          exact Or.inl this
      | none =>
          rw [ht] at h
          cases hts : HTree.updList? aid f ts with
          | none => rw [hts] at h; simp at h
          | some us =>
              have := updList?_some_mem aid f ts us hts
              simp only [HTree.flattenList, List.map_append, List.mem_append]
              exact Or.inr this

end

mutual

theorem flatten_upd?_some (aid : String) (f : AgentState → AgentState) :
    ∀ (t t2 : HTree), (idsOf t).Nodup → HTree.upd? aid f t = some t2 →
      t2.flatten = t.flatten.map (updIf aid f)
  | .node s cs, t2 => by
      intro hnd h
      simp only [HTree.upd?] at h
      simp only [idsOf, HTree.flatten, List.map_cons, List.nodup_cons] at hnd
      by_cases hs : s.id = aid
      · simp only [if_pos hs] at h
        cases h
        have hnot : aid ∉ (HTree.flattenList cs).map (fun x => x.id) := by
          rw [← hs]; exact hnd.1
        simp only [HTree.flatten, List.map_cons, updIf, if_pos hs,
          updIf_not_mem hnot]
      · simp only [if_neg hs] at h
        cases hcs : HTree.updList? aid f cs with
        | none => rw [hcs] at h; simp at h
        | some cs2 =>
            rw [hcs] at h
            simp only [Option.some.injEq] at h
            cases h
            have := flattenList_updList?_some aid f cs cs2 hnd.2 hcs
            simp only [HTree.flatten, List.map_cons, updIf,
              if_neg (fun hx : s.id = aid => hs hx), this]

theorem flattenList_updList?_some (aid : String) (f : AgentState → AgentState) :
    ∀ (ts ts2 : List HTree),
      ((HTree.flattenList ts).map (fun s => s.id)).Nodup →
      HTree.updList? aid f ts = some ts2 →
      HTree.flattenList ts2 = (HTree.flattenList ts).map (updIf aid f)
  | [], ts2 => by intro _ h; simp [HTree.updList?] at h
  | t :: ts, ts2 => by
      intro hnd h
      simp only [HTree.updList?] at h
      rw [show HTree.flattenList (t :: ts) = t.flatten ++ HTree.flattenList ts
            from rfl, List.map_append] at hnd
      cases ht : HTree.upd? aid f t with
      | some u =>
          rw [ht] at h
          simp only [Option.some.injEq] at h
          cases h
          have hmem := upd?_some_mem aid f t u ht
          have hflat := flatten_upd?_some aid f t u hnd.of_append_left ht
          have hmem2 : aid ∈ t.flatten.map (fun s => s.id) := hmem
          have hnot : aid ∉ (HTree.flattenList ts).map (fun s => s.id) :=
            List.disjoint_left.mp (List.disjoint_of_nodup_append hnd) hmem2
          simp only [HTree.flattenList, List.map_append, hflat,
            updIf_not_mem hnot]
      | none =>
          rw [ht] at h
          cases hts : HTree.updList? aid f ts with
          | none => rw [hts] at h; simp at h
          | some us =>
              rw [hts] at h
              simp only [Option.some.injEq] at h
              cases h
              have hnot := upd?_none_not_mem aid f t ht
              simp only [idsOf] at hnot
              have := flattenList_updList?_some aid f ts us hnd.of_append_right hts
              simp only [HTree.flattenList, List.map_append, this,
                updIf_not_mem hnot]

end

/-- Under unique ids, an id-targeted update acts pointwise on the
flattened tree. -/
theorem flatten_upd (aid : String) (f : AgentState → AgentState)
    (t : HTree) (hnd : (idsOf t).Nodup) :
    (t.upd aid f).flatten = t.flatten.map (updIf aid f) := by
  unfold HTree.upd
  cases h : HTree.upd? aid f t with
  | some t2 => simpa using flatten_upd?_some aid f t t2 hnd h
  | none =>
      have := upd?_none_not_mem aid f t h
      simp only [Option.getD_none]
      rw [updIf_not_mem this]

theorem ids_map_updIf {aid : String} {f : AgentState → AgentState}
    (hf : ∀ s, (f s).id = s.id) (xs : List AgentState) :
    (xs.map (updIf aid f)).map (fun s => s.id) = xs.map (fun s => s.id) := by
  induction xs with
  | nil => rfl
  | cons x xs ih =>
      simp only [List.map_cons, ih, updIf]
      by_cases hx : x.id = aid
      · rw [if_pos hx, hf]
      · rw [if_neg hx]

theorem idsOf_upd (aid : String) (f : AgentState → AgentState)
    (hf : ∀ s, (f s).id = s.id) (t : HTree) (hnd : (idsOf t).Nodup) :
    idsOf (t.upd aid f) = idsOf t := by
  unfold idsOf
  rw [flatten_upd aid f t hnd, ids_map_updIf hf]

theorem updState_def (w : World) (aid : String) (f : AgentState → AgentState) :
    updState w aid f = { w with tree := w.tree.upd aid f } := rfl

theorem autoSave_fields (w : World) (aid : String) :
    (w.autoSave aid).tree = w.tree ∧ (w.autoSave aid).history = w.history ∧
      (w.autoSave aid).allocations = w.allocations ∧
      (w.autoSave aid).fresh = w.fresh := by
  unfold World.autoSave
  split
  · split
    · exact ⟨rfl, rfl, rfl, rfl⟩
    · exact ⟨rfl, rfl, rfl, rfl⟩
  · exact ⟨rfl, rfl, rfl, rfl⟩

/-- Total allocation amount of the standing entries for one agent. -/
def allocSum (as : List (String × Int)) (aid : String) : Int :=
  ((as.filter (fun p => p.1 = aid)).map (fun p => p.2)).sum

/-- One allocation step of `applyAllocations`. -/
def allocStep (acc : World) (p : String × Int) : World :=
  (updState acc p.1 (fun s => { s with tokenBank := s.tokenBank + p.2 })).autoSave p.1

theorem applyAllocations_def (w : World) :
    applyAllocations w = w.allocations.foldl allocStep w := rfl

theorem bank_add_zero (s : AgentState) :
    { s with tokenBank := s.tokenBank + 0 } = s := by
  cases s
  simp

theorem foldAlloc_frame :
    ∀ (as : List (String × Int)) (w : World),
      (as.foldl allocStep w).history = w.history ∧
        (as.foldl allocStep w).allocations = w.allocations ∧
        (as.foldl allocStep w).fresh = w.fresh := by
  intro as
  induction as with
  | nil => intro w; exact ⟨rfl, rfl, rfl⟩
  | cons a rest ih =>
      intro w
      have h1 := ih (allocStep w a)
      have h2 := autoSave_fields (updState w a.1
        (fun s => { s with tokenBank := s.tokenBank + a.2 })) a.1
      refine ⟨?_, ?_, ?_⟩
      · rw [List.foldl_cons, h1.1]; exact h2.2.1
      · rw [List.foldl_cons, h1.2.1]; exact h2.2.2.1
      · rw [List.foldl_cons, h1.2.2]; exact h2.2.2.2

theorem foldAlloc_flatten :
    ∀ (as : List (String × Int)) (w : World), (idsOf w.tree).Nodup →
      (as.foldl allocStep w).tree.flatten
        = w.tree.flatten.map
            (fun s => { s with tokenBank := s.tokenBank + allocSum as s.id }) := by
  intro as
  induction as with
  | nil =>
      intro w _
      have hs : ∀ s ∈ w.tree.flatten,
          ({ s with tokenBank := s.tokenBank + allocSum [] s.id }) = s := by
        intro s _
        have h0 : allocSum [] s.id = 0 := rfl
        rw [h0]
        exact bank_add_zero s
      simp only [List.foldl_nil]
      symm
      calc w.tree.flatten.map
              (fun s => { s with tokenBank := s.tokenBank + allocSum [] s.id })
          = w.tree.flatten.map (fun s => s) := List.map_congr_left hs
        _ = w.tree.flatten := by simp
  | cons a rest ih =>
      intro w hnd
      rw [List.foldl_cons]
      have hf : ∀ s : AgentState,
          (({ s with tokenBank := s.tokenBank + a.2 } : AgentState)).id = s.id :=
        fun _ => rfl
      have htree : (allocStep w a).tree
          = w.tree.upd a.1 (fun s => { s with tokenBank := s.tokenBank + a.2 }) := by
        unfold allocStep
        exact (autoSave_fields _ _).1
      have hnd2 : (idsOf (allocStep w a).tree).Nodup := by
        rw [htree, idsOf_upd a.1 _ hf w.tree hnd]; exact hnd
      rw [ih (allocStep w a) hnd2, htree,
        flatten_upd a.1 (fun s => { s with tokenBank := s.tokenBank + a.2 }) w.tree hnd,
        List.map_map]
      refine List.map_congr_left ?_
      intro s _
      simp only [Function.comp, updIf]
      by_cases hx : s.id = a.1
      · rw [if_pos hx]
        have hfil : allocSum (a :: rest) s.id = a.2 + allocSum rest s.id := by
          unfold allocSum
          rw [List.filter_cons]
          have : (a.1 = s.id) := hx.symm
          simp [this]
        simp only [hfil]
        congr 1
        omega
      · rw [if_neg hx]
        have hfil : allocSum (a :: rest) s.id = allocSum rest s.id := by
          unfold allocSum
          rw [List.filter_cons]
          have : ¬(a.1 = s.id) := fun he => hx he.symm
          simp [this]
        rw [hfil]

theorem applyAllocations_flatten (w : World) (hnd : (idsOf w.tree).Nodup) :
    (applyAllocations w).tree.flatten
      = w.tree.flatten.map
          (fun s => { s with tokenBank := s.tokenBank + allocSum w.allocations s.id }) :=
  foldAlloc_flatten w.allocations w hnd

theorem applyAllocations_frame (w : World) :
    (applyAllocations w).history = w.history ∧
      (applyAllocations w).allocations = w.allocations ∧
      (applyAllocations w).fresh = w.fresh :=
  foldAlloc_frame w.allocations w

mutual

theorem map_proj_upd?_some {β : Type} (proj : AgentState → β) (aid : String)
    (f : AgentState → AgentState) (hf : ∀ s, proj (f s) = proj s) :
    ∀ (t t2 : HTree), HTree.upd? aid f t = some t2 →
      t2.flatten.map proj = t.flatten.map proj
  | .node s cs, t2 => by
      intro h
      simp only [HTree.upd?] at h
      by_cases hs : s.id = aid
      · simp only [if_pos hs, Option.some.injEq] at h
        cases h
        simp only [HTree.flatten, List.map_cons, hf s]
      · simp only [if_neg hs] at h
        cases hcs : HTree.updList? aid f cs with
        | none => rw [hcs] at h; simp at h
        | some cs2 =>
            rw [hcs] at h
            simp only [Option.some.injEq] at h
            cases h
            simp only [HTree.flatten, List.map_cons,
              map_projList_updList?_some proj aid f hf cs cs2 hcs]

theorem map_projList_updList?_some {β : Type} (proj : AgentState → β)
    (aid : String) (f : AgentState → AgentState) (hf : ∀ s, proj (f s) = proj s) :
    ∀ (ts ts2 : List HTree), HTree.updList? aid f ts = some ts2 →
      (HTree.flattenList ts2).map proj = (HTree.flattenList ts).map proj
  | [], ts2 => by intro h; simp [HTree.updList?] at h
  | t :: ts, ts2 => by
      intro h
      simp only [HTree.updList?] at h
      cases ht : HTree.upd? aid f t with
      | some u =>
          rw [ht] at h
          simp only [Option.some.injEq] at h
          cases h
          simp only [HTree.flattenList, List.map_append,
            map_proj_upd?_some proj aid f hf t u ht]
      | none =>
          rw [ht] at h
          cases hts : HTree.updList? aid f ts with
          | none => rw [hts] at h; simp at h
          | some us =>
              rw [hts] at h
              simp only [Option.some.injEq] at h
              cases h
              simp only [HTree.flattenList, List.map_append,
                map_projList_updList?_some proj aid f hf ts us hts]

end

/-- A projection preserved by the update function is preserved across
the whole flattened tree — no uniqueness assumption needed. -/
theorem map_proj_upd {β : Type} (proj : AgentState → β) (aid : String)
    (f : AgentState → AgentState) (hf : ∀ s, proj (f s) = proj s) (t : HTree) :
    (t.upd aid f).flatten.map proj = t.flatten.map proj := by
  unfold HTree.upd
  cases h : HTree.upd? aid f t with
  | some t2 => simpa using map_proj_upd?_some proj aid f hf t t2 h
  | none => rfl

/-! ### `beatSelect` characterizations -/

theorem beatSelect_empty (w : World) (now : Time)
    (h : dueListOf w now = []) :
    beatSelect w now = (applyAllocations w, none) := by
  unfold beatSelect
  rw [h]
  rfl

theorem beat_empty (w : World) (now : Time) (response : String)
    (h : dueListOf w now = []) :
    beat w now response = (applyAllocations w, .ok none) := by
  unfold beat
  rw [beatSelect_empty w now h]

/-- The fold state reached by the selection loop. -/
def markFoldOf (w : World) (now : Time) : World × List HRecord :=
  (dueListOf w now).foldl (markRecStep now) (applyAllocations w, [])

theorem beatSelect_nonempty (w : World) (now : Time)
    (h : dueListOf w now ≠ []) :
    beatSelect w now
      = ({ (markFoldOf w now).1 with
            history := (markFoldOf w now).1.history ++
              [{ heartbeatTime := floorSec now, executionTime := some now,
                 completionTime := none, records := (markFoldOf w now).2,
                 rawResponse := "" }] },
         some { heartbeatTime := floorSec now, executionTime := some now,
                completionTime := none, records := (markFoldOf w now).2,
                rawResponse := "" }) := by
  unfold beatSelect markFoldOf
  rw [if_neg (by simpa [List.isEmpty_iff] using h)]

theorem markFold_records (now : Time) :
    ∀ (due : List (AgentState × Time)) (acc : World × List HRecord),
      ((due.foldl (markRecStep now) acc).2).map HRecord.agentId
        = acc.2.map HRecord.agentId ++ due.map (fun p => p.1.id) := by
  intro due
  induction due with
  | nil => intro acc; simp
  | cons p rest ih =>
      intro acc
      rw [List.foldl_cons, ih]
      simp [markRecStep]

theorem markFold_frame (now : Time) :
    ∀ (due : List (AgentState × Time)) (acc : World × List HRecord),
      ((due.foldl (markRecStep now) acc).1).history = acc.1.history ∧
        ((due.foldl (markRecStep now) acc).1).allocations = acc.1.allocations ∧
        ((due.foldl (markRecStep now) acc).1).fresh = acc.1.fresh ∧
        ((due.foldl (markRecStep now) acc).1).store = acc.1.store := by
  intro due
  induction due with
  | nil => intro acc; exact ⟨rfl, rfl, rfl, rfl⟩
  | cons p rest ih =>
      intro acc
      have h := ih (markRecStep now acc p)
      exact h

/-! ## Claim theorems -/

/-- **C2** — Due-set selection.  At every tick: an agent collected from
the tree is selected into the due set iff its `next_heartbeat` is
strictly before `floor_second(now) + 1s`, its `token_bank` (after the
tick's allocations) is non-negative, and it has no active heartbeat;
when a heartbeat is produced its records are exactly the due agents;
and when the due set is empty the tick returns `None` for every possible
AI reply — the reply is never consumed, i.e. the AI is not called — and
appends no `Heartbeat` to history. -/
theorem C2_due_set_selection (w : World) (now : Time) :
    (∀ p ∈ (applyAllocations w).tree.collectDue,
        p ∈ dueListOf w now ↔
          (p.2 < floorSec now + 1000000 ∧ 0 ≤ p.1.tokenBank ∧
            p.1.activeHeartbeat = none))
    ∧ (∀ hb, (beatSelect w now).2 = some hb →
        hb.records.map HRecord.agentId = (dueListOf w now).map (fun p => p.1.id))
    ∧ (dueListOf w now = [] →
        ∀ response, beat w now response = (applyAllocations w, .ok none)
          ∧ (applyAllocations w).history = w.history) := by
  refine ⟨?_, ?_, ?_⟩
  · intro p hp
    unfold dueListOf
    rw [List.mem_filter]
    unfold dueP
    simp [hp]
  · intro hb hhb
    by_cases h : dueListOf w now = []
    · rw [beatSelect_empty w now h] at hhb
      simp at hhb
    · rw [beatSelect_nonempty w now h] at hhb
      simp only [Option.some.injEq] at hhb
      cases hhb
      have := markFold_records now (dueListOf w now) (applyAllocations w, [])
      simpa [markFoldOf] using this
  · intro h response
    exact ⟨beat_empty w now response h, (applyAllocations_frame w).1⟩

/-- Fixture agent: a fresh agent with chosen bank, schedule and marker. -/
def mkAgent (aid : String) (bank : Int) (next : Time) (marker : Option Time) :
    AgentState :=
  { newAgent aid 0 with
    tokenBank := bank
    nextHeartbeat := next
    activeHeartbeat := marker }

/-- C2 fixture: root due one microsecond before the boundary with a zero
bank; children at the exact boundary, insolvent, and mid-flight. -/
def wC2 : World :=
  { tree := .node (mkAgent "r" 0 10999999 none)
      [.node (mkAgent "a" 100 11000000 none) [],
       .node (mkAgent "b" (-1) 0 none) [],
       .node (mkAgent "c" 5 0 (some 0)) []]
    history := []
    allocations := []
    fresh := 0
    store := emptyStore }

/-- C2 fixture with nothing due. -/
def wC2e : World :=
  { tree := .node (mkAgent "r" 0 99000000 none) []
    history := []
    allocations := []
    fresh := 0
    store := emptyStore }

theorem C2_witness :
    ((mkAgent "r" 0 10999999 none, (10999999 : Time)) ∈ dueListOf wC2 10500000)
    ∧ ((mkAgent "a" 100 11000000 none, (11000000 : Time)) ∉ dueListOf wC2 10500000)
    ∧ ((mkAgent "b" (-1) 0 none, (0 : Time)) ∉ dueListOf wC2 10500000)
    ∧ ((mkAgent "c" 5 0 (some 0), (0 : Time)) ∉ dueListOf wC2 10500000)
    ∧ (∀ hb, (beatSelect wC2 10500000).2 = some hb →
        hb.records.map HRecord.agentId = ["r"])
    ∧ beat wC2e 10500000 "reply" = (applyAllocations wC2e, .ok none) := by
  obtain ⟨h1, h2, _⟩ := C2_due_set_selection wC2 10500000
  obtain ⟨_, _, h3⟩ := C2_due_set_selection wC2e 10500000
  refine ⟨?_, ?_, ?_, ?_, ?_, ?_⟩
  · exact (h1 _ (by decide)).mpr (by decide)
  · intro hmem
    exact (by decide : ¬((11000000 : Time) < floorSec 10500000 + 1000000 ∧
      0 ≤ (mkAgent "a" 100 11000000 none).tokenBank ∧
      (mkAgent "a" 100 11000000 none).activeHeartbeat = none))
      ((h1 _ (by decide)).mp hmem)
  · intro hmem
    exact (by decide : ¬((0 : Time) < floorSec 10500000 + 1000000 ∧
      0 ≤ (mkAgent "b" (-1) 0 none).tokenBank ∧
      (mkAgent "b" (-1) 0 none).activeHeartbeat = none))
      ((h1 _ (by decide)).mp hmem)
  · intro hmem
    exact (by decide : ¬((0 : Time) < floorSec 10500000 + 1000000 ∧
      0 ≤ (mkAgent "c" 5 0 (some 0)).tokenBank ∧
      (mkAgent "c" 5 0 (some 0)).activeHeartbeat = none))
      ((h1 _ (by decide)).mp hmem)
  · intro hb hhb
    rw [h2 hb hhb]
    decide
  · exact (h3 (by decide) "reply").1

/-! ### Bank-projection invariance through dispatch (for C9) -/

/-- The id/bank view of one agent state. -/
def bankProj (s : AgentState) : String × Int := (s.id, s.tokenBank)

theorem flattenList_append :
    ∀ (xs ys : List HTree),
      HTree.flattenList (xs ++ ys) = HTree.flattenList xs ++ HTree.flattenList ys := by
  intro xs ys
  induction xs with
  | nil => rfl
  | cons t ts ih =>
      simp only [List.cons_append, HTree.flattenList, List.append_eq, ih,
        List.append_assoc]

mutual

theorem updNode?_mem (x : String) (g : HTree → HTree) (P : AgentState → Prop)
    (hg : ∀ n : HTree, ∀ s ∈ (g n).flatten, s ∈ n.flatten ∨ P s) :
    ∀ (t t2 : HTree), HTree.updNode? x g t = some t2 →
      ∀ s ∈ t2.flatten, s ∈ t.flatten ∨ P s
  | .node st cs, t2 => by
      intro h s hs
      simp only [HTree.updNode?] at h
      by_cases hx : st.id = x
      · simp only [if_pos hx, Option.some.injEq] at h
        cases h
        exact hg _ s hs
      · simp only [if_neg hx] at h
        cases hcs : HTree.updNodeList? x g cs with
        | none => rw [hcs] at h; simp at h
        | some cs2 =>
            rw [hcs] at h
            simp only [Option.some.injEq] at h
            cases h
            simp only [HTree.flatten, List.mem_cons] at hs
            rcases hs with hs | hs
            · exact Or.inl (by simp [HTree.flatten, hs])
            · rcases updNodeList?_mem x g P hg cs cs2 hcs s hs with h2 | h2
              · exact Or.inl (by simp [HTree.flatten, List.mem_cons, h2])
              · exact Or.inr h2

theorem updNodeList?_mem (x : String) (g : HTree → HTree) (P : AgentState → Prop)
    (hg : ∀ n : HTree, ∀ s ∈ (g n).flatten, s ∈ n.flatten ∨ P s) :
    ∀ (ts ts2 : List HTree), HTree.updNodeList? x g ts = some ts2 →
      ∀ s ∈ HTree.flattenList ts2, s ∈ HTree.flattenList ts ∨ P s
  | [], ts2 => by intro h; simp [HTree.updNodeList?] at h
  | t :: ts, ts2 => by
      intro h s hs
      simp only [HTree.updNodeList?] at h
      cases ht : HTree.updNode? x g t with
      | some u =>
          rw [ht] at h
          simp only [Option.some.injEq] at h
          cases h
          simp only [HTree.flattenList, List.mem_append] at hs
          rcases hs with hs | hs
          · rcases updNode?_mem x g P hg t u ht s hs with h2 | h2
            · exact Or.inl (by simp [HTree.flattenList, List.mem_append, h2])
            · exact Or.inr h2
          · exact Or.inl (by simp [HTree.flattenList, List.mem_append, hs])
      | none =>
          rw [ht] at h
          cases hts : HTree.updNodeList? x g ts with
          | none => rw [hts] at h; simp at h
          | some us =>
              rw [hts] at h
              simp only [Option.some.injEq] at h
              cases h
              simp only [HTree.flattenList, List.mem_append] at hs
              rcases hs with hs | hs
              · exact Or.inl (by simp [HTree.flattenList, List.mem_append, hs])
              · rcases updNodeList?_mem x g P hg ts us hts s hs with h2 | h2
                · exact Or.inl (by simp [HTree.flattenList, List.mem_append, h2])
                · exact Or.inr h2

end

theorem updNode_mem (x : String) (g : HTree → HTree) (P : AgentState → Prop)
    (hg : ∀ n : HTree, ∀ s ∈ (g n).flatten, s ∈ n.flatten ∨ P s) (t : HTree) :
    ∀ s ∈ (t.updNode x g).flatten, s ∈ t.flatten ∨ P s := by
  unfold HTree.updNode
  cases h : HTree.updNode? x g t with
  | some t2 =>
      intro s hs
      exact updNode?_mem x g P hg t t2 h s hs
  | none => intro s hs; exact Or.inl hs

theorem eq_of_nodup_map {α β : Type} {f : α → β} :
    ∀ {xs : List α}, (xs.map f).Nodup →
      ∀ {a b : α}, a ∈ xs → b ∈ xs → f a = f b → a = b := by
  intro xs
  induction xs with
  | nil => intro _ a b ha; simp at ha
  | cons x rest ih =>
      intro hnd a b ha hb hf
      simp only [List.map_cons, List.nodup_cons] at hnd
      simp only [List.mem_cons] at ha hb
      rcases ha with ha | ha <;> rcases hb with hb | hb
      · rw [ha, hb]
      · exfalso
        apply hnd.1
        rw [ha] at hf
        rw [hf]
        exact List.mem_map_of_mem f hb
      · exfalso
        apply hnd.1
        rw [hb] at hf
        rw [← hf]
        exact List.mem_map_of_mem f ha
      · exact ih hnd.2 ha hb hf

theorem bankPairs_updState (w : World) (aid : String)
    (f : AgentState → AgentState) (hf : ∀ s, bankProj (f s) = bankProj s) :
    (updState w aid f).tree.flatten.map bankProj
      = w.tree.flatten.map bankProj :=
  map_proj_upd bankProj aid f hf w.tree

theorem bankPairs_autoSave (w : World) (aid : String) :
    (w.autoSave aid).tree.flatten.map bankProj
      = w.tree.flatten.map bankProj := by
  rw [(autoSave_fields w aid).1]

theorem addMessage_tree (w : World) (aid : String) (m : Msg) (w' : World)
    (h : addMessage w aid m = .ok w') :
    w'.tree = (updState w aid (fun s => { s with inbox := s.inbox ++ [m] })).tree := by
  unfold addMessage at h
  simp only [] at h
  split at h
  · split at h
    · unfold saveMessage at h
      split at h
      · simp [Except.map] at h
      · simp only [Except.map, Except.ok.injEq] at h
        rw [← h]
    · simp only [Except.ok.injEq] at h
      rw [← h]
  · simp only [Except.ok.injEq] at h
    rw [← h]

theorem bankPairs_addMessage (w : World) (aid : String) (m : Msg) (w' : World)
    (h : addMessage w aid m = .ok w') :
    w'.tree.flatten.map bankProj = w.tree.flatten.map bankProj := by
  rw [addMessage_tree w aid m w' h]
  exact bankPairs_updState w aid _ (fun s => rfl)

theorem bankPairs_deliverMessage (w : World) (senderId rid : String) (m : Msg)
    (w' : World) (h : deliverMessage w senderId rid m = .ok w') :
    w'.tree.flatten.map bankProj = w.tree.flatten.map bankProj := by
  unfold deliverMessage at h
  split at h
  · split at h
    · exact bankPairs_addMessage w rid m w' h
    · simp only [Except.ok.injEq] at h
      rw [← h]
  · simp only [Except.ok.injEq] at h
    rw [← h]

theorem bankPairs_deliverList :
    ∀ (rids : List String) (w : World) (senderId : String) (m : Msg) (w' : World),
      deliverList w senderId m rids = .ok w' →
      w'.tree.flatten.map bankProj = w.tree.flatten.map bankProj := by
  intro rids
  induction rids with
  | nil =>
      intro w senderId m w' h
      simp only [deliverList, Except.ok.injEq] at h
      rw [← h]
  | cons rid rest ih =>
      intro w senderId m w' h
      simp only [deliverList] at h
      cases h1 : deliverMessage w senderId rid m with
      | error e => rw [h1] at h; simp [Bind.bind, Except.bind] at h
      | ok w1 =>
          rw [h1] at h
          simp only [Bind.bind, Except.bind] at h
          rw [ih w1 senderId m w' h]
          exact bankPairs_deliverMessage w senderId rid m w1 h1

theorem bankPairs_sendMessage (w : World) (senderId : String)
    (rids : List String) (content : Json) (tokens : Int) (now : Time) (w' : World)
    (h : sendMessage w senderId rids content tokens now = .ok w') :
    w'.tree.flatten.map bankProj = w.tree.flatten.map bankProj := by
  unfold sendMessage at h
  simp only [] at h
  split at h
  · simp at h
  · rename_i w1 heq
    rw [bankPairs_deliverList rids w1 senderId _ w' h]
    have := bankPairs_addMessage _ senderId _ w1 heq
    rw [this]

theorem appendChild_flatten (child : AgentState) (n : HTree) :
    ∀ s ∈ (HTree.node n.state (n.children ++ [HTree.node child []])).flatten,
      s ∈ n.flatten ∨ s = child := by
  intro s hs
  cases n with
  | node st cs =>
      simp only [HTree.state, HTree.children] at hs
      rw [show (HTree.node st (cs ++ [HTree.node child []])).flatten
            = st :: (HTree.flattenList cs ++ HTree.flattenList [HTree.node child []])
          from by simp [HTree.flatten, flattenList_append]] at hs
      simp only [List.mem_cons, List.mem_append] at hs
      rcases hs with hs | hs | hs
      · exact Or.inl (by simp [HTree.flatten, hs])
      · exact Or.inl (by simp [HTree.flatten, List.mem_cons, hs])
      · simp only [HTree.flattenList, HTree.flatten, List.append_nil,
          List.mem_singleton] at hs
        exact Or.inr hs

theorem bankPairs_updState_mem (w : World) (aid : String)
    (f : AgentState → AgentState) (pr : String × Int)
    (hpr : pr ∈ (updState w aid f).tree.flatten.map bankProj)
    (hf : ∀ s, bankProj (f s) = bankProj s) :
    pr ∈ w.tree.flatten.map bankProj := by
  rwa [bankPairs_updState w aid f hf] at hpr

theorem bankPairs_updSave_mem (w : World) (aid aid2 : String)
    (f : AgentState → AgentState) (pr : String × Int)
    (hpr : pr ∈ ((updState w aid f).autoSave aid2).tree.flatten.map bankProj)
    (hf : ∀ s, bankProj (f s) = bankProj s) :
    pr ∈ w.tree.flatten.map bankProj := by
  rw [bankPairs_autoSave] at hpr
  rwa [bankPairs_updState w aid f hf] at hpr

theorem execBuiltin_bankPairs (w : World) (selfId : String) (now : Time)
    (name : String) (ps : List (String × Json)) (w2 : World)
    (h : execBuiltin w selfId now name ps = .ok w2) :
    ∀ pr ∈ w2.tree.flatten.map bankProj,
      pr ∈ w.tree.flatten.map bankProj ∨ pr.1 = freshId w.fresh := by
  unfold execBuiltin at h
  split_ifs at h
  all_goals try simp only [] at h
  all_goals repeat split at h
  all_goals try exact Except.noConfusion h
  all_goals try simp only [] at h
  all_goals repeat split at h
  all_goals try exact Except.noConfusion h
  all_goals injection h with h2
  all_goals subst h2
  all_goals intro pr hpr
  -- knowledge_set
  · exact Or.inl (bankPairs_updSave_mem _ _ _ _ _ hpr (fun s => rfl))
  -- knowledge_delete
  · exact Or.inl (bankPairs_updSave_mem _ _ _ _ _ hpr (fun s => rfl))
  -- child_purpose_set
  · exact Or.inl (bankPairs_updSave_mem _ _ _ _ _ hpr (fun s => rfl))
  -- child_purpose_clear
  · exact Or.inl (bankPairs_updState_mem _ _ _ _ hpr (fun s => rfl))
  -- create_child
  · rw [bankPairs_autoSave, bankPairs_autoSave] at hpr
    rcases List.mem_map.mp hpr with ⟨s, hs, rfl⟩
    rename_i child heqChild
    rcases updNode_mem selfId _ (fun x => x = child)
        (fun n s2 hs2 => appendChild_flatten child n s2 hs2) w.tree s hs with h3 | h3
    · exact Or.inl (List.mem_map_of_mem bankProj h3)
    · right
      rw [h3]
      exact mkChildOf_id _ _ _ _ _ heqChild
  -- send_message
  · exact Or.inl (by
      rwa [bankPairs_sendMessage _ _ _ _ _ _ _ (by assumption)] at hpr)
  -- sleep
  · exact Or.inl (bankPairs_updSave_mem _ _ _ _ _ hpr (fun s => rfl))

theorem dispatchOne_bankPairs (w : World) (selfId : String) (now : Time)
    (call : Json) (w2 : World) (h : dispatchOne w selfId now call = .ok w2) :
    ∀ pr ∈ w2.tree.flatten.map bankProj,
      pr ∈ w.tree.flatten.map bankProj ∨ pr.1 = freshId w.fresh := by
  unfold dispatchOne at h
  simp only [] at h
  repeat split at h
  all_goals try exact Except.noConfusion h
  all_goals try simp only [] at h
  all_goals repeat split at h
  all_goals try exact Except.noConfusion h
  all_goals exact execBuiltin_bankPairs _ _ _ _ _ _ h

theorem dispatchMany_bankPairs :
    ∀ (calls : List Json) (w : World) (selfId : String) (now : Time),
      ∀ pr ∈ (dispatchMany w selfId now calls).1.tree.flatten.map bankProj,
        pr ∈ w.tree.flatten.map bankProj ∨ ∃ n, pr.1 = freshId n := by
  intro calls
  induction calls with
  | nil => intro w selfId now pr hpr; exact Or.inl hpr
  | cons c rest ih =>
      intro w selfId now pr hpr
      simp only [dispatchMany] at hpr
      cases h1 : dispatchOne w selfId now c with
      | error e => rw [h1] at hpr; exact Or.inl hpr
      | ok w1 =>
          rw [h1] at hpr
          simp only [] at hpr
          rcases ih w1 selfId now pr hpr with h2 | h2
          · rcases dispatchOne_bankPairs w selfId now c w1 h1 pr h2 with h3 | h3
            · exact Or.inl h3
            · exact Or.inr ⟨w.fresh, h3⟩
          · exact Or.inr h2

theorem actionResults_bankPairs (w : World) (aid : String) (results : Json)
    (hbT now : Time) :
    ∀ pr ∈ (actionResults w aid results hbT now).1.tree.flatten.map bankProj,
      pr ∈ w.tree.flatten.map bankProj ∨ ∃ n, pr.1 = freshId n := by
  unfold actionResults
  simp only []
  split
  · split
    · split
      · intro pr hpr
        rcases dispatchMany_bankPairs _ _ _ _ pr hpr with h2 | h2
        · exact Or.inl (bankPairs_updState_mem _ _ _ _ h2 (fun s => rfl))
        · exact Or.inr h2
      · intro pr hpr
        have h3 := bankPairs_updSave_mem _ _ _ _ pr hpr (fun s => rfl)
        rcases dispatchMany_bankPairs _ _ _ _ pr h3 with h2 | h2
        · exact Or.inl (bankPairs_updState_mem _ _ _ _ h2 (fun s => rfl))
        · exact Or.inr h2
    · intro pr hpr
      exact Or.inl (bankPairs_updState_mem _ _ _ _ hpr (fun s => rfl))
  · intro pr hpr
    exact Or.inl (bankPairs_updState_mem _ _ _ _ hpr (fun s => rfl))

theorem markFold_bankPairs (now : Time) :
    ∀ (due : List (AgentState × Time)) (acc : World × List HRecord),
      ((due.foldl (markRecStep now) acc).1).tree.flatten.map bankProj
        = acc.1.tree.flatten.map bankProj := by
  intro due
  induction due with
  | nil => intro acc; rfl
  | cons p rest ih =>
      intro acc
      rw [List.foldl_cons, ih]
      exact bankPairs_updState acc.1 p.1.id _ (fun s => rfl)

theorem dispatchAll_bankPairs :
    ∀ (records : List HRecord) (w : World) (hbT now : Time),
      ∀ pr ∈ (dispatchAll w hbT now records).1.tree.flatten.map bankProj,
        pr ∈ w.tree.flatten.map bankProj ∨ ∃ n, pr.1 = freshId n := by
  intro records
  induction records with
  | nil => intro w hbT now pr hpr; exact Or.inl hpr
  | cons r rest ih =>
      intro w hbT now pr hpr
      simp only [dispatchAll] at hpr
      rcases har : actionResults w r.agentId r.actionsResult hbT now with ⟨w1, e⟩
      rw [har] at hpr
      simp only [] at hpr
      cases e with
      | some err =>
          simp only [] at hpr
          have hpr2 : pr ∈ (actionResults w r.agentId r.actionsResult hbT now).1.tree.flatten.map bankProj := by
            rw [har]; exact hpr
          exact actionResults_bankPairs _ _ _ _ _ pr hpr2
      | none =>
          simp only [] at hpr
          rcases ih w1 hbT now pr hpr with h2 | h2
          · have hpr2 : pr ∈ (actionResults w r.agentId r.actionsResult hbT now).1.tree.flatten.map bankProj := by
              rw [har]; exact h2
            exact actionResults_bankPairs _ _ _ _ _ pr hpr2
          · exact Or.inr h2

theorem beat_bankPairs (w : World) (now : Time) (response : String) :
    ∀ pr ∈ (beat w now response).1.tree.flatten.map bankProj,
      pr ∈ (applyAllocations w).tree.flatten.map bankProj ∨ ∃ n, pr.1 = freshId n := by
  by_cases hdue : dueListOf w now = []
  · rw [beat_empty w now response hdue]
    intro pr hpr
    exact Or.inl hpr
  · unfold beat
    rw [beatSelect_nonempty w now hdue]
    simp only []
    split
    · -- decode error escapes: the tree is the selection-phase tree
      intro pr hpr
      left
      have hpr2 : pr ∈ ((dueListOf w now).foldl (markRecStep now)
          (applyAllocations w, [])).1.tree.flatten.map bankProj := hpr
      rwa [markFold_bankPairs now _ _] at hpr2
    · -- dispatch phase
      split
      · intro pr hpr
        rcases dispatchAll_bankPairs _ _ _ _ pr hpr with h2 | h2
        · left
          have hpr2 : pr ∈ ((dueListOf w now).foldl (markRecStep now)
              (applyAllocations w, [])).1.tree.flatten.map bankProj := h2
          rwa [markFold_bankPairs now _ _] at hpr2
        · exact Or.inr h2
      · intro pr hpr
        rcases dispatchAll_bankPairs _ _ _ _ pr hpr with h2 | h2
        · left
          have hpr2 : pr ∈ ((dueListOf w now).foldl (markRecStep now)
              (applyAllocations w, [])).1.tree.flatten.map bankProj := h2
          rwa [markFold_bankPairs now _ _] at hpr2
        · exact Or.inr h2

/-- **C9** — Token allocation.  On every tick, before due-set selection,
the standing `token_allocations` entries are applied: the post-allocation
tree is exactly the original tree with each agent's `token_bank`
increased by the total of its standing entries — with no solvency guard,
so an insolvent agent (negative bank) is credited as well.  Consequently,
after a full tick that does not dispatch a heartbeat for agent `aid`,
every tree node carrying `aid` has its bank increased by exactly that
total.  (`hfresh` rules out the degenerate case of a `create_child`
dispatched for another agent minting a fresh GUID equal to `aid`.) -/
theorem C9_token_allocation (w : World) (now : Time) (response : String)
    (hnd : (idsOf w.tree).Nodup) (aid : String) (s0 : AgentState)
    (hs0 : s0 ∈ w.tree.flatten) (hid : s0.id = aid)
    (hfresh : ∀ n, freshId n ≠ aid)
    (hnodisp : ∀ hb, (beatSelect w now).2 = some hb →
      aid ∉ hb.records.map HRecord.agentId) :
    (applyAllocations w).tree.flatten
      = w.tree.flatten.map
          (fun s => { s with tokenBank := s.tokenBank + allocSum w.allocations s.id })
    ∧ ∀ s ∈ (beat w now response).1.tree.flatten, s.id = aid →
        s.tokenBank = s0.tokenBank + allocSum w.allocations aid := by
  refine ⟨applyAllocations_flatten w hnd, ?_⟩
  intro s hs hsid
  have hpr : bankProj s ∈ (beat w now response).1.tree.flatten.map bankProj :=
    List.mem_map_of_mem bankProj hs
  rcases beat_bankPairs w now response (bankProj s) hpr with h2 | h2
  · rw [applyAllocations_flatten w hnd, List.map_map] at h2
    rcases List.mem_map.mp h2 with ⟨s1, hs1, heq⟩
    simp only [Function.comp, bankProj, Prod.mk.injEq] at heq
    obtain ⟨hid1, hbank⟩ := heq
    have hids : s1.id = s0.id := by rw [hid1, hsid, hid]
    have hnd2 : (w.tree.flatten.map (fun x => x.id)).Nodup := hnd
    have hsame : s1 = s0 := eq_of_nodup_map hnd2 hs1 hs0 hids
    rw [← hbank, hsame, hid]
  · exfalso
    obtain ⟨n, hn⟩ := h2
    exact hfresh n (by rw [← hn]; exact hsid)

theorem freshId_ne_short : ∀ n : Nat, freshId n ≠ "r" := by
  intro n h
  have h5 : ("guid-").length = 5 := rfl
  have h1 : ("r").length = 1 := rfl
  have hlen : (freshId n).length = 5 + (toString n).length := by
    show ("guid-" ++ toString n).length = 5 + (toString n).length
    rw [String.length_append, h5]
  rw [h, h1] at hlen
  omega

/-- C9 fixture: a single insolvent agent, not due, with two standing
allocations totalling 5. -/
def wC9 : World :=
  { tree := .node (mkAgent "r" (-5) 99000000 none) []
    history := []
    allocations := [("r", 2), ("r", 3)]
    fresh := 0
    store := emptyStore }

theorem C9_witness :
    (beat wC9 10500000 "reply").1.tree.state.tokenBank = 0 := by
  have h := (C9_token_allocation wC9 10500000 "reply" (by decide) "r"
      (mkAgent "r" (-5) 99000000 none) (by decide) (by decide)
      freshId_ne_short
      (fun hb hhb => by
        rw [(by decide : (beatSelect wC9 10500000).2 = none)] at hhb
        exact Option.noConfusion hhb)).2
      ((beat wC9 10500000 "reply").1.tree.state) (by decide) (by decide)
  rw [h]
  decide

/-! ### Marking lemmas (for C1) -/

theorem foldAlloc_ids :
    ∀ (as : List (String × Int)) (w : World),
      (as.foldl allocStep w).tree.flatten.map (fun s => s.id)
        = w.tree.flatten.map (fun s => s.id) := by
  intro as
  induction as with
  | nil => intro w; rfl
  | cons a rest ih =>
      intro w
      rw [List.foldl_cons, ih]
      have : (allocStep w a).tree
          = w.tree.upd a.1 (fun s => { s with tokenBank := s.tokenBank + a.2 }) :=
        (autoSave_fields _ _).1
      rw [this]
      exact map_proj_upd (fun s => s.id) a.1
        (fun s => { s with tokenBank := s.tokenBank + a.2 }) (fun s => rfl) w.tree

theorem applyAllocations_ids (w : World) :
    (applyAllocations w).tree.flatten.map (fun s => s.id)
      = w.tree.flatten.map (fun s => s.id) :=
  foldAlloc_ids w.allocations w

theorem markFold_ids (now : Time) :
    ∀ (due : List (AgentState × Time)) (acc : World × List HRecord),
      ((due.foldl (markRecStep now) acc).1).tree.flatten.map (fun s => s.id)
        = acc.1.tree.flatten.map (fun s => s.id) := by
  intro due
  induction due with
  | nil => intro acc; rfl
  | cons p rest ih =>
      intro acc
      rw [List.foldl_cons, ih]
      exact map_proj_upd (fun s => s.id) p.1.id
        (fun s => { s with activeHeartbeat := some p.2 }) (fun s => rfl) acc.1.tree

theorem markFold_marks (now : Time) :
    ∀ (due : List (AgentState × Time)) (acc : World × List HRecord),
      (idsOf acc.1.tree).Nodup →
      (due.map (fun p => p.1.id)).Nodup →
      (∀ r ∈ acc.2, ∀ s ∈ acc.1.tree.flatten, s.id = r.agentId →
        s.activeHeartbeat = some r.scheduledTime) →
      (∀ r ∈ acc.2, r.agentId ∉ due.map (fun p => p.1.id)) →
      ∀ r ∈ (due.foldl (markRecStep now) acc).2,
        ∀ s ∈ ((due.foldl (markRecStep now) acc).1).tree.flatten,
          s.id = r.agentId → s.activeHeartbeat = some r.scheduledTime := by
  intro due
  induction due with
  | nil =>
      intro acc _ _ hrec _ r hr s hs hid
      exact hrec r hr s hs hid
  | cons p rest ih =>
      intro acc hnd hdnd hrec hsep
      rw [List.foldl_cons]
      simp only [List.map_cons, List.nodup_cons] at hdnd
      have htree : (markRecStep now acc p).1.tree
          = acc.1.tree.upd p.1.id (fun s => { s with activeHeartbeat := some p.2 }) := rfl
      have hflat : (markRecStep now acc p).1.tree.flatten
          = acc.1.tree.flatten.map (updIf p.1.id
              (fun s => { s with activeHeartbeat := some p.2 })) := by
        rw [htree]
        exact flatten_upd _ _ _ hnd
      have hnd2 : (idsOf (markRecStep now acc p).1.tree).Nodup := by
        have h1 : idsOf (markRecStep now acc p).1.tree = idsOf acc.1.tree := by
          unfold idsOf
          exact map_proj_upd (fun s => s.id) p.1.id
            (fun s => { s with activeHeartbeat := some p.2 }) (fun s => rfl) acc.1.tree
        rw [h1]
        exact hnd
      apply ih (markRecStep now acc p) hnd2 hdnd.2
      · -- all previous records, plus the new one, are marked in the new tree
        intro r hr s hs hid
        have hs2 := hs
        rw [hflat] at hs2
        rcases List.mem_map.mp hs2 with ⟨s0, hs0, rfl⟩
        simp only [markRecStep, List.mem_append, List.mem_singleton] at hr
        rcases hr with hr | hr
        · -- an older record: its agent is untouched by this marking step
          have hneq : r.agentId ≠ p.1.id := by
            intro hcon
            exact hsep r hr (by rw [hcon]; exact List.mem_cons_self _ _)
          by_cases hcase : s0.id = p.1.id
          · exfalso
            apply hneq
            have hid2 : s0.id = r.agentId := by
              unfold updIf at hid
              rw [if_pos hcase] at hid
              exact hid
            rw [← hid2, hcase]
          · have hid2 : s0.id = r.agentId := by
              unfold updIf at hid
              rwa [if_neg hcase] at hid
            have hmark := hrec r hr s0 hs0 hid2
            unfold updIf
            rw [if_neg hcase]
            exact hmark
        · -- the record created by this step: the marker was just written
          by_cases hcase : s0.id = p.1.id
          · rw [hr]
            unfold updIf
            rw [if_pos hcase]
          · exfalso
            apply hcase
            unfold updIf at hid
            rw [if_neg hcase] at hid
            rw [hr] at hid
            exact hid
      · -- separation for the extended record list
        intro r hr
        simp only [markRecStep, List.mem_append, List.mem_singleton] at hr
        rcases hr with hr | hr
        · intro hcon
          exact hsep r hr (List.mem_cons_of_mem _ hcon)
        · rw [hr]
          simp only []
          exact hdnd.1

theorem beatSelect_records_ids (w : World) (now : Time) (hb : HB)
    (h : (beatSelect w now).2 = some hb) :
    hb.records.map HRecord.agentId = (dueListOf w now).map (fun p => p.1.id) := by
  by_cases hdue : dueListOf w now = []
  · rw [beatSelect_empty w now hdue] at h
    simp at h
  · rw [beatSelect_nonempty w now hdue] at h
    simp only [Option.some.injEq] at h
    cases h
    have := markFold_records now (dueListOf w now) (applyAllocations w, [])
    simpa [markFoldOf] using this

theorem dueListOf_ids_nodup (w : World) (now : Time)
    (hnd : (idsOf w.tree).Nodup) :
    ((dueListOf w now).map (fun p => p.1.id)).Nodup := by
  have hcoll : ((applyAllocations w).tree.collectDue.map (fun p => p.1.id)).Nodup := by
    rw [collectDue_eq_flatten, List.map_map]
    have : ((fun (p : AgentState × Time) => p.1.id) ∘ fun s => (s, s.nextHeartbeat))
        = fun s : AgentState => s.id := rfl
    rw [this, applyAllocations_ids]
    exact hnd
  exact hcoll.sublist ((List.filter_sublist _).map _)

theorem due_mem_flatten (w : World) (now : Time)
    (hnd : (idsOf w.tree).Nodup) :
    ∀ q ∈ dueListOf w now, ∃ u ∈ w.tree.flatten,
      u.id = q.1.id ∧ u.activeHeartbeat = none := by
  intro q hq
  unfold dueListOf at hq
  rw [List.mem_filter] at hq
  obtain ⟨hmem, hP⟩ := hq
  rw [collectDue_eq_flatten] at hmem
  rcases List.mem_map.mp hmem with ⟨t, ht, hqt⟩
  rw [applyAllocations_flatten w hnd] at ht
  rcases List.mem_map.mp ht with ⟨u, hu, hut⟩
  have hPq : q.1.activeHeartbeat = none := by
    unfold dueP at hP
    simp only [decide_eq_true_eq] at hP
    exact hP.2.2
  subst hqt
  subst hut
  exact ⟨u, hu, rfl, hPq⟩

theorem markFold_markerF (now : Time) :
    ∀ (due : List (AgentState × Time)) (acc : World × List HRecord),
      (idsOf acc.1.tree).Nodup →
      ∃ F : AgentState → AgentState,
        ((due.foldl (markRecStep now) acc).1).tree.flatten
            = acc.1.tree.flatten.map F
        ∧ (∀ s, (F s).id = s.id)
        ∧ (∀ s, (F s).activeHeartbeat = none → s.activeHeartbeat = none) := by
  intro due
  induction due with
  | nil =>
      intro acc _
      exact ⟨fun s => s, by simp, fun s => rfl, fun s h => h⟩
  | cons p rest ih =>
      intro acc hnd
      have hflat : (markRecStep now acc p).1.tree.flatten
          = acc.1.tree.flatten.map (updIf p.1.id
              (fun s => { s with activeHeartbeat := some p.2 })) :=
        flatten_upd _ _ _ hnd
      have hnd2 : (idsOf (markRecStep now acc p).1.tree).Nodup := by
        have h1 : idsOf (markRecStep now acc p).1.tree = idsOf acc.1.tree := by
          unfold idsOf
          exact map_proj_upd (fun s => s.id) p.1.id
            (fun s => { s with activeHeartbeat := some p.2 }) (fun s => rfl) acc.1.tree
        rw [h1]
        exact hnd
      obtain ⟨F, hF1, hF2, hF3⟩ := ih (markRecStep now acc p) hnd2
      refine ⟨fun s => F (updIf p.1.id
          (fun x => { x with activeHeartbeat := some p.2 }) s), ?_, ?_, ?_⟩
      · rw [List.foldl_cons, hF1, hflat, List.map_map]
        rfl
      · intro s
        rw [hF2]
        unfold updIf
        by_cases hc : s.id = p.1.id
        · rw [if_pos hc]
        · rw [if_neg hc]
      · intro s h
        have h2 := hF3 _ h
        unfold updIf at h2
        by_cases hc : s.id = p.1.id
        · rw [if_pos hc] at h2
          exact absurd h2 (by simp)
        · rwa [if_neg hc] at h2

/-- **C1** — Single-in-flight per agent.  When a tick selects a
heartbeat: (a) every recorded agent carries the active-heartbeat marker
with its scheduled time in the returned world — the marker is written
during the selection phase, before the AI call; (b) while the marker is
set, a subsequent selection pass never selects that agent again; (c) a
second back-to-back tick whose tree consists of the very agents of the
first heartbeat returns no heartbeat (`None`) whatever the AI would
reply; and (d) the selection phase never clears a marker — it is cleared
only when the heartbeat's actions are dispatched to the agent
(`action_results`, modelled from the spec).  The marker itself is
referenced by `heart.py` but defined nowhere under `src/`; it is
modelled from the spec. -/
theorem C1_single_in_flight (w : World) (now : Time)
    (hnd : (idsOf w.tree).Nodup) (w1 : World) (hb : HB)
    (hsel : beatSelect w now = (w1, some hb)) :
    (∀ r ∈ hb.records, ∀ s ∈ w1.tree.flatten, s.id = r.agentId →
        s.activeHeartbeat = some r.scheduledTime)
    ∧ (∀ (now2 : Time) (w2 : World) (hb2 : HB),
        beatSelect w1 now2 = (w2, some hb2) →
        ∀ r ∈ hb.records, r.agentId ∉ hb2.records.map HRecord.agentId)
    ∧ ((∀ s ∈ w1.tree.flatten, s.id ∈ hb.records.map HRecord.agentId) →
        ∀ (now2 : Time) (response : String),
          beat w1 now2 response = (applyAllocations w1, .ok none))
    ∧ (∀ s1 ∈ w1.tree.flatten, s1.activeHeartbeat = none →
        ∀ s ∈ w.tree.flatten, s.id = s1.id → s.activeHeartbeat = none) := by
  have hdue : dueListOf w now ≠ [] := by
    intro hempty
    rw [beatSelect_empty w now hempty] at hsel
    simp at hsel
  have heq := beatSelect_nonempty w now hdue
  rw [heq] at hsel
  simp only [Prod.mk.injEq, Option.some.injEq] at hsel
  obtain ⟨hw1, hhb⟩ := hsel
  have hnd_alloc : (idsOf (applyAllocations w).tree).Nodup := by
    unfold idsOf
    rw [applyAllocations_ids]
    exact hnd
  have hdnodup := dueListOf_ids_nodup w now hnd
  have hmarks := markFold_marks now (dueListOf w now) (applyAllocations w, [])
    hnd_alloc hdnodup
    (fun r hr => absurd hr (List.not_mem_nil r))
    (fun r hr => absurd hr (List.not_mem_nil r))
  have htr : w1.tree = (markFoldOf w now).1.tree := by rw [← hw1]
  have hrecs : hb.records = (markFoldOf w now).2 := by rw [← hhb]
  have hmarksW : ∀ r ∈ hb.records, ∀ s ∈ w1.tree.flatten, s.id = r.agentId →
      s.activeHeartbeat = some r.scheduledTime := by
    intro r hr s hs hid
    rw [hrecs] at hr
    rw [htr] at hs
    exact hmarks r hr s hs hid
  have hnd1 : (idsOf w1.tree).Nodup := by
    have h1 : idsOf w1.tree = idsOf (applyAllocations w).tree := by
      unfold idsOf
      rw [htr]
      exact markFold_ids now (dueListOf w now) (applyAllocations w, [])
    rw [h1]
    exact hnd_alloc
  refine ⟨hmarksW, ?_, ?_, ?_⟩
  · -- (b) a marked agent is never re-selected
    intro now2 w2 hb2 hsel2 r hr hmem
    have hsel2b : (beatSelect w1 now2).2 = some hb2 := by rw [hsel2]
    rw [beatSelect_records_ids w1 now2 hb2 hsel2b] at hmem
    rcases List.mem_map.mp hmem with ⟨q, hq, hqid⟩
    rcases due_mem_flatten w1 now2 hnd1 q hq with ⟨u, hu, huid, humark⟩
    have := hmarksW r hr u hu (by rw [huid, hqid])
    rw [humark] at this
    exact Option.noConfusion this
  · -- (c) a second tick over the same agents yields None
    intro hall now2 response
    have hempty : dueListOf w1 now2 = [] := by
      rw [List.eq_nil_iff_forall_not_mem]
      intro q hq
      rcases due_mem_flatten w1 now2 hnd1 q hq with ⟨u, hu, _, humark⟩
      rcases List.mem_map.mp (hall u hu) with ⟨r, hr, hrid⟩
      have := hmarksW r hr u hu hrid.symm
      rw [humark] at this
      exact Option.noConfusion this
    exact beat_empty w1 now2 response hempty
  · -- (d) selection never clears a marker
    intro s1 hs1 hnone s hs hid
    obtain ⟨F, hF1, hF2, hF3⟩ :=
      markFold_markerF now (dueListOf w now) (applyAllocations w, []) hnd_alloc
    rw [htr] at hs1
    have hs1b : s1 ∈ ((dueListOf w now).foldl (markRecStep now)
        (applyAllocations w, [])).1.tree.flatten := hs1
    rw [hF1] at hs1b
    rcases List.mem_map.mp hs1b with ⟨t, ht, hts⟩
    rw [applyAllocations_flatten w hnd] at ht
    rcases List.mem_map.mp ht with ⟨u, hu, hut⟩
    have humark : u.activeHeartbeat = none := by
      have h2 : t.activeHeartbeat = none := hF3 t (by rw [hts]; exact hnone)
      rw [← hut] at h2
      exact h2
    have huid : u.id = s1.id := by
      rw [← hts, hF2, ← hut]
    have hnd2 : (w.tree.flatten.map (fun x => x.id)).Nodup := hnd
    have : s = u := eq_of_nodup_map hnd2 hs hu (by rw [hid, huid])
    rw [this]
    exact humark

/-- C1 fixture: one due solvent agent. -/
def wC1 : World :=
  { tree := .node (mkAgent "r" 0 0 none) []
    history := []
    allocations := []
    fresh := 0
    store := emptyStore }

/-- The world after the first tick's selection phase on `wC1`. -/
def w1C1 : World := (beatSelect wC1 10500000).1

/-- The heartbeat selected by the first tick on `wC1`. -/
def hbC1 : HB :=
  ((beatSelect wC1 10500000).2).getD
    { heartbeatTime := 0, executionTime := none, completionTime := none,
      records := [], rawResponse := "" }

set_option maxRecDepth 100000 in
theorem C1_witness :
    (beat w1C1 10600000 "reply").2 = .ok none := by
  have h2 : (beatSelect wC1 10500000).2 = some hbC1 := by decide
  have hsel : beatSelect wC1 10500000 = (w1C1, some hbC1) := by
    calc beatSelect wC1 10500000
        = ((beatSelect wC1 10500000).1, (beatSelect wC1 10500000).2) := rfl
      _ = (w1C1, some hbC1) := by rw [h2]; rfl
  obtain ⟨ha, hbm, hc, hd⟩ := C1_single_in_flight wC1 10500000 (by decide) w1C1 hbC1 hsel
  have hnone := hc (by decide) 10600000 "reply"
  rw [hnone]


/-! ### C4: per-action error handling in `dispatch_many` -/

theorem dispatchMany_cons (w : World) (selfId : String) (now : Time)
    (c : Json) (rest : List Json) :
    dispatchMany w selfId now (c :: rest) =
      match dispatchOne w selfId now c with
      | .error e => (w, some e, 0)
      | .ok w1 =>
          match dispatchMany w1 selfId now rest with
          | (w2, e, n) => (w2, e, n + 1) := rfl

theorem dispatchMany_cons_err (w : World) (selfId : String) (now : Time)
    (c : Json) (rest : List Json) (e : DErr)
    (hd : dispatchOne w selfId now c = .error e) :
    dispatchMany w selfId now (c :: rest) = (w, some e, 0) := by
  rw [dispatchMany_cons, hd]

theorem dispatchMany_cons_ok (w w1 w2 : World) (selfId : String) (now : Time)
    (c : Json) (rest : List Json) (e : Option DErr) (n : Nat)
    (hd : dispatchOne w selfId now c = .ok w1)
    (hres : dispatchMany w1 selfId now rest = (w2, e, n)) :
    dispatchMany w selfId now (c :: rest) = (w2, e, n + 1) := by
  simp only [dispatchMany_cons, hd, hres]

/-- C4 (amended): `dispatch_many` (holon.py 90-103) places no handler
around the per-action loop, so the first failing action is fatal to the
remainder of that agent's list: when dispatching a call list raises an
error, the counter `n` points strictly inside the list, the resulting
world is exactly the world of executing only the first `n` calls
(error-free), and the call at index `n` is the one that raised —
everything after index `n` was never executed. -/
theorem C4_first_error_stops (selfId : String) (now : Time) :
    ∀ (calls : List Json) (w w2 : World) (e : DErr) (n : Nat),
      dispatchMany w selfId now calls = (w2, some e, n) →
      n < calls.length ∧
      dispatchMany w selfId now (calls.take n) = (w2, none, n) ∧
      ∃ c, calls[n]? = some c ∧ dispatchOne w2 selfId now c = .error e := by
  intro calls
  induction calls with
  | nil =>
      intro w w2 e n h
      simp [dispatchMany] at h
  | cons c rest ih =>
      intro w w2 e n h
      cases hd : dispatchOne w selfId now c with
      | error e0 =>
          rw [dispatchMany_cons_err w selfId now c rest e0 hd] at h
          simp only [Prod.mk.injEq, Option.some.injEq] at h
          obtain ⟨hw, he, hn⟩ := h
          subst hw; subst he; subst hn
          refine ⟨by simp, by simp [dispatchMany], c, by simp, hd⟩
      | ok w1 =>
          rcases hres : dispatchMany w1 selfId now rest with ⟨wr, er, nr⟩
          rw [dispatchMany_cons_ok w w1 wr selfId now c rest er nr hd hres] at h
          simp only [Prod.mk.injEq] at h
          obtain ⟨hw, he, hn⟩ := h
          subst hw; subst he; subst hn
          obtain ⟨hlt, hpre, c2, hc2, herr⟩ := ih w1 wr e nr hres
          refine ⟨by simp only [List.length_cons]; omega, ?_, c2, by simpa using hc2, herr⟩
          rw [List.take_succ_cons]
          exact dispatchMany_cons_ok w w1 wr selfId now c (rest.take nr) none nr hd hpre

/-- C4 fixture: one bound-free agent with the built-in actions. -/
def wC4 : World :=
  { tree := .node (mkAgent "a" 0 0 none) []
    history := []
    allocations := []
    fresh := 0
    store := emptyStore }

/-- A well-formed `knowledge_set` call. -/
def goodCallC4 : Json :=
  .obj [("action", .str "knowledge_set"),
        ("params", .obj [("path", .str "k"), ("value", .str "v")])]

/-- A call whose action name is not in the registry (`KeyError`). -/
def badCallC4 : Json :=
  .obj [("action", .str "transmute"), ("params", .obj [])]

/-- The world after dispatching the good call and failing on the bad one. -/
def w2C4 : World := (dispatchMany wC4 "a" 0 [goodCallC4, badCallC4]).1

/-- C4 (counterexample): a failing action is fatal, not isolated — with an
unknown action followed by a `knowledge_set`, dispatch reports the error
having executed zero calls and the world still holds empty knowledge,
although dispatching the same remaining call alone executes it and
performs the write.  The spec's claim that the remaining actions of the
list still execute is false of `dispatch_many`. -/
theorem C4_counterexample :
    dispatchMany wC4 "a" 0 [badCallC4, goodCallC4] =
      (wC4, some DErr.keyError, 0)
    ∧ (dispatchMany wC4 "a" 0 [goodCallC4]).2.2 = 1
    ∧ ((dispatchMany wC4 "a" 0 [goodCallC4]).1.agent "a").map
        (fun s => s.knowledge) = some (Json.obj [("k", Json.str "v")]) :=
  ⟨rfl, rfl, rfl⟩

/-- C4 witness: the amended theorem at the concrete two-call list whose
second call fails — the prefix world is kept and the bad call is the one
that raised. -/
theorem C4_witness :
    1 < ([goodCallC4, badCallC4] : List Json).length ∧
    dispatchMany wC4 "a" 0 ([goodCallC4, badCallC4].take 1) = (w2C4, none, 1) ∧
    ∃ c, ([goodCallC4, badCallC4] : List Json)[1]? = some c ∧
      dispatchOne w2C4 "a" 0 c = .error DErr.keyError :=
  C4_first_error_stops "a" 0 [goodCallC4, badCallC4] wC4 w2C4 DErr.keyError 1 rfl

/-! ### C5: reply parsing is strict, not lenient -/

/-- C5 (amended): reply handling is strict.  `process_response`
(heart.py 113-123) tries `json.loads` on the raw text and, on a decode
failure, falls back to `parse_ai_response` — which runs the same strict
`json.loads` on the same text, so the decode error escapes
`process_response`; there is no code-fence or balanced-brace extraction.
When the text is itself one valid JSON object, each record receives the
object's entry for its agent id, defaulting to an empty actions list. -/
theorem C5_strict_parsing (hb : HB) (text : String) :
    (jsonLoads text = .error () →
      hb.processResponse text = .error RErr.jsonDecode) ∧
    (∀ fs, jsonLoads text = .ok (.obj fs) →
      hb.processResponse text = .ok
        { hb with
          rawResponse := text
          records := hb.records.map (fun r =>
            { r with actionsResult := (jlookup fs r.agentId).getD emptyActions }) }) := by
  constructor
  · intro h
    unfold HB.processResponse parse_ai_response
    rw [h]
  · intro fs h
    unfold HB.processResponse
    rw [h]
    rfl

/-- C5 fixture heartbeat: one record for agent `a`. -/
def hbC5 : HB :=
  { heartbeatTime := 0
    executionTime := none
    completionTime := none
    records := [{ agentId := "a", hudSent := .null, scheduledTime := 0,
                  actionsResult := .null }]
    rawResponse := "" }

/-- The body a lenient parser would extract: one valid JSON object. -/
def bodyC5 : String := "\x7b\"a\": \x7b\"actions\": []\x7d\x7d"

/-- The same body wrapped in a code fence, as the spec's example. -/
def fencedC5 : String := "```json\n\x7b\"a\": \x7b\"actions\": []\x7d\x7d\n```"

/-- C5 (counterexample): a code-fenced reply whose outermost balanced
brace substring is perfectly valid JSON (first conjunct) is not parsed
leniently: `process_response` raises the decode error instead of
treating the actions as empty (second conjunct) — the error escapes, no
record is defaulted. -/
theorem C5_counterexample :
    jsonLoads bodyC5 = .ok (Json.obj [("a", emptyActions)])
    ∧ hbC5.processResponse fencedC5 = .error RErr.jsonDecode :=
  ⟨rfl, rfl⟩

/-- C5 witness: the amended theorem at the fenced reply (decode error
escapes) and at the bare JSON body (per-agent distribution). -/
theorem C5_witness :
    hbC5.processResponse fencedC5 = .error RErr.jsonDecode ∧
    hbC5.processResponse bodyC5 = .ok
      { hbC5 with
        rawResponse := bodyC5
        records := hbC5.records.map (fun r =>
          { r with actionsResult :=
              (jlookup [("a", emptyActions)] r.agentId).getD emptyActions }) } :=
  ⟨(C5_strict_parsing hbC5 fencedC5).1 rfl,
   (C5_strict_parsing hbC5 bodyC5).2 [("a", emptyActions)] rfl⟩

/-! ### C3: dispatch clock postcondition -/

/-- The id/heart-rate/clock view of one agent state. -/
def clockProj (s : AgentState) : String × Int × Option Time × Time :=
  (s.id, s.heartRate, s.lastHeartbeat, s.nextHeartbeat)

/-- Whether one call object names the built-in `sleep` action. -/
def sleepCallB (c : Json) : Bool :=
  match c with
  | .obj fs =>
      match (jlookup fs "action").getD .null with
      | .str name => name == "sleep"
      | _ => false
  | _ => false

/-- Whether a results object carries no `sleep` call in its actions list. -/
def sleepFree (results : Json) : Bool :=
  match results with
  | .obj fs =>
      match (jlookup fs "actions").getD (.arr []) with
      | .arr calls => calls.all (fun c => !sleepCallB c)
      | _ => true
  | _ => true

mutual

theorem locate_some_spec :
    ∀ (t : HTree) (aid : String) (p : Option AgentState)
      (r : Option AgentState × HTree),
      HTree.locate aid p t = some r →
      r.2.state.id = aid ∧ r.2.state ∈ t.flatten
  | .node s cs => by
      intro aid p r h
      simp only [HTree.locate] at h
      by_cases hs : s.id = aid
      · rw [if_pos hs] at h
        simp only [Option.some.injEq] at h
        subst h
        exact ⟨hs, by simp [HTree.flatten, HTree.state]⟩
      · rw [if_neg hs] at h
        have h2 := locateList_some_spec cs aid s r h
        refine ⟨h2.1, ?_⟩
        rw [show (HTree.node s cs).flatten = s :: HTree.flattenList cs from rfl]
        exact List.mem_cons_of_mem s h2.2

theorem locateList_some_spec :
    ∀ (ts : List HTree) (aid : String) (p : AgentState)
      (r : Option AgentState × HTree),
      HTree.locateList aid p ts = some r →
      r.2.state.id = aid ∧ r.2.state ∈ HTree.flattenList ts
  | [] => by intro aid p r h; simp [HTree.locateList] at h
  | t :: ts => by
      intro aid p r h
      simp only [HTree.locateList] at h
      cases ht : HTree.locate aid (some p) t with
      | some r2 =>
          rw [ht] at h
          simp only [Option.some.injEq] at h
          subst h
          have h2 := locate_some_spec t aid (some p) r2 ht
          refine ⟨h2.1, ?_⟩
          rw [show HTree.flattenList (t :: ts)
                = t.flatten ++ HTree.flattenList ts from rfl]
          exact List.mem_append.mpr (Or.inl h2.2)
      | none =>
          rw [ht] at h
          have h2 := locateList_some_spec ts aid p r h
          refine ⟨h2.1, ?_⟩
          rw [show HTree.flattenList (t :: ts)
                = t.flatten ++ HTree.flattenList ts from rfl]
          exact List.mem_append.mpr (Or.inr h2.2)

end

theorem agent_some_spec (w : World) (aid : String) (s : AgentState)
    (h : w.agent aid = some s) : s.id = aid ∧ s ∈ w.tree.flatten := by
  unfold World.agent at h
  cases hl : HTree.locate aid none w.tree with
  | none => rw [hl] at h; simp [Option.map] at h
  | some r =>
      rw [hl] at h
      simp only [Option.map, Option.some.injEq] at h
      subst h
      exact locate_some_spec w.tree aid none r hl

theorem ne_freshId_of_short (a : String) (ha : a.length < 5) :
    ∀ n : Nat, a ≠ freshId n := by
  intro n h
  have h5 : ("guid-").length = 5 := rfl
  have hlen : (freshId n).length = 5 + (toString n).length := by
    show ("guid-" ++ toString n).length = 5 + (toString n).length
    rw [String.length_append, h5]
  rw [← h] at hlen
  omega

theorem clockPairs_updState (w : World) (aid : String)
    (f : AgentState → AgentState) (hf : ∀ s, clockProj (f s) = clockProj s) :
    (updState w aid f).tree.flatten.map clockProj
      = w.tree.flatten.map clockProj :=
  map_proj_upd clockProj aid f hf w.tree

theorem clockPairs_autoSave (w : World) (aid : String) :
    (w.autoSave aid).tree.flatten.map clockProj
      = w.tree.flatten.map clockProj := by
  rw [(autoSave_fields w aid).1]

theorem clockPairs_addMessage (w : World) (aid : String) (m : Msg) (w2 : World)
    (h : addMessage w aid m = .ok w2) :
    w2.tree.flatten.map clockProj = w.tree.flatten.map clockProj := by
  rw [addMessage_tree w aid m w2 h]
  exact clockPairs_updState w aid _ (fun s => rfl)

theorem clockPairs_deliverMessage (w : World) (senderId rid : String) (m : Msg)
    (w2 : World) (h : deliverMessage w senderId rid m = .ok w2) :
    w2.tree.flatten.map clockProj = w.tree.flatten.map clockProj := by
  unfold deliverMessage at h
  split at h
  · split at h
    · exact clockPairs_addMessage w rid m w2 h
    · simp only [Except.ok.injEq] at h
      rw [← h]
  · simp only [Except.ok.injEq] at h
    rw [← h]

theorem clockPairs_deliverList :
    ∀ (rids : List String) (w : World) (senderId : String) (m : Msg) (w2 : World),
      deliverList w senderId m rids = .ok w2 →
      w2.tree.flatten.map clockProj = w.tree.flatten.map clockProj := by
  intro rids
  induction rids with
  | nil =>
      intro w senderId m w2 h
      simp only [deliverList, Except.ok.injEq] at h
      rw [← h]
  | cons rid rest ih =>
      intro w senderId m w2 h
      simp only [deliverList] at h
      cases h1 : deliverMessage w senderId rid m with
      | error e => rw [h1] at h; simp [Bind.bind, Except.bind] at h
      | ok w1 =>
          rw [h1] at h
          simp only [Bind.bind, Except.bind] at h
          rw [ih w1 senderId m w2 h]
          exact clockPairs_deliverMessage w senderId rid m w1 h1

theorem clockPairs_sendMessage (w : World) (senderId : String)
    (rids : List String) (content : Json) (tokens : Int) (now : Time) (w2 : World)
    (h : sendMessage w senderId rids content tokens now = .ok w2) :
    w2.tree.flatten.map clockProj = w.tree.flatten.map clockProj := by
  unfold sendMessage at h
  simp only [] at h
  split at h
  · simp at h
  · rename_i w1 heq
    rw [clockPairs_deliverList rids w1 senderId _ w2 h]
    have := clockPairs_addMessage _ senderId _ w1 heq
    rw [this]

theorem clockPairs_updState_mem (w : World) (aid : String)
    (f : AgentState → AgentState) (pr : String × Int × Option Time × Time)
    (hpr : pr ∈ (updState w aid f).tree.flatten.map clockProj)
    (hf : ∀ s, clockProj (f s) = clockProj s) :
    pr ∈ w.tree.flatten.map clockProj := by
  rwa [clockPairs_updState w aid f hf] at hpr

theorem clockPairs_updSave_mem (w : World) (aid aid2 : String)
    (f : AgentState → AgentState) (pr : String × Int × Option Time × Time)
    (hpr : pr ∈ ((updState w aid f).autoSave aid2).tree.flatten.map clockProj)
    (hf : ∀ s, clockProj (f s) = clockProj s) :
    pr ∈ w.tree.flatten.map clockProj := by
  rw [clockPairs_autoSave] at hpr
  rwa [clockPairs_updState w aid f hf] at hpr

theorem execBuiltin_clockPairs (w : World) (selfId : String) (now : Time)
    (name : String) (ps : List (String × Json)) (w2 : World)
    (hns : name ≠ "sleep")
    (h : execBuiltin w selfId now name ps = .ok w2) :
    ∀ pr ∈ w2.tree.flatten.map clockProj,
      pr ∈ w.tree.flatten.map clockProj ∨ pr.1 = freshId w.fresh := by
  unfold execBuiltin at h
  split_ifs at h
  all_goals try simp only [] at h
  all_goals repeat split at h
  all_goals try exact Except.noConfusion h
  all_goals try simp only [] at h
  all_goals repeat split at h
  all_goals try exact Except.noConfusion h
  all_goals injection h with h2
  all_goals subst h2
  all_goals intro pr hpr
  -- knowledge_set
  · exact Or.inl (clockPairs_updSave_mem _ _ _ _ _ hpr (fun s => rfl))
  -- knowledge_delete
  · exact Or.inl (clockPairs_updSave_mem _ _ _ _ _ hpr (fun s => rfl))
  -- child_purpose_set
  · exact Or.inl (clockPairs_updSave_mem _ _ _ _ _ hpr (fun s => rfl))
  -- child_purpose_clear
  · exact Or.inl (clockPairs_updState_mem _ _ _ _ hpr (fun s => rfl))
  -- create_child
  · rw [clockPairs_autoSave, clockPairs_autoSave] at hpr
    rcases List.mem_map.mp hpr with ⟨s, hs, rfl⟩
    rename_i child heqChild
    rcases updNode_mem selfId _ (fun x => x = child)
        (fun n s2 hs2 => appendChild_flatten child n s2 hs2) w.tree s hs with h3 | h3
    · exact Or.inl (List.mem_map_of_mem clockProj h3)
    · right
      rw [h3]
      exact mkChildOf_id _ _ _ _ _ heqChild
  -- send_message
  · exact Or.inl (by
      rwa [clockPairs_sendMessage _ _ _ _ _ _ _ (by assumption)] at hpr)

theorem dispatchOne_clockPairs (w : World) (selfId : String) (now : Time)
    (call : Json) (w2 : World) (hc : sleepCallB call = false)
    (h : dispatchOne w selfId now call = .ok w2) :
    ∀ pr ∈ w2.tree.flatten.map clockProj,
      pr ∈ w.tree.flatten.map clockProj ∨ pr.1 = freshId w.fresh := by
  unfold dispatchOne at h
  simp only [] at h
  repeat split at h
  all_goals try exact Except.noConfusion h
  all_goals try simp only [] at h
  all_goals repeat split at h
  all_goals try exact Except.noConfusion h
  refine execBuiltin_clockPairs _ _ _ _ _ _ (fun he => ?_) h
  subst he
  simp only [sleepCallB] at hc
  simp_all

theorem dispatchMany_clockPairs :
    ∀ (calls : List Json) (w : World) (selfId : String) (now : Time),
      (∀ c ∈ calls, sleepCallB c = false) →
      ∀ pr ∈ (dispatchMany w selfId now calls).1.tree.flatten.map clockProj,
        pr ∈ w.tree.flatten.map clockProj ∨ ∃ n, pr.1 = freshId n := by
  intro calls
  induction calls with
  | nil => intro w selfId now _ pr hpr; exact Or.inl hpr
  | cons c rest ih =>
      intro w selfId now hall pr hpr
      simp only [dispatchMany] at hpr
      cases h1 : dispatchOne w selfId now c with
      | error e => rw [h1] at hpr; exact Or.inl hpr
      | ok w1 =>
          rw [h1] at hpr
          simp only [] at hpr
          rcases ih w1 selfId now (fun c2 hc2 => hall c2 (List.mem_cons_of_mem c hc2))
              pr hpr with h2 | h2
          · rcases dispatchOne_clockPairs w selfId now c w1
                (hall c (List.mem_cons_self c rest)) h1 pr h2 with h3 | h3
            · exact Or.inl h3
            · exact Or.inr ⟨w.fresh, h3⟩
          · exact Or.inr h2

/-- C3 (amended): the clock postcondition holds only up to `sleep`.
`action_results` (agent.py 690-698) sets `last_heartbeat` to the
heartbeat time and `next_heartbeat` to it plus `heart_rate_secs` BEFORE
dispatching the actions, and the built-in `sleep` action then moves
`next_heartbeat` again; so after a successful dispatch whose action list
contains no `sleep` call, the recorded agent satisfies
`last_heartbeat = H.heartbeat_time` and `next_heartbeat =
H.heartbeat_time + heart_rate_secs` — but with a `sleep` call the
`next_heartbeat` half fails (see the counterexample). -/
theorem C3_dispatch_clocks (w : World) (aid : String) (results : Json)
    (hbT now : Time) (w2 : World)
    (hnd : (idsOf w.tree).Nodup)
    (hg : ∀ n, aid ≠ freshId n)
    (hsf : sleepFree results = true)
    (h : actionResults w aid results hbT now = (w2, none)) :
    ∀ s, w2.agent aid = some s →
      s.lastHeartbeat = some hbT ∧
      s.nextHeartbeat = hbT + s.heartRate * 1000000 := by
  intro s hs
  obtain ⟨hsid, _⟩ := agent_some_spec w2 aid s hs
  unfold actionResults at h
  simp only [] at h
  split at h
  · -- results = .obj fs
    split at h
    · -- actions value is .arr calls
      rename_i fs calls heqa
      rcases heqdm : dispatchMany (updState w aid fun s =>
          { s with lastHeartbeat := some hbT,
                   nextHeartbeat := hbT + s.heartRate * 1000000 })
          aid now calls with ⟨wd, e, n2⟩
      rw [heqdm] at h
      simp only [] at h
      cases e with
      | some err => simp at h
      | none =>
          simp only [Prod.mk.injEq] at h
          obtain ⟨hw2, -⟩ := h
          have hcalls : ∀ c ∈ calls, sleepCallB c = false := by
            intro c hcmem
            simp only [sleepFree] at hsf
            rw [heqa] at hsf
            have h5 := List.all_eq_true.mp hsf c hcmem
            simpa using h5
          have hmem2 : clockProj s ∈ w2.tree.flatten.map clockProj :=
            List.mem_map_of_mem clockProj (agent_some_spec w2 aid s hs).2
          rw [← hw2, clockPairs_autoSave,
            clockPairs_updState wd aid
              (fun s => { s with activeHeartbeat := none }) (fun s => rfl)]
            at hmem2
          have hmem3 : clockProj s ∈
              (dispatchMany (updState w aid fun s =>
                { s with lastHeartbeat := some hbT,
                         nextHeartbeat := hbT + s.heartRate * 1000000 })
                aid now calls).1.tree.flatten.map clockProj := by
            rw [heqdm]
            exact hmem2
          rcases dispatchMany_clockPairs calls _ aid now hcalls _ hmem3
            with h4 | h4
          · rw [show (updState w aid fun s =>
                  { s with lastHeartbeat := some hbT,
                           nextHeartbeat := hbT + s.heartRate * 1000000 }).tree
                = w.tree.upd aid (fun s =>
                  { s with lastHeartbeat := some hbT,
                           nextHeartbeat := hbT + s.heartRate * 1000000 })
                from rfl,
              flatten_upd aid _ w.tree hnd, List.map_map] at h4
            rcases List.mem_map.mp h4 with ⟨s0, hs0, heqp⟩
            simp only [Function.comp] at heqp
            by_cases hid : s0.id = aid
            · unfold updIf at heqp
              rw [if_pos hid] at heqp
              simp only [clockProj, Prod.mk.injEq] at heqp
              obtain ⟨h6, h7, h8, h9⟩ := heqp
              exact ⟨h8.symm, by rw [← h9, h7]⟩
            · unfold updIf at heqp
              rw [if_neg hid] at heqp
              simp only [clockProj, Prod.mk.injEq] at heqp
              exact absurd (heqp.1.trans hsid) hid
          · obtain ⟨n3, hn⟩ := h4
            simp only [clockProj] at hn
            rw [hsid] at hn
            exact absurd hn (hg n3)
    · simp at h
  · simp at h

/-- C3 fixture: a single unbound agent with heart rate 1. -/
def wC3 : World :=
  { tree := .node (mkAgent "a" 0 0 none) []
    history := []
    allocations := []
    fresh := 0
    store := emptyStore }

/-- A results object whose action list is one `sleep(5)` call. -/
def resultsC3s : Json :=
  .obj [("actions", .arr [.obj [("action", .str "sleep"),
                                ("params", .obj [("seconds", .num 5)])]])]

/-- A sleep-free results object: one `knowledge_set` call. -/
def resultsC3k : Json :=
  .obj [("actions", .arr [.obj [("action", .str "knowledge_set"),
    ("params", .obj [("path", .str "k"), ("value", .str "v")])]])]

/-- C3 (counterexample): dispatching a heartbeat whose actions hold a
`sleep(5)` call succeeds, yet leaves the agent with `next_heartbeat =
6000000` — not `heartbeat_time + heart_rate_secs = 0 + 1 * 1000000` as
the spec's postcondition demands: the clocks are written before the
actions run and `sleep` moves `next_heartbeat` afterwards. -/
theorem C3_counterexample :
    (actionResults wC3 "a" resultsC3s 0 0).2 = none
    ∧ ((actionResults wC3 "a" resultsC3s 0 0).1.agent "a").map
        (fun s => (s.lastHeartbeat, s.nextHeartbeat, s.heartRate))
      = some (some 0, 6000000, 1)
    ∧ (6000000 : Int) ≠ 0 + 1 * 1000000 :=
  ⟨rfl, rfl, by decide⟩

/-- The world after dispatching the sleep-free results to `a`. -/
def w2C3 : World := (actionResults wC3 "a" resultsC3k 0 0).1

/-- The state of `a` after that dispatch. -/
def sC3 : AgentState := (w2C3.agent "a").getD (newAgent "" 0)

/-- C3 witness: the amended theorem at the sleep-free fixture — after
dispatch, `a` carries `last_heartbeat = 0` and `next_heartbeat = 0 +
heart_rate_secs * 1000000`. -/
theorem C3_witness :
    sC3.lastHeartbeat = some 0 ∧
    sC3.nextHeartbeat = 0 + sC3.heartRate * 1000000 :=
  C3_dispatch_clocks wC3 "a" resultsC3k 0 0 w2C3 (by decide)
    (ne_freshId_of_short "a" (by decide)) (by decide) rfl sC3 rfl

/-! ### C8: message delivery -/

mutual

theorem find?_eq_locate :
    ∀ (t : HTree) (aid : String) (p : Option AgentState),
      HTree.find? aid t = (HTree.locate aid p t).map (fun r => r.2)
  | .node s cs => by
      intro aid p
      simp only [HTree.find?, HTree.locate]
      by_cases hs : s.id = aid
      · rw [if_pos hs, if_pos hs]
        rfl
      · rw [if_neg hs, if_neg hs]
        exact findList?_eq_locateList cs aid s

theorem findList?_eq_locateList :
    ∀ (ts : List HTree) (aid : String) (p : AgentState),
      HTree.findList? aid ts = (HTree.locateList aid p ts).map (fun r => r.2)
  | [] => by intro aid p; rfl
  | t :: ts => by
      intro aid p
      simp only [HTree.findList?, HTree.locateList]
      rw [find?_eq_locate t aid (some p)]
      cases HTree.locate aid (some p) t with
      | some r => rfl
      | none => exact findList?_eq_locateList ts aid p

end

mutual

theorem locate_none_not_mem :
    ∀ (t : HTree) (aid : String) (p : Option AgentState),
      HTree.locate aid p t = none → aid ∉ idsOf t
  | .node s cs => by
      intro aid p h hmem
      simp only [HTree.locate] at h
      by_cases hs : s.id = aid
      · rw [if_pos hs] at h
        exact Option.noConfusion h
      · rw [if_neg hs] at h
        simp only [idsOf, HTree.flatten, List.map_cons, List.mem_cons] at hmem
        rcases hmem with hmem | hmem
        · exact hs hmem.symm
        · exact locateList_none_not_mem cs aid s h hmem

theorem locateList_none_not_mem :
    ∀ (ts : List HTree) (aid : String) (p : AgentState),
      HTree.locateList aid p ts = none →
      aid ∉ (HTree.flattenList ts).map (fun s => s.id)
  | [] => by intro aid p _ hmem; simp [HTree.flattenList] at hmem
  | t :: ts => by
      intro aid p h hmem
      simp only [HTree.locateList] at h
      cases ht : HTree.locate aid (some p) t with
      | some r => rw [ht] at h; exact Option.noConfusion h
      | none =>
          rw [ht] at h
          rw [show HTree.flattenList (t :: ts)
                = t.flatten ++ HTree.flattenList ts from rfl,
            List.map_append, List.mem_append] at hmem
          rcases hmem with hmem | hmem
          · exact locate_none_not_mem t aid (some p) ht hmem
          · exact locateList_none_not_mem ts aid p h hmem

end

theorem agent_none_not_mem (w : World) (b : String)
    (h : w.agent b = none) : b ∉ idsOf w.tree := by
  unfold World.agent at h
  cases hl : HTree.locate b none w.tree with
  | some r => rw [hl] at h; simp [Option.map] at h
  | none => exact locate_none_not_mem w.tree b none hl

theorem agent_some_of_mem (w : World) (b : String) (hmem : b ∈ idsOf w.tree) :
    ∃ s, w.agent b = some s := by
  cases hb : w.agent b with
  | none => exact absurd hmem (agent_none_not_mem w b hb)
  | some s => exact ⟨s, rfl⟩

theorem updIf_id {aid : String} {f : AgentState → AgentState}
    (hf : ∀ s, (f s).id = s.id) (x : AgentState) :
    (updIf aid f x).id = x.id := by
  unfold updIf
  split
  · rw [hf]
  · rfl

/-- Under unique ids, an id-targeted state rewrite acts pointwise on
every agent lookup. -/
theorem agent_updState (w : World) (aid b : String)
    (f : AgentState → AgentState)
    (hf : ∀ s, (f s).id = s.id) (hnd : (idsOf w.tree).Nodup) :
    (updState w aid f).agent b = (w.agent b).map (updIf aid f) := by
  have hnd' : ((w.tree.flatten).map (fun s => s.id)).Nodup := hnd
  have hflat : (updState w aid f).tree.flatten
      = w.tree.flatten.map (updIf aid f) := flatten_upd aid f w.tree hnd
  have hids : idsOf (updState w aid f).tree = idsOf w.tree :=
    idsOf_upd aid f hf w.tree hnd
  cases hb : w.agent b with
  | none =>
      have hnotmem : b ∉ idsOf w.tree := agent_none_not_mem w b hb
      cases hb2 : (updState w aid f).agent b with
      | none => rfl
      | some s2 =>
          exfalso
          obtain ⟨hs2id, hs2mem⟩ := agent_some_spec _ b s2 hb2
          apply hnotmem
          rw [← hids]
          exact hs2id ▸ List.mem_map_of_mem (fun s => s.id) hs2mem
  | some s =>
      obtain ⟨hsid, hsmem⟩ := agent_some_spec w b s hb
      cases hb2 : (updState w aid f).agent b with
      | none =>
          exfalso
          have hnotmem := agent_none_not_mem _ b hb2
          rw [hids] at hnotmem
          exact hnotmem (hsid ▸ List.mem_map_of_mem (fun s => s.id) hsmem)
      | some s2 =>
          obtain ⟨hs2id, hs2mem⟩ := agent_some_spec _ b s2 hb2
          rw [hflat] at hs2mem
          rcases List.mem_map.mp hs2mem with ⟨s0, hs0, hs0eq⟩
          have hs0id : s0.id = b := by
            rw [← updIf_id hf s0, hs0eq, hs2id]
          have hs0s : s0 = s :=
            eq_of_nodup_map hnd' hs0 hsmem (by rw [hs0id, hsid])
          simp only [Option.map, Option.some.injEq]
          rw [← hs0eq, hs0s]

theorem addMessage_agent (w : World) (aid : String) (m : Msg) (w1 : World)
    (hnd : (idsOf w.tree).Nodup)
    (h : addMessage w aid m = .ok w1) (b : String) :
    w1.agent b = (w.agent b).map
      (updIf aid (fun s => { s with inbox := s.inbox ++ [m] })) := by
  have ht := addMessage_tree w aid m w1 h
  have h2 : w1.agent b =
      (updState w aid (fun s => { s with inbox := s.inbox ++ [m] })).agent b := by
    unfold World.agent
    rw [ht]
  rw [h2]
  exact agent_updState w aid b
    (fun s => { s with inbox := s.inbox ++ [m] }) (fun s => rfl) hnd

theorem addMessage_ids (w : World) (aid : String) (m : Msg) (w1 : World)
    (hnd : (idsOf w.tree).Nodup)
    (h : addMessage w aid m = .ok w1) : idsOf w1.tree = idsOf w.tree := by
  have ht := addMessage_tree w aid m w1 h
  rw [show idsOf w1.tree
      = idsOf (updState w aid (fun s => { s with inbox := s.inbox ++ [m] })).tree
    from by rw [ht]]
  exact idsOf_upd aid (fun s => { s with inbox := s.inbox ++ [m] })
    (fun s => rfl) w.tree hnd

theorem find?_some_id (t : HTree) (rid : String) (node : HTree)
    (h : HTree.find? rid t = some node) : node.state.id = rid := by
  rw [find?_eq_locate t rid none] at h
  cases hl : HTree.locate rid none t with
  | none => rw [hl] at h; exact Option.noConfusion h
  | some r =>
      rw [hl] at h
      simp only [Option.map, Option.some.injEq] at h
      rw [← h]
      exact (locate_some_spec t rid none r hl).1

theorem find?_none_agent (w : World) (rid : String)
    (h : HTree.find? rid w.tree = none) : w.agent rid = none := by
  rw [find?_eq_locate w.tree rid none] at h
  unfold World.agent
  cases hl : HTree.locate rid none w.tree with
  | none => rfl
  | some r => rw [hl] at h; simp [Option.map] at h

theorem deliverMessage_agent (w : World) (sid rid : String) (m : Msg)
    (w1 : World) (hnd : (idsOf w.tree).Nodup)
    (h : deliverMessage w sid rid m = .ok w1) :
    idsOf w1.tree = idsOf w.tree ∧
    ∀ b, w1.agent b =
      if rid = sid then w.agent b
      else (w.agent b).map
        (updIf rid (fun s => { s with inbox := s.inbox ++ [m] })) := by
  unfold deliverMessage at h
  cases hfind : HTree.find? rid w.tree with
  | none =>
      rw [hfind] at h
      simp only [Except.ok.injEq] at h
      subst h
      refine ⟨rfl, ?_⟩
      intro b
      by_cases hrs : rid = sid
      · rw [if_pos hrs]
      · rw [if_neg hrs]
        cases hab : w.agent b with
        | none => rfl
        | some s =>
            obtain ⟨hsid2, _⟩ := agent_some_spec w b s hab
            by_cases hbr : b = rid
            · subst hbr
              rw [find?_none_agent w b hfind] at hab
              exact Option.noConfusion hab
            · simp only [Option.map, Option.some.injEq]
              unfold updIf
              rw [if_neg (fun hh => hbr (hsid2.symm.trans hh))]
  | some node =>
      rw [hfind] at h
      simp only [] at h
      have hnid : node.state.id = rid := find?_some_id w.tree rid node hfind
      by_cases hns : node.state.id ≠ sid
      · rw [if_pos hns] at h
        have hrs : rid ≠ sid := by rw [← hnid]; exact hns
        refine ⟨addMessage_ids w rid m w1 hnd h, ?_⟩
        intro b
        rw [if_neg hrs]
        exact addMessage_agent w rid m w1 hnd h b
      · rw [if_neg hns] at h
        push_neg at hns
        have hrs : rid = sid := by rw [← hnid, hns]
        simp only [Except.ok.injEq] at h
        subst h
        exact ⟨rfl, fun b => by rw [if_pos hrs]⟩

theorem deliverList_agents :
    ∀ (rids : List String) (w : World) (sid : String) (m : Msg) (w2 : World),
      (idsOf w.tree).Nodup →
      deliverList w sid m rids = .ok w2 →
      idsOf w2.tree = idsOf w.tree ∧
      w2.agent sid = w.agent sid ∧
      ∀ b, b ≠ sid →
        w2.agent b = (w.agent b).map (fun s =>
          { s with inbox := s.inbox ++ List.replicate (rids.count b) m }) := by
  intro rids
  induction rids with
  | nil =>
      intro w sid m w2 hnd h
      simp only [deliverList, Except.ok.injEq] at h
      subst h
      refine ⟨rfl, rfl, ?_⟩
      intro b _
      cases hab : w.agent b with
      | none => rfl
      | some s =>
          simp only [Option.map, Option.some.injEq, List.count_nil,
            List.replicate, List.append_nil]
  | cons rid rest ih =>
      intro w sid m w2 hnd h
      simp only [deliverList] at h
      cases h1 : deliverMessage w sid rid m with
      | error e => rw [h1] at h; simp [Bind.bind, Except.bind] at h
      | ok w1 =>
          rw [h1] at h
          simp only [Bind.bind, Except.bind] at h
          obtain ⟨hids1, hb1⟩ := deliverMessage_agent w sid rid m w1 hnd h1
          have hnd1 : (idsOf w1.tree).Nodup := by rw [hids1]; exact hnd
          obtain ⟨hids2, hsid2, hb2⟩ := ih w1 sid m w2 hnd1 h
          refine ⟨by rw [hids2, hids1], ?_, ?_⟩
          · rw [hsid2, hb1 sid]
            by_cases hrs : rid = sid
            · rw [if_pos hrs]
            · rw [if_neg hrs]
              cases hab : w.agent sid with
              | none => rfl
              | some s =>
                  obtain ⟨hsid3, _⟩ := agent_some_spec w sid s hab
                  simp only [Option.map, Option.some.injEq]
                  unfold updIf
                  rw [if_neg (fun hh => hrs (hh.symm.trans hsid3))]
          · intro b hbs
            rw [hb2 b hbs, hb1 b]
            by_cases hrs : rid = sid
            · rw [if_pos hrs]
              have hrb : ¬ rid = b := fun hh => hbs (hh.symm.trans hrs)
              have hcount : (rid :: rest).count b = rest.count b := by
                simp [List.count_cons, hrb]
              rw [hcount]
            · rw [if_neg hrs]
              cases hab : w.agent b with
              | none => rfl
              | some s =>
                  obtain ⟨hsid3, _⟩ := agent_some_spec w b s hab
                  by_cases hrb : rid = b
                  · have hcount : (rid :: rest).count b = rest.count b + 1 := by
                      simp [List.count_cons, hrb]
                    rw [hcount]
                    simp only [Option.map, Option.some.injEq]
                    unfold updIf
                    rw [if_pos (hsid3.trans hrb.symm)]
                    cases s
                    simp [List.replicate_succ, List.append_assoc]
                  · have hcount : (rid :: rest).count b = rest.count b := by
                      simp [List.count_cons, hrb]
                    rw [hcount]
                    simp only [Option.map, Option.some.injEq]
                    unfold updIf
                    rw [if_neg (fun hh => hrb (hsid3.symm.trans hh).symm)]

/-- The `messages` row written for one message. -/
def msgRowOf (m : Msg) : MsgRow :=
  { id := m.id, senderId := m.senderId, recipientIds := m.recipientIds,
    content := m.content, tokensAttached := m.tokensAttached,
    timestamp := m.timestamp }

theorem addMessage_store_mono (w : World) (aid : String) (m : Msg) (w1 : World)
    (h : addMessage w aid m = .ok w1) :
    ∀ r ∈ w.store.msgs, r ∈ w1.store.msgs := by
  intro r hr
  unfold addMessage at h
  simp only [] at h
  split at h
  · split at h
    · unfold saveMessage at h
      split at h
      · simp [Except.map] at h
      · simp only [Except.map, Except.ok.injEq] at h
        rw [← h]
        simp only [List.mem_append]
        exact Or.inl hr
    · simp only [Except.ok.injEq] at h
      rw [← h]
      exact hr
  · simp only [Except.ok.injEq] at h
    rw [← h]
    exact hr

theorem deliverMessage_store_mono (w : World) (sid rid : String) (m : Msg)
    (w1 : World) (h : deliverMessage w sid rid m = .ok w1) :
    ∀ r ∈ w.store.msgs, r ∈ w1.store.msgs := by
  unfold deliverMessage at h
  split at h
  · split at h
    · exact addMessage_store_mono w rid m w1 h
    · simp only [Except.ok.injEq] at h
      rw [← h]
      exact fun r hr => hr
  · simp only [Except.ok.injEq] at h
    rw [← h]
    exact fun r hr => hr

theorem deliverList_store_mono :
    ∀ (rids : List String) (w : World) (sid : String) (m : Msg) (w2 : World),
      deliverList w sid m rids = .ok w2 →
      ∀ r ∈ w.store.msgs, r ∈ w2.store.msgs := by
  intro rids
  induction rids with
  | nil =>
      intro w sid m w2 h
      simp only [deliverList, Except.ok.injEq] at h
      rw [← h]
      exact fun r hr => hr
  | cons rid rest ih =>
      intro w sid m w2 h
      simp only [deliverList] at h
      cases h1 : deliverMessage w sid rid m with
      | error e => rw [h1] at h; simp [Bind.bind, Except.bind] at h
      | ok w1 =>
          rw [h1] at h
          simp only [Bind.bind, Except.bind] at h
          exact fun r hr =>
            ih w1 sid m w2 h r (deliverMessage_store_mono w sid rid m w1 h1 r hr)

theorem addMessage_store_row (w : World) (aid : String) (m : Msg) (w1 : World)
    (s : AgentState) (hag : w.agent aid = some s)
    (hnd : (idsOf w.tree).Nodup) (hb : s.storageBound = true)
    (h : addMessage w aid m = .ok w1) :
    msgRowOf m ∈ w1.store.msgs := by
  have hself := agent_updState w aid aid
    (fun s => { s with inbox := s.inbox ++ [m] }) (fun s => rfl) hnd
  rw [hag] at hself
  have hsid := (agent_some_spec w aid s hag).1
  unfold addMessage at h
  simp only [] at h
  cases hl : HTree.locate aid none
      (updState w aid (fun s => { s with inbox := s.inbox ++ [m] })).tree with
  | none =>
      exfalso
      unfold World.agent at hself
      rw [hl] at hself
      simp [Option.map] at hself
  | some r =>
      have hstate : r.2.state = { s with inbox := s.inbox ++ [m] } := by
        unfold World.agent at hself
        rw [hl] at hself
        simp only [Option.map, Option.some.injEq] at hself
        rw [hself]
        unfold updIf
        rw [if_pos hsid]
      rw [hl] at h
      simp only [] at h
      rw [hstate] at h
      simp only [hb, if_pos] at h
      unfold saveMessage at h
      split at h
      · simp [Except.map] at h
      · simp only [Except.map, Except.ok.injEq] at h
        rw [← h]
        simp only [List.mem_append, List.mem_singleton]
        exact Or.inr rfl

/-- C8 (amended): `send_message` appends the message exactly once to the
sender's inbox (even when the sender's id occurs in the recipient list:
delivery skips the sender), and appends it to every other agent's inbox
once per OCCURRENCE of that agent's id in the recipient list — a
duplicated id delivers twice, so "exactly once per resolving id" holds
only for ids occurring once.  Ids that do not resolve are silently
dropped (an unresolved id stays unresolved: its lookup is `none` on both
sides).  The message itself records the full recipient list, and when
the sender is storage-bound a `messages` row carrying all of `rids` is
persisted. -/
theorem C8_message_delivery (w : World) (sid : String) (rids : List String)
    (content : Json) (tokens : Int) (now : Time) (w2 : World)
    (hnd : (idsOf w.tree).Nodup)
    (h : sendMessage w sid rids content tokens now = .ok w2) :
    ∃ m : Msg, m.senderId = sid ∧ m.recipientIds = rids ∧
      m.content = content ∧ m.tokensAttached = tokens ∧
      (∀ s, w.agent sid = some s →
        w2.agent sid = some { s with inbox := s.inbox ++ [m] } ∧
        (s.storageBound = true → msgRowOf m ∈ w2.store.msgs)) ∧
      (∀ b, b ≠ sid →
        w2.agent b = (w.agent b).map (fun s =>
          { s with inbox := s.inbox ++ List.replicate (rids.count b) m })) := by
  unfold sendMessage at h
  simp only [] at h
  split at h
  · exact Except.noConfusion h
  · rename_i w1 heq
    refine ⟨{ id := freshId w.fresh, senderId := sid, recipientIds := rids,
              content := content, tokensAttached := tokens, timestamp := now },
      rfl, rfl, rfl, rfl, ?_, ?_⟩
    · intro s hag
      have hag0 : ({ w with fresh := w.fresh + 1 } : World).agent sid = some s := hag
      have hnd0 : (idsOf ({ w with fresh := w.fresh + 1 } : World).tree).Nodup := hnd
      have hsid := (agent_some_spec w sid s hag).1
      obtain ⟨hids1, hsame, _⟩ :=
        deliverList_agents rids w1 sid _ w2
          (by
            rw [addMessage_ids _ sid _ w1 hnd0 heq]
            exact hnd0) h
      constructor
      · rw [hsame, addMessage_agent _ sid _ w1 hnd0 heq sid, hag0]
        simp only [Option.map, Option.some.injEq]
        unfold updIf
        rw [if_pos hsid]
      · intro hbound
        exact deliverList_store_mono rids w1 sid _ w2 h _
          (addMessage_store_row _ sid _ w1 s hag0 hnd0 hbound heq)
    · intro b hbs
      have hnd0 : (idsOf ({ w with fresh := w.fresh + 1 } : World).tree).Nodup := hnd
      obtain ⟨hids1, hsame, hrec⟩ :=
        deliverList_agents rids w1 sid _ w2
          (by
            rw [addMessage_ids _ sid _ w1 hnd0 heq]
            exact hnd0) h
      rw [hrec b hbs, addMessage_agent _ sid _ w1 hnd0 heq b]
      have hag0 : ({ w with fresh := w.fresh + 1 } : World).agent b = w.agent b := rfl
      rw [hag0]
      cases hab : w.agent b with
      | none => rfl
      | some sb =>
          have hsbid := (agent_some_spec w b sb hab).1
          simp only [Option.map, Option.some.injEq]
          unfold updIf
          rw [if_neg (fun hh => hbs (hsbid.symm.trans hh))]

/-- C8 fixture: parent `p` with children `c1` and `c2`, nothing bound. -/
def wC8 : World :=
  { tree := .node (mkAgent "p" 0 0 none)
      [.node (mkAgent "c1" 0 0 none) [],
       .node (mkAgent "c2" 0 0 none) []]
    history := []
    allocations := []
    fresh := 0
    store := emptyStore }

/-- The world after sending to the duplicated recipient list. -/
def w2C8 : World :=
  (sendMessage wC8 "p" ["c1", "c1"] (.str "hi") 0 0).toOption.getD wC8

/-- C8 (counterexample): a recipient id occurring twice in the list gets
the same message appended TWICE — `send_message` loops over occurrences
of ids, not over distinct resolved recipients, so "appended exactly once
to that agent's inbox" fails; the sender still gets it once. -/
theorem C8_counterexample :
    sendMessage wC8 "p" ["c1", "c1"] (.str "hi") 0 0 = .ok w2C8
    ∧ (w2C8.agent "c1").map (fun s => s.inbox.map (fun mm => mm.id))
        = some [freshId 0, freshId 0]
    ∧ (w2C8.agent "p").map (fun s => s.inbox.length) = some 1 :=
  ⟨rfl, rfl, rfl⟩

/-- The world after the spec's S4 scenario send. -/
def w3C8 : World :=
  (sendMessage wC8 "p" ["c1", "c2", "ghost"] (.str "hi") 0 0).toOption.getD wC8

/-- C8 witness: the amended theorem at the S4 scenario — `p` sends to
`[c1, c2, ghost]`; each child's count in the list is one, `ghost` does
not resolve on either side, and the message records all three ids. -/
theorem C8_witness :
    ∃ m : Msg, m.senderId = "p" ∧ m.recipientIds = ["c1", "c2", "ghost"] ∧
      m.content = .str "hi" ∧ m.tokensAttached = 0 ∧
      (∀ s, wC8.agent "p" = some s →
        w3C8.agent "p" = some { s with inbox := s.inbox ++ [m] } ∧
        (s.storageBound = true → msgRowOf m ∈ w3C8.store.msgs)) ∧
      (∀ b, b ≠ "p" →
        w3C8.agent b = (wC8.agent b).map (fun s =>
          { s with inbox := s.inbox ++
              List.replicate ((["c1", "c2", "ghost"] : List String).count b) m })) :=
  C8_message_delivery wC8 "p" ["c1", "c2", "ghost"] (.str "hi") 0 0 w3C8
    (by decide) rfl

/-! ### C10: child removal and storage -/

mutual

theorem locate_subtree :
    ∀ (t : HTree) (aid : String) (p : Option AgentState)
      (r : Option AgentState × HTree),
      HTree.locate aid p t = some r → ∀ s ∈ r.2.flatten, s ∈ t.flatten
  | .node st cs => by
      intro aid p r h s hs
      simp only [HTree.locate] at h
      by_cases hst : st.id = aid
      · rw [if_pos hst] at h
        simp only [Option.some.injEq] at h
        subst h
        exact hs
      · rw [if_neg hst] at h
        have h2 := locateList_subtree cs aid st r h s hs
        rw [show (HTree.node st cs).flatten
              = st :: HTree.flattenList cs from rfl]
        exact List.mem_cons_of_mem st h2

theorem locateList_subtree :
    ∀ (ts : List HTree) (aid : String) (p : AgentState)
      (r : Option AgentState × HTree),
      HTree.locateList aid p ts = some r →
      ∀ s ∈ r.2.flatten, s ∈ HTree.flattenList ts
  | [] => by intro aid p r h; simp [HTree.locateList] at h
  | t :: ts => by
      intro aid p r h s hs
      simp only [HTree.locateList] at h
      cases ht : HTree.locate aid (some p) t with
      | some r2 =>
          rw [ht] at h
          simp only [Option.some.injEq] at h
          subst h
          rw [show HTree.flattenList (t :: ts)
                = t.flatten ++ HTree.flattenList ts from rfl]
          exact List.mem_append.mpr (Or.inl (locate_subtree t aid (some p) r2 ht s hs))
      | none =>
          rw [ht] at h
          rw [show HTree.flattenList (t :: ts)
                = t.flatten ++ HTree.flattenList ts from rfl]
          exact List.mem_append.mpr (Or.inr (locateList_subtree ts aid p r h s hs))

end

theorem removeFirstChild_true_iff (cid : String) :
    ∀ cs : List HTree,
      (removeFirstChild cid cs).2 = true
        ↔ cid ∈ cs.map (fun c => c.state.id) := by
  intro cs
  induction cs with
  | nil => simp [removeFirstChild]
  | cons c rest ih =>
      by_cases hc : c.state.id = cid
      · simp [removeFirstChild, if_pos hc, hc]
      · simp only [removeFirstChild, if_neg hc, List.map_cons, List.mem_cons]
        rw [ih]
        constructor
        · exact fun hm => Or.inr hm
        · rintro (hm | hm)
          · exact absurd hm.symm hc
          · exact hm

theorem removeFirstChild_flat_sub (cid : String) :
    ∀ cs : List HTree, ∀ s ∈ HTree.flattenList (removeFirstChild cid cs).1,
      s ∈ HTree.flattenList cs := by
  intro cs
  induction cs with
  | nil => intro s hs; simpa [removeFirstChild] using hs
  | cons c rest ih =>
      intro s hs
      rw [show HTree.flattenList (c :: rest)
            = c.flatten ++ HTree.flattenList rest from rfl, List.mem_append]
      by_cases hc : c.state.id = cid
      · simp only [removeFirstChild, if_pos hc] at hs
        exact Or.inr hs
      · simp only [removeFirstChild, if_neg hc] at hs
        rw [show HTree.flattenList (c :: (removeFirstChild cid rest).1)
              = c.flatten ++ HTree.flattenList (removeFirstChild cid rest).1
            from rfl, List.mem_append] at hs
        rcases hs with hs | hs
        · exact Or.inl hs
        · exact Or.inr (ih s hs)

theorem upsertHobj_mem (rows : List HobjRow) (r row : HobjRow)
    (hrow : row ∈ rows) : row.id = r.id ∨ row ∈ upsertHobj rows r := by
  unfold upsertHobj
  split
  · by_cases hid : row.id = r.id
    · exact Or.inl hid
    · exact Or.inr (List.mem_map.mpr ⟨row, hrow, by rw [if_neg hid]⟩)
  · exact Or.inr (List.mem_append.mpr (Or.inl hrow))

theorem upsertHolon_mem (rows : List HolonRow) (r row : HolonRow)
    (hrow : row ∈ rows) : row.id = r.id ∨ row ∈ upsertHolon rows r := by
  unfold upsertHolon
  split
  · by_cases hid : row.id = r.id
    · exact Or.inl hid
    · exact Or.inr (List.mem_map.mpr ⟨row, hrow, by rw [if_neg hid]⟩)
  · exact Or.inr (List.mem_append.mpr (Or.inl hrow))

theorem autoSave_store_mem (w : World) (aid : String) :
    (∀ row ∈ w.store.hobjs, row.id = aid ∨ row ∈ (w.autoSave aid).store.hobjs) ∧
    (∀ row ∈ w.store.holons, row.id = aid ∨ row ∈ (w.autoSave aid).store.holons) ∧
    (w.autoSave aid).store.msgs = w.store.msgs := by
  unfold World.autoSave
  cases hl : HTree.locate aid none w.tree with
  | none =>
      exact ⟨fun row hr => Or.inr hr, fun row hr => Or.inr hr, rfl⟩
  | some r =>
      have hid : r.2.state.id = aid := (locate_some_spec w.tree aid none r hl).1
      by_cases hbound : r.2.state.storageBound
      · simp only [if_pos hbound]
        refine ⟨?_, ?_, by trivial⟩
        · intro row hr
          rcases upsertHobj_mem w.store.hobjs
              (hobjRowOf ((r.1).map (fun q => q.id)) r.2.state) row hr with h2 | h2
          · exact Or.inl (by rw [h2]; exact hid)
          · exact Or.inr h2
        · intro row hr
          rcases upsertHolon_mem w.store.holons (holonRowOf r.2.state) row hr
            with h2 | h2
          · exact Or.inl (by rw [h2]; exact hid)
          · exact Or.inr h2
      · simp only [if_neg hbound]
        exact ⟨fun row hr => Or.inr hr, fun row hr => Or.inr hr, by trivial⟩

/-- C10 (amended): `remove_child` detaches the first child with the
given id from the parent's list — taking the child's whole subtree with
it in memory, and returning `true` exactly when such a child exists —
but nothing is ever deleted from persistent storage: `delete_hobj` has
no caller, the only storage effect is the parent's own upsert, so every
stored row other than possibly the parent's (and every message row)
survives; when no child of the parent carries the id, the world is
returned unchanged with `false`. -/
theorem C10_remove_child (w : World) (pid cid : String) (w2 : World) (b : Bool)
    (h : removeChild w pid cid = (w2, b)) :
    (b = false → w2 = w) ∧
    (b = true ↔ ∃ r, HTree.locate pid none w.tree = some r ∧
        cid ∈ r.2.children.map (fun c => c.state.id)) ∧
    (∀ s ∈ w2.tree.flatten, s ∈ w.tree.flatten) ∧
    (∀ row ∈ w.store.hobjs, row.id = pid ∨ row ∈ w2.store.hobjs) ∧
    (∀ row ∈ w.store.holons, row.id = pid ∨ row ∈ w2.store.holons) ∧
    (∀ row ∈ w.store.msgs, row ∈ w2.store.msgs) := by
  unfold removeChild at h
  cases hl : HTree.locate pid none w.tree with
  | none =>
      rw [hl] at h
      simp only [Prod.mk.injEq] at h
      obtain ⟨hw, hb⟩ := h
      subst hw
      refine ⟨fun _ => rfl, ?_, fun s hs => hs,
        fun row hr => Or.inr hr, fun row hr => Or.inr hr, fun row hr => hr⟩
      constructor
      · intro hbt
        rw [hbt] at hb
        exact absurd hb.symm (by decide)
      · rintro ⟨r, hr, -⟩
        exact Option.noConfusion hr
  | some r =>
      rw [hl] at h
      simp only [] at h
      rcases hrf : removeFirstChild cid r.2.children with ⟨cs2, removed⟩
      rw [hrf] at h
      simp only [] at h
      cases removed with
      | false =>
          simp only [Bool.false_eq_true, if_false, Prod.mk.injEq] at h
          obtain ⟨hw, hb⟩ := h
          subst hw
          refine ⟨fun _ => rfl, ?_, fun s hs => hs,
            fun row hr => Or.inr hr, fun row hr => Or.inr hr, fun row hr => hr⟩
          constructor
          · intro hbt
            rw [hbt] at hb
            exact absurd hb.symm (by decide)
          · rintro ⟨r2, hr2, hmem⟩
            simp only [Option.some.injEq] at hr2
            subst hr2
            have := (removeFirstChild_true_iff cid r.2.children).mpr hmem
            rw [hrf] at this
            exact absurd this (by simp)
      | true =>
          simp only [if_true, Prod.mk.injEq] at h
          obtain ⟨hw, hb⟩ := h
          refine ⟨fun hbf => absurd (hb.trans hbf) (by decide), ?_, ?_, ?_, ?_, ?_⟩
          · constructor
            · intro _
              refine ⟨r, rfl, ?_⟩
              have := (removeFirstChild_true_iff cid r.2.children).mp (by rw [hrf])
              exact this
            · intro _
              exact hb.symm
          · intro s hs
            rw [← hw] at hs
            have htree := (autoSave_fields
              ({ w with tree := w.tree.updNode pid (fun n => .node n.state cs2) })
              pid).1
            rw [htree] at hs
            rcases updNode_mem pid (fun n => .node n.state cs2)
                (fun s => s ∈ HTree.flattenList cs2)
                (fun n s2 hs2 => by
                  cases n with
                  | node st csn =>
                      rw [show (HTree.node (HTree.node st csn).state cs2).flatten
                            = st :: HTree.flattenList cs2 from rfl] at hs2
                      rcases List.mem_cons.mp hs2 with hx | hx
                      · exact Or.inl (by rw [hx]; exact List.mem_cons_self st _)
                      · exact Or.inr hx)
                w.tree s hs with h3 | h3
            · exact h3
            · have h4 : s ∈ HTree.flattenList (removeFirstChild cid r.2.children).1 := by
                rw [hrf]
                exact h3
              have h5 := removeFirstChild_flat_sub cid r.2.children s h4
              have h6 : s ∈ r.2.flatten := by
                cases hr2 : r.2 with
                | node st csn =>
                    rw [show (HTree.node st csn).flatten
                          = st :: HTree.flattenList csn from rfl]
                    rw [hr2] at h5
                    exact List.mem_cons_of_mem st h5
              exact locate_subtree w.tree pid none r hl s h6
          · intro row hr
            rw [← hw]
            exact (autoSave_store_mem
              { w with tree := w.tree.updNode pid (fun n => .node n.state cs2) }
              pid).1 row hr
          · intro row hr
            rw [← hw]
            exact (autoSave_store_mem
              { w with tree := w.tree.updNode pid (fun n => .node n.state cs2) }
              pid).2.1 row hr
          · intro row hr
            rw [← hw]
            rw [(autoSave_store_mem
              { w with tree := w.tree.updNode pid (fun n => .node n.state cs2) }
              pid).2.2]
            exact hr

/-- C10 fixture tree: bound parent `p`, child `c`, grandchild `g`. -/
def treeC10 : HTree :=
  .node { mkAgent "p" 0 0 none with storageBound := true }
    [.node { mkAgent "c" 0 0 none with storageBound := true }
      [.node { mkAgent "g" 0 0 none with storageBound := true } []]]

/-- C10 fixture world: the tree above, fully persisted by `save_tree`. -/
def wC10 : World :=
  { tree := treeC10
    history := []
    allocations := []
    fresh := 0
    store := saveTree emptyStore none treeC10 }

/-- The world after removing `c` from `p`. -/
def w2C10 : World := (removeChild wC10 "p" "c").1

/-- C10 (counterexample): removing child `c` detaches `c` and its
descendant `g` from the in-memory tree, yet every persisted row
survives: the `hobjs` table still holds rows for `p`, `c` AND `g`, and
`list_hobjs(parent_id=p)` still reports `c` — nothing cascades to
storage, because `remove_child` never calls `delete_hobj` (which has no
caller anywhere). -/
theorem C10_counterexample :
    (removeChild wC10 "p" "c").2 = true
    ∧ w2C10.tree.flatten.map (fun s => s.id) = ["p"]
    ∧ w2C10.store.hobjs.map (fun r => r.id) = ["p", "c", "g"]
    ∧ childRowIds w2C10.store "p" = ["c"] :=
  ⟨rfl, rfl, rfl, rfl⟩

/-- C10 witness: the amended theorem at the fixture — the removal
reports `true` (the child exists), the tree only shrinks, and every
stored row except possibly the parent's upsert survives. -/
theorem C10_witness :
    (true = false → w2C10 = wC10) ∧
    (true = true ↔ ∃ r, HTree.locate "p" none wC10.tree = some r ∧
        "c" ∈ r.2.children.map (fun c => c.state.id)) ∧
    (∀ s ∈ w2C10.tree.flatten, s ∈ wC10.tree.flatten) ∧
    (∀ row ∈ wC10.store.hobjs, row.id = "p" ∨ row ∈ w2C10.store.hobjs) ∧
    (∀ row ∈ wC10.store.holons, row.id = "p" ∨ row ∈ w2C10.store.holons) ∧
    (∀ row ∈ wC10.store.msgs, row ∈ w2C10.store.msgs) :=
  C10_remove_child wC10 "p" "c" w2C10 true rfl

/-! ### C6: save/restore round-trip -/

mutual

/-- Every node of a tree with its parent id, in save order (depth-first
preorder — the order `save_tree` writes rows). -/
def treeNodes (p : Option String) : HTree → List (Option String × HTree)
  | .node s cs => (p, .node s cs) :: treeNodesList s.id cs

/-- `treeNodes` over the children of the node with id `pid`. -/
def treeNodesList (pid : String) : List HTree → List (Option String × HTree)
  | [] => []
  | t :: ts => treeNodes (some pid) t ++ treeNodesList pid ts

end

/-- The `hobjs` rows `save_tree` writes, in order. -/
def hobjRowsOf (p : Option String) (t : HTree) : List HobjRow :=
  (treeNodes p t).map (fun q => hobjRowOf q.1 q.2.state)

/-- The `holons` rows `save_tree` writes, in order. -/
def holonRowsOf (p : Option String) (t : HTree) : List HolonRow :=
  (treeNodes p t).map (fun q => holonRowOf q.2.state)

theorem upsertHobj_fresh (rows : List HobjRow) (r : HobjRow)
    (hf : ∀ x ∈ rows, x.id ≠ r.id) : upsertHobj rows r = rows ++ [r] := by
  unfold upsertHobj
  rw [if_neg]
  intro hany
  rcases List.any_eq_true.mp hany with ⟨x, hx, hxe⟩
  exact hf x hx (by simpa using hxe)

theorem upsertHolon_fresh (rows : List HolonRow) (r : HolonRow)
    (hf : ∀ x ∈ rows, x.id ≠ r.id) : upsertHolon rows r = rows ++ [r] := by
  unfold upsertHolon
  rw [if_neg]
  intro hany
  rcases List.any_eq_true.mp hany with ⟨x, hx, hxe⟩
  exact hf x hx (by simpa using hxe)

mutual

theorem treeNodes_ids :
    ∀ (t : HTree) (p : Option String),
      (treeNodes p t).map (fun q => q.2.state.id) = idsOf t
  | .node s cs => by
      intro p
      rw [show treeNodes p (.node s cs)
            = (p, HTree.node s cs) :: treeNodesList s.id cs from rfl,
        List.map_cons, treeNodesList_ids cs s.id]
      rfl

theorem treeNodesList_ids :
    ∀ (ts : List HTree) (pid : String),
      (treeNodesList pid ts).map (fun q => q.2.state.id)
        = (HTree.flattenList ts).map (fun s => s.id)
  | [] => by intro pid; rfl
  | t :: ts => by
      intro pid
      simp only [treeNodesList, List.map_append, treeNodes_ids t (some pid),
        treeNodesList_ids ts pid]
      rw [show HTree.flattenList (t :: ts)
            = t.flatten ++ HTree.flattenList ts from rfl, List.map_append]
      rfl

end

mutual

theorem saveTree_spec :
    ∀ (t : HTree) (store : Store) (p : Option String),
      (∀ a ∈ idsOf t, (∀ x ∈ store.hobjs, x.id ≠ a) ∧
        (∀ x ∈ store.holons, x.id ≠ a)) →
      (idsOf t).Nodup →
      saveTree store p t =
        { hobjs := store.hobjs ++ hobjRowsOf p t,
          holons := store.holons ++ holonRowsOf p t,
          msgs := store.msgs }
  | .node s cs => by
      intro store p hdisj hnd
      have hroot : s.id ∈ idsOf (HTree.node s cs) := by
        simp [idsOf, HTree.flatten]
      simp only [saveTree]
      have h1 : saveFull store p s =
          { hobjs := store.hobjs ++ [hobjRowOf p s],
            holons := store.holons ++ [holonRowOf s],
            msgs := store.msgs } := by
        unfold saveFull
        rw [upsertHobj_fresh store.hobjs _
              (fun x hx => (hdisj s.id hroot).1 x hx),
            upsertHolon_fresh store.holons _
              (fun x hx => (hdisj s.id hroot).2 x hx)]
      rw [h1]
      have hndcs : ((HTree.flattenList cs).map (fun x => x.id)).Nodup := by
        have : idsOf (HTree.node s cs)
            = s.id :: (HTree.flattenList cs).map (fun x => x.id) := rfl
        rw [this] at hnd
        exact hnd.of_cons
      have hmemids : ∀ a, a ∈ (HTree.flattenList cs).map (fun x => x.id) →
          a ∈ idsOf (HTree.node s cs) := by
        intro a ha
        rw [show idsOf (HTree.node s cs)
              = s.id :: (HTree.flattenList cs).map (fun x => x.id) from rfl]
        exact List.mem_cons_of_mem s.id ha
      have hsne : ∀ a ∈ (HTree.flattenList cs).map (fun x => x.id), s.id ≠ a := by
        intro a ha he
        rw [show idsOf (HTree.node s cs)
              = s.id :: (HTree.flattenList cs).map (fun x => x.id) from rfl] at hnd
        exact (List.nodup_cons.mp hnd).1 (he ▸ ha)
      rw [saveTreeList_spec cs _ s.id
        (by
          intro a ha
          constructor
          · intro x hx
            rcases List.mem_append.mp hx with hx | hx
            · exact (hdisj a (hmemids a ha)).1 x hx
            · rw [List.mem_singleton.mp hx]
              exact hsne a ha
          · intro x hx
            rcases List.mem_append.mp hx with hx | hx
            · exact (hdisj a (hmemids a ha)).2 x hx
            · rw [List.mem_singleton.mp hx]
              exact hsne a ha)
        hndcs]
      simp only [hobjRowsOf, holonRowsOf, treeNodes, List.map_cons,
        List.append_assoc, List.singleton_append]
      rfl

theorem saveTreeList_spec :
    ∀ (ts : List HTree) (store : Store) (pid : String),
      (∀ a ∈ (HTree.flattenList ts).map (fun x => x.id),
        (∀ x ∈ store.hobjs, x.id ≠ a) ∧ (∀ x ∈ store.holons, x.id ≠ a)) →
      ((HTree.flattenList ts).map (fun x => x.id)).Nodup →
      saveTreeList store pid ts =
        { hobjs := store.hobjs ++
            (treeNodesList pid ts).map (fun q => hobjRowOf q.1 q.2.state),
          holons := store.holons ++
            (treeNodesList pid ts).map (fun q => holonRowOf q.2.state),
          msgs := store.msgs }
  | [] => by
      intro store pid _ _
      simp [saveTreeList, treeNodesList]
  | t :: ts => by
      intro store pid hdisj hnd
      have hsplit : HTree.flattenList (t :: ts)
          = t.flatten ++ HTree.flattenList ts := rfl
      rw [hsplit, List.map_append] at hdisj hnd
      simp only [saveTreeList]
      rw [saveTree_spec t store (some pid)
        (fun a ha => hdisj a (List.mem_append.mpr (Or.inl ha)))
        hnd.of_append_left]
      rw [saveTreeList_spec ts _ pid
        (by
          intro a ha
          constructor
          · intro x hx
            rcases List.mem_append.mp hx with hx | hx
            · exact (hdisj a (List.mem_append.mpr (Or.inr ha))).1 x hx
            · rcases List.mem_map.mp hx with ⟨q, hq, hqe⟩
              have hqid : q.2.state.id ∈ idsOf t := by
                rw [← treeNodes_ids t (some pid)]
                exact List.mem_map_of_mem _ hq
              intro he
              have : a ∈ (t.flatten).map (fun x => x.id) := by
                rw [← he, ← hqe]
                exact hqid
              exact List.disjoint_left.mp
                (List.disjoint_of_nodup_append hnd)
                this (by exact ha)
          · intro x hx
            rcases List.mem_append.mp hx with hx | hx
            · exact (hdisj a (List.mem_append.mpr (Or.inr ha))).2 x hx
            · rcases List.mem_map.mp hx with ⟨q, hq, hqe⟩
              have hqid : q.2.state.id ∈ idsOf t := by
                rw [← treeNodes_ids t (some pid)]
                exact List.mem_map_of_mem _ hq
              intro he
              have : a ∈ (t.flatten).map (fun x => x.id) := by
                rw [← he, ← hqe]
                exact hqid
              exact List.disjoint_left.mp
                (List.disjoint_of_nodup_append hnd)
                this (by exact ha))
        hnd.of_append_right]
      simp only [hobjRowsOf, holonRowsOf, treeNodesList, List.map_append,
        List.append_assoc]

end

theorem find?_some_mem (t : HTree) (nid : String) (n : HTree)
    (h : HTree.find? nid t = some n) :
    nid ∈ idsOf t ∧ n.state.id = nid ∧ n.state ∈ t.flatten := by
  rw [find?_eq_locate t nid none] at h
  cases hl : HTree.locate nid none t with
  | none => rw [hl] at h; exact Option.noConfusion h
  | some r =>
      rw [hl] at h
      simp only [Option.map, Option.some.injEq] at h
      obtain ⟨hid, hmem⟩ := locate_some_spec t nid none r hl
      subst h
      exact ⟨hid ▸ List.mem_map_of_mem (fun s => s.id) hmem, hid, hmem⟩

theorem find?_none_not_mem (t : HTree) (nid : String)
    (h : HTree.find? nid t = none) : nid ∉ idsOf t := by
  rw [find?_eq_locate t nid none] at h
  cases hl : HTree.locate nid none t with
  | none => exact locate_none_not_mem t nid none hl
  | some r => rw [hl] at h; simp [Option.map] at h

mutual

theorem treeNodes_filter_none :
    ∀ (t : HTree) (p : Option String) (nid : String),
      nid ∉ idsOf t → p ≠ some nid →
      (treeNodes p t).filter (fun q => q.1 = some nid) = []
  | .node s cs => by
      intro p nid hnm hp
      rw [show treeNodes p (.node s cs)
            = (p, HTree.node s cs) :: treeNodesList s.id cs from rfl,
        List.filter_cons, if_neg (by simpa using hp)]
      refine treeNodesList_filter_none cs s.id nid ?_ ?_
      · intro hmem
        exact hnm (by
          rw [show idsOf (HTree.node s cs)
                = s.id :: (HTree.flattenList cs).map (fun x => x.id) from rfl]
          exact List.mem_cons_of_mem _ hmem)
      · intro he
        exact hnm (by
          rw [show idsOf (HTree.node s cs)
                = s.id :: (HTree.flattenList cs).map (fun x => x.id) from rfl, ← he]
          exact List.mem_cons_self _ _)

theorem treeNodesList_filter_none :
    ∀ (ts : List HTree) (pid nid : String),
      nid ∉ (HTree.flattenList ts).map (fun x => x.id) → pid ≠ nid →
      (treeNodesList pid ts).filter (fun q => q.1 = some nid) = []
  | [] => by intro pid nid _ _; rfl
  | t :: ts => by
      intro pid nid hnm hp
      rw [show treeNodesList pid (t :: ts)
            = treeNodes (some pid) t ++ treeNodesList pid ts from rfl,
        List.filter_append]
      rw [show HTree.flattenList (t :: ts)
            = t.flatten ++ HTree.flattenList ts from rfl, List.map_append] at hnm
      rw [treeNodes_filter_none t (some pid) nid
          (fun hmem => hnm (List.mem_append.mpr (Or.inl hmem)))
          (fun he => hp (by injection he)),
        treeNodesList_filter_none ts pid nid
          (fun hmem => hnm (List.mem_append.mpr (Or.inr hmem))) hp]
      rfl

end

theorem treeNodesList_filter_self :
    ∀ (ts : List HTree) (pid : String),
      pid ∉ (HTree.flattenList ts).map (fun x => x.id) →
      (treeNodesList pid ts).filter (fun q => q.1 = some pid)
        = ts.map (fun c => (some pid, c)) := by
  intro ts
  induction ts with
  | nil => intro pid _; rfl
  | cons t ts ih =>
      intro pid hnm
      rw [show treeNodesList pid (t :: ts)
            = treeNodes (some pid) t ++ treeNodesList pid ts from rfl,
        List.filter_append]
      rw [show HTree.flattenList (t :: ts)
            = t.flatten ++ HTree.flattenList ts from rfl, List.map_append] at hnm
      have hnt : pid ∉ (t.flatten).map (fun x => x.id) :=
        fun hmem => hnm (List.mem_append.mpr (Or.inl hmem))
      have hnts : pid ∉ (HTree.flattenList ts).map (fun x => x.id) :=
        fun hmem => hnm (List.mem_append.mpr (Or.inr hmem))
      cases t with
      | node s cs =>
          rw [show treeNodes (some pid) (.node s cs)
                = (some pid, HTree.node s cs) :: treeNodesList s.id cs from rfl,
            List.filter_cons, if_pos (by simp)]
          have hsid : s.id ≠ pid := by
            intro he
            exact hnt (by
              rw [show (HTree.node s cs).flatten
                    = s :: HTree.flattenList cs from rfl, List.map_cons, ← he]
              exact List.mem_cons_self _ _)
          rw [treeNodesList_filter_none cs s.id pid
              (fun hmem => hnt (by
                rw [show (HTree.node s cs).flatten
                      = s :: HTree.flattenList cs from rfl, List.map_cons]
                exact List.mem_cons_of_mem _ hmem))
              hsid,
            ih pid hnts]
          rfl

mutual

theorem treeNodes_filter :
    ∀ (t : HTree) (p : Option String) (nid : String),
      (idsOf t).Nodup → p ≠ some nid →
      (treeNodes p t).filter (fun q => q.1 = some nid)
        = (match HTree.find? nid t with
           | some n => n.children
           | none => []).map (fun c => (some nid, c))
  | .node s cs => by
      intro p nid hnd hp
      have hndsplit : (s.id :: (HTree.flattenList cs).map (fun x => x.id)).Nodup := hnd
      rw [show treeNodes p (.node s cs)
            = (p, HTree.node s cs) :: treeNodesList s.id cs from rfl,
        List.filter_cons, if_neg (by simpa using hp)]
      by_cases hs : s.id = nid
      · rw [show HTree.find? nid (.node s cs) = some (.node s cs)
              from by simp [HTree.find?, hs]]
        rw [← hs]
        exact treeNodesList_filter_self cs s.id (List.nodup_cons.mp hndsplit).1
      · rw [show HTree.find? nid (.node s cs) = HTree.findList? nid cs
              from by simp [HTree.find?, hs]]
        exact treeNodesList_filter cs s.id nid (List.nodup_cons.mp hndsplit).2 hs

theorem treeNodesList_filter :
    ∀ (ts : List HTree) (pid nid : String),
      (((HTree.flattenList ts).map (fun x => x.id)).Nodup) → pid ≠ nid →
      (treeNodesList pid ts).filter (fun q => q.1 = some nid)
        = (match HTree.findList? nid ts with
           | some n => n.children
           | none => []).map (fun c => (some nid, c))
  | [] => by intro pid nid _ _; rfl
  | t :: ts => by
      intro pid nid hnd hp
      rw [show treeNodesList pid (t :: ts)
            = treeNodes (some pid) t ++ treeNodesList pid ts from rfl,
        List.filter_append]
      rw [show HTree.flattenList (t :: ts)
            = t.flatten ++ HTree.flattenList ts from rfl, List.map_append] at hnd
      cases hf : HTree.find? nid t with
      | some n =>
          rw [show HTree.findList? nid (t :: ts) = some n
                from by simp [HTree.findList?, hf]]
          have hmem := (find?_some_mem t nid n hf).1
          rw [treeNodes_filter t (some pid) nid hnd.of_append_left
              (fun he => hp (by injection he)), hf]
          rw [treeNodesList_filter_none ts pid nid
              (List.disjoint_left.mp (List.disjoint_of_nodup_append hnd) hmem)
              hp]
          rw [List.append_nil]
      | none =>
          rw [show HTree.findList? nid (t :: ts) = HTree.findList? nid ts
                from by simp [HTree.findList?, hf]]
          rw [treeNodes_filter t (some pid) nid hnd.of_append_left
              (fun he => hp (by injection he)), hf]
          rw [treeNodesList_filter ts pid nid hnd.of_append_right hp]
          rfl

end

theorem treeNodes_head :
    ∀ (t : HTree) (p : Option String), (p, t) ∈ treeNodes p t
  | .node s cs => by
      intro p
      rw [show treeNodes p (.node s cs)
            = (p, HTree.node s cs) :: treeNodesList s.id cs from rfl]
      exact List.mem_cons_self _ _

theorem treeNodesList_self_mem :
    ∀ (ts : List HTree) (pid : String), ∀ c ∈ ts, (some pid, c) ∈ treeNodesList pid ts := by
  intro ts
  induction ts with
  | nil => intro pid c hc; simp at hc
  | cons t rest ih =>
      intro pid c hc
      rw [show treeNodesList pid (t :: rest)
            = treeNodes (some pid) t ++ treeNodesList pid rest from rfl]
      rcases List.mem_cons.mp hc with hc | hc
      · subst hc
        exact List.mem_append.mpr (Or.inl (treeNodes_head c (some pid)))
      · exact List.mem_append.mpr (Or.inr (ih pid c hc))

mutual

theorem treeNodes_children_mem :
    ∀ (t : HTree) (p : Option String) (pr : Option String) (n : HTree),
      (pr, n) ∈ treeNodes p t →
      ∀ c ∈ n.children, (some n.state.id, c) ∈ treeNodes p t
  | .node s cs => by
      intro p pr n hmem c hc
      rw [show treeNodes p (.node s cs)
            = (p, HTree.node s cs) :: treeNodesList s.id cs from rfl] at hmem ⊢
      rcases List.mem_cons.mp hmem with hmem | hmem
      · have hn : n = HTree.node s cs := congrArg Prod.snd hmem
        subst hn
        exact List.mem_cons_of_mem _
          (treeNodesList_self_mem cs s.id c (by simpa using hc))
      · exact List.mem_cons_of_mem _
          (treeNodesList_children_mem cs s.id pr n hmem c hc)

theorem treeNodesList_children_mem :
    ∀ (ts : List HTree) (pid : String) (pr : Option String) (n : HTree),
      (pr, n) ∈ treeNodesList pid ts →
      ∀ c ∈ n.children, (some n.state.id, c) ∈ treeNodesList pid ts
  | [] => by intro pid pr n hmem; simp [treeNodesList] at hmem
  | t :: ts => by
      intro pid pr n hmem c hc
      rw [show treeNodesList pid (t :: ts)
            = treeNodes (some pid) t ++ treeNodesList pid ts from rfl] at hmem ⊢
      rcases List.mem_append.mp hmem with hmem | hmem
      · exact List.mem_append.mpr
          (Or.inl (treeNodes_children_mem t (some pid) pr n hmem c hc))
      · exact List.mem_append.mpr
          (Or.inr (treeNodesList_children_mem ts pid pr n hmem c hc))

end

mutual

theorem find?_treeNodes :
    ∀ (t : HTree) (p : Option String) (pr : Option String) (n : HTree),
      (idsOf t).Nodup → (pr, n) ∈ treeNodes p t →
      HTree.find? n.state.id t = some n
  | .node s cs => by
      intro p pr n hnd hmem
      have hndsplit : (s.id :: (HTree.flattenList cs).map (fun x => x.id)).Nodup := hnd
      rw [show treeNodes p (.node s cs)
            = (p, HTree.node s cs) :: treeNodesList s.id cs from rfl] at hmem
      rcases List.mem_cons.mp hmem with hmem | hmem
      · have hn : n = HTree.node s cs := congrArg Prod.snd hmem
        subst hn
        simp [HTree.find?, HTree.state]
      · have hid : n.state.id ∈ (HTree.flattenList cs).map (fun x => x.id) := by
          rw [← treeNodesList_ids cs s.id]
          exact List.mem_map_of_mem (fun q => q.2.state.id) hmem
        have hsne : ¬ s.id = n.state.id := by
          intro he
          exact (List.nodup_cons.mp hndsplit).1 (he ▸ hid)
        rw [show HTree.find? n.state.id (.node s cs)
              = HTree.findList? n.state.id cs from by simp [HTree.find?, hsne]]
        exact findList?_treeNodes cs s.id pr n (List.nodup_cons.mp hndsplit).2 hmem

theorem findList?_treeNodes :
    ∀ (ts : List HTree) (pid : String) (pr : Option String) (n : HTree),
      (((HTree.flattenList ts).map (fun x => x.id)).Nodup) →
      (pr, n) ∈ treeNodesList pid ts →
      HTree.findList? n.state.id ts = some n
  | [] => by intro pid pr n _ hmem; simp [treeNodesList] at hmem
  | t :: ts => by
      intro pid pr n hnd hmem
      rw [show treeNodesList pid (t :: ts)
            = treeNodes (some pid) t ++ treeNodesList pid ts from rfl] at hmem
      rw [show HTree.flattenList (t :: ts)
            = t.flatten ++ HTree.flattenList ts from rfl, List.map_append] at hnd
      rcases List.mem_append.mp hmem with hmem | hmem
      · have h1 := find?_treeNodes t (some pid) pr n hnd.of_append_left hmem
        simp [HTree.findList?, h1]
      · have hid : n.state.id ∈ (HTree.flattenList ts).map (fun x => x.id) := by
          rw [← treeNodesList_ids ts pid]
          exact List.mem_map_of_mem (fun q => q.2.state.id) hmem
        have hnotin : n.state.id ∉ (t.flatten).map (fun x => x.id) := by
          intro hin
          exact List.disjoint_left.mp (List.disjoint_of_nodup_append hnd) hin hid
        have hft : HTree.find? n.state.id t = none := by
          cases hf : HTree.find? n.state.id t with
          | none => rfl
          | some m => exact absurd (find?_some_mem t n.state.id m hf).1 hnotin
        rw [show HTree.findList? n.state.id (t :: ts)
              = HTree.findList? n.state.id ts from by simp [HTree.findList?, hft]]
        exact findList?_treeNodes ts pid pr n hnd.of_append_right hmem

end

/-- The store `save_tree` produces from a fresh database. -/
def savedStore (T : HTree) : Store :=
  { hobjs := hobjRowsOf none T, holons := holonRowsOf none T, msgs := [] }

theorem saveTree_empty (T : HTree) (hnd : (idsOf T).Nodup) :
    saveTree emptyStore none T = savedStore T := by
  rw [saveTree_spec T emptyStore none
    (fun a _ => ⟨fun x hx => by simp [emptyStore] at hx,
                 fun x hx => by simp [emptyStore] at hx⟩) hnd]
  simp [savedStore, emptyStore]

theorem find?_map_rows {β : Type} (mk : Option String × HTree → β)
    (idf : β → String) (hid : ∀ q, idf (mk q) = q.2.state.id) :
    ∀ (nodes : List (Option String × HTree)),
      ((nodes.map (fun q => q.2.state.id)).Nodup) →
      ∀ q0 ∈ nodes,
        (nodes.map mk).find? (fun r => idf r = q0.2.state.id) = some (mk q0) := by
  intro nodes
  induction nodes with
  | nil => intro _ q0 h; simp at h
  | cons q rest ih =>
      intro hnd q0 hq0
      simp only [List.map_cons, List.nodup_cons] at hnd
      rcases List.mem_cons.mp hq0 with hq0 | hq0
      · subst hq0
        rw [List.map_cons, List.find?_cons_of_pos _ (by simp [hid])]
      · have hne : ¬ (idf (mk q) = q0.2.state.id) := by
          rw [hid]
          intro he
          exact hnd.1 (he ▸ List.mem_map_of_mem (fun q => q.2.state.id) hq0)
        rw [List.map_cons, List.find?_cons_of_neg _ (by simpa using hne)]
        exact ih hnd.2 q0 hq0

theorem findHobjRow_saved (T : HTree) (hnd : (idsOf T).Nodup)
    (pr : Option String) (n : HTree) (hmem : (pr, n) ∈ treeNodes none T) :
    findHobjRow (savedStore T) n.state.id = some (hobjRowOf pr n.state) := by
  have h := find?_map_rows (fun q => hobjRowOf q.1 q.2.state) (fun r => r.id)
    (fun q => rfl) (treeNodes none T)
    (by rw [treeNodes_ids T none]; exact hnd) (pr, n) hmem
  exact h

theorem findHolonRow_saved (T : HTree) (hnd : (idsOf T).Nodup)
    (pr : Option String) (n : HTree) (hmem : (pr, n) ∈ treeNodes none T) :
    findHolonRow (savedStore T) n.state.id = some (holonRowOf n.state) := by
  have h := find?_map_rows (fun q => holonRowOf q.2.state) (fun r => r.id)
    (fun q => rfl) (treeNodes none T)
    (by rw [treeNodes_ids T none]; exact hnd) (pr, n) hmem
  exact h

theorem childRowIds_saved (T : HTree) (hnd : (idsOf T).Nodup)
    (pr : Option String) (n : HTree) (hmem : (pr, n) ∈ treeNodes none T) :
    childRowIds (savedStore T) n.state.id
      = n.children.map (fun c => c.state.id) := by
  unfold childRowIds savedStore hobjRowsOf
  rw [List.filter_map, List.filter_congr
      (fun q _ => show decide ((hobjRowOf q.1 q.2.state).parentId
          = some n.state.id) = decide (q.1 = some n.state.id) from rfl),
    treeNodes_filter T none n.state.id hnd (by simp),
    find?_treeNodes T none pr n hnd hmem]
  simp [List.map_map]
  exact fun a _ => rfl

/-- The raw tree `load_tree` reads back for a saved node. -/
def rtreeSpec (p : Option String) : HTree → RTree
  | .node s cs =>
      .node (hobjRowOf p s) (some (holonRowOf s))
        (cs.attach.map (fun c => rtreeSpec (some s.id) c.1))
termination_by t => sizeOf t
decreasing_by
  simp only [HTree.node.sizeOf_spec]
  have := List.sizeOf_lt_of_mem c.2
  omega

theorem rtreeSpec_eq (p : Option String) (s : AgentState) (cs : List HTree) :
    rtreeSpec p (.node s cs)
      = .node (hobjRowOf p s) (some (holonRowOf s))
          (cs.map (rtreeSpec (some s.id))) := by
  conv_lhs => rw [rtreeSpec]
  rw [List.attach_map_val cs (rtreeSpec (some s.id))]

theorem mapM_children (g : String → Option RTree) (h : HTree → RTree) :
    ∀ (cs : List HTree), (∀ c ∈ cs, g c.state.id = some (h c)) →
      (cs.map (fun c => c.state.id)).mapM g = some (cs.map h) := by
  intro cs
  induction cs with
  | nil => intro _; rfl
  | cons c rest ih =>
      intro hall
      rw [List.map_cons, List.mapM_cons, hall c (List.mem_cons_self c rest),
        ih (fun x hx => hall x (List.mem_cons_of_mem c hx))]
      rfl

theorem flatten_len_child :
    ∀ (cs : List HTree) (c : HTree), c ∈ cs →
      c.flatten.length ≤ (HTree.flattenList cs).length := by
  intro cs
  induction cs with
  | nil => intro c hc; simp at hc
  | cons t rest ih =>
      intro c hc
      rw [show HTree.flattenList (t :: rest)
            = t.flatten ++ HTree.flattenList rest from rfl, List.length_append]
      rcases List.mem_cons.mp hc with hc | hc
      · subst hc; omega
      · have := ih c hc; omega

theorem loadTree_spec (T : HTree) (hnd : (idsOf T).Nodup) :
    ∀ (fuel : Nat) (pr : Option String) (n : HTree),
      (pr, n) ∈ treeNodes none T → n.flatten.length ≤ fuel →
      loadTreeAux (savedStore T) fuel n.state.id = some (rtreeSpec pr n) := by
  intro fuel
  induction fuel with
  | zero =>
      intro pr n _ hlen
      cases n with
      | node s cs =>
          rw [show (HTree.node s cs).flatten
                = s :: HTree.flattenList cs from rfl] at hlen
          simp at hlen
  | succ f ih =>
      intro pr n hmem hlen
      unfold loadTreeAux
      rw [findHobjRow_saved T hnd pr n hmem, childRowIds_saved T hnd pr n hmem,
        findHolonRow_saved T hnd pr n hmem]
      cases n with
      | node s cs =>
          have hchild : ∀ c ∈ (HTree.node s cs).children,
              loadTreeAux (savedStore T) f c.state.id
                = some (rtreeSpec (some (HTree.node s cs).state.id) c) := by
            intro c hc
            apply ih (some (HTree.node s cs).state.id) c
              (treeNodes_children_mem T none pr (HTree.node s cs) hmem c hc)
            have h1 := flatten_len_child cs c hc
            rw [show (HTree.node s cs).flatten
                  = s :: HTree.flattenList cs from rfl] at hlen
            simp only [List.length_cons] at hlen
            omega
          rw [show (HTree.node s cs).children = cs from rfl]
          rw [mapM_children (loadTreeAux (savedStore T) f)
            (rtreeSpec (some s.id)) cs hchild]
          rw [rtreeSpec_eq pr s cs]
          rfl

/-! #### Restore-side binding lemmas -/

theorem opt_list_getD {α : Type} (l : List α) :
    (if l.isEmpty then none else some l).getD [] = l := by
  cases l <;> simp

theorem holonRow_purpose (s : AgentState) :
    ((holonRowOf s).purpose).getD [] = staticOf s.purposeBindings := by
  show ((if (staticOf s.purposeBindings).isEmpty then none
        else some (staticOf s.purposeBindings)) : Option _).getD []
      = staticOf s.purposeBindings
  exact opt_list_getD _

theorem holonRow_selfState (s : AgentState) :
    ((holonRowOf s).selfState).getD [] = staticOf s.selfBindings := by
  show ((if (staticOf s.selfBindings).isEmpty then none
        else some (staticOf s.selfBindings)) : Option _).getD []
      = staticOf s.selfBindings
  exact opt_list_getD _

theorem aset_fresh {α : Type} :
    ∀ (d : List (String × α)) (k : String) (v : α),
      k ∉ d.map Prod.fst → aset d k v = d ++ [(k, v)] := by
  intro d
  induction d with
  | nil => intro k v _; rfl
  | cons q rest ih =>
      intro k v hk
      simp only [List.map_cons, List.mem_cons, not_or] at hk
      rw [show aset (q :: rest) k v
            = if q.1 = k then (q.1, v) :: rest else q :: aset rest k v from rfl,
        if_neg (fun he => hk.1 he.symm), ih k v hk.2]
      rfl

theorem aupdate_fresh {α : Type} :
    ∀ (m d : List (String × α)),
      (m.map Prod.fst).Nodup →
      (∀ k ∈ m.map Prod.fst, k ∉ d.map Prod.fst) →
      aupdate d m = d ++ m := by
  intro m
  induction m with
  | nil => intro d _ _; simp [aupdate]
  | cons p rest ih =>
      intro d hnd hdisj
      simp only [List.map_cons, List.nodup_cons] at hnd
      rw [show aupdate d (p :: rest) = aupdate (aset d p.1 p.2) rest from rfl,
        aset_fresh d p.1 p.2 (hdisj p.1 (by simp)),
        ih (d ++ [(p.1, p.2)]) hnd.2]
      · simp
      · intro k hk
        rw [List.map_append, List.mem_append, not_or]
        constructor
        · exact hdisj k (by simp [hk])
        · simp only [List.map_cons, List.map_nil, List.mem_singleton]
          intro he
          exact hnd.1 (he ▸ hk)

theorem staticOf_map_static :
    ∀ (xs : List (String × Json)),
      staticOf (xs.map (fun p => (p.1, Leaf.static p.2))) = xs := by
  intro xs
  induction xs with
  | nil => rfl
  | cons p rest ih =>
      simp only [List.map_cons, staticOf, List.filterMap_cons] at ih ⊢
      rw [ih]

theorem staticOf_append (a b : Bindings) :
    staticOf (a ++ b) = staticOf a ++ staticOf b := by
  unfold staticOf
  exact List.filterMap_append a b _

theorem knowledge_roundtrip (j : Json) (hobj : j.isObj = true) :
    ((if j.truthy then some j else none) : Option Json).getD (Json.obj []) = j := by
  cases j with
  | obj fs =>
      cases fs with
      | nil => simp [Json.truthy]
      | cons p rest => simp [Json.truthy]
  | null => simp [Json.isObj] at hobj
  | bool b => simp [Json.isObj] at hobj
  | num n => simp [Json.isObj] at hobj
  | str s => simp [Json.isObj] at hobj
  | arr xs => simp [Json.isObj] at hobj

theorem getMessages_nil (S : Store) (hS : S.msgs = []) (a : String) (n : Nat) :
    getMessages S a n = [] := by
  unfold getMessages
  rw [hS]
  simp

/-- The agent state `restore_tree` reconstructs for a saved state `s`
(from a store with no message rows). -/
def restOf (s : AgentState) : AgentState :=
  { newAgent s.id s.nextHeartbeat with
    knowledge := s.knowledge
    tokenBank := s.tokenBank
    heartRate := s.heartRate
    lastHeartbeat := s.lastHeartbeat
    nextHeartbeat := s.nextHeartbeat
    purposeBindings := (staticOf s.purposeBindings).map
      (fun p => (p.1, Leaf.static p.2))
    selfBindings := defaultSelfBindings ++
      (staticOf s.selfBindings).map (fun p => (p.1, Leaf.static p.2))
    inbox := [] }

/-- The whole tree `restore_tree` reconstructs. -/
def expTree : HTree → HTree
  | .node s cs => .node (restOf s) (cs.attach.map (fun c => expTree c.1))
termination_by t => sizeOf t
decreasing_by
  simp only [HTree.node.sizeOf_spec]
  have := List.sizeOf_lt_of_mem c.2
  omega

theorem expTree_eq (s : AgentState) (cs : List HTree) :
    expTree (.node s cs) = .node (restOf s) (cs.map expTree) := by
  conv_lhs => rw [expTree]
  rw [List.attach_map_val cs expTree]

/-- Round-trip well-formedness of one agent state: knowledge is a dict
(Python guarantees it), and the binding maps behave as Python dicts —
no duplicate static keys, and no static self leaf shadowing one of the
dynamic default keys. -/
def agentWF (s : AgentState) : Prop :=
  s.knowledge.isObj = true ∧
  ((staticOf s.purposeBindings).map Prod.fst).Nodup ∧
  ((staticOf s.selfBindings).map Prod.fst).Nodup ∧
  ∀ k ∈ (staticOf s.selfBindings).map Prod.fst,
    k ∉ defaultSelfBindings.map Prod.fst

instance (s : AgentState) : Decidable (agentWF s) := by
  unfold agentWF
  infer_instance

mutual

theorem restoreRTree_spec :
    ∀ (t : HTree) (S : Store) (pr : Option String),
      S.msgs = [] → (∀ s2 ∈ t.flatten, agentWF s2) →
      restoreRTree S (rtreeSpec pr t) = expTree t
  | .node s cs => by
      intro S pr hS hwf
      obtain ⟨hwf1, hwf2, hwf3, hwf4⟩ := hwf s (by
        rw [show (HTree.node s cs).flatten = s :: HTree.flattenList cs from rfl]
        exact List.mem_cons_self _ _)
      rw [rtreeSpec_eq pr s cs, expTree_eq s cs]
      conv_lhs => rw [restoreRTree]
      have hk : ((hobjRowOf pr s).knowledge).getD (Json.obj []) = s.knowledge := by
        show ((if s.knowledge.truthy then some s.knowledge else none) :
            Option Json).getD (Json.obj []) = s.knowledge
        exact knowledge_roundtrip s.knowledge hwf1
      have hpu : (((some (holonRowOf s)).bind (fun h => h.purpose)).getD []
            : List (String × Json)) = staticOf s.purposeBindings := by
        show ((holonRowOf s).purpose).getD [] = staticOf s.purposeBindings
        exact holonRow_purpose s
      have hse : (((some (holonRowOf s)).bind (fun h => h.selfState)).getD []
            : List (String × Json)) = staticOf s.selfBindings := by
        show ((holonRowOf s).selfState).getD [] = staticOf s.selfBindings
        exact holonRow_selfState s
      rw [hk, hpu, hse, getMessages_nil S hS]
      rw [aupdate_fresh ((staticOf s.purposeBindings).map
            (fun p => (p.1, Leaf.static p.2))) []
          (by rw [List.map_map]; exact hwf2)
          (fun k _ => by simp),
        aupdate_fresh ((staticOf s.selfBindings).map
            (fun p => (p.1, Leaf.static p.2))) defaultSelfBindings
          (by rw [List.map_map]; exact hwf3)
          (by
            intro k hk2
            rw [List.map_map] at hk2
            exact hwf4 k hk2)]
      rw [List.attach_map_val
        (cs.map (rtreeSpec (some s.id))) (restoreRTree S)]
      rw [List.map_map]
      have hch := restoreList_spec cs S s.id hS (fun s2 hs2 => hwf s2 (by
        rw [show (HTree.node s cs).flatten = s :: HTree.flattenList cs from rfl]
        exact List.mem_cons_of_mem s hs2))
      rw [List.map_map] at hch
      rw [hch]
      rfl

theorem restoreList_spec :
    ∀ (cs : List HTree) (S : Store) (q : String),
      S.msgs = [] → (∀ s2 ∈ HTree.flattenList cs, agentWF s2) →
      (cs.map (rtreeSpec (some q))).map (restoreRTree S) = cs.map expTree
  | [] => by intro S q _ _; rfl
  | c :: rest => by
      intro S q hS hwf
      have hsplit : HTree.flattenList (c :: rest)
          = c.flatten ++ HTree.flattenList rest := rfl
      simp only [List.map_cons]
      rw [restoreRTree_spec c S (some q) hS (fun s2 hs2 => hwf s2 (by
          rw [hsplit]
          exact List.mem_append.mpr (Or.inl hs2))),
        restoreList_spec rest S q hS (fun s2 hs2 => hwf s2 (by
          rw [hsplit]
          exact List.mem_append.mpr (Or.inr hs2)))]

end

mutual

theorem expTree_flatten :
    ∀ t : HTree, (expTree t).flatten = t.flatten.map restOf
  | .node s cs => by
      rw [expTree_eq s cs,
        show (HTree.node (restOf s) (cs.map expTree)).flatten
          = restOf s :: HTree.flattenList (cs.map expTree) from rfl,
        show (HTree.node s cs).flatten = s :: HTree.flattenList cs from rfl,
        List.map_cons, expTreeList_flatten cs]

theorem expTreeList_flatten :
    ∀ cs : List HTree,
      HTree.flattenList (cs.map expTree) = (HTree.flattenList cs).map restOf
  | [] => rfl
  | c :: rest => by
      rw [List.map_cons,
        show HTree.flattenList (expTree c :: rest.map expTree)
          = (expTree c).flatten ++ HTree.flattenList (rest.map expTree) from rfl,
        show HTree.flattenList (c :: rest)
          = c.flatten ++ HTree.flattenList rest from rfl,
        List.map_append, expTree_flatten c, expTreeList_flatten rest]

end

/-- C6: the save/restore round-trip.  Saving a tree into a fresh store
and restoring from the root id succeeds and yields exactly `expTree t`:
a tree of the same shape (each node keeps its id and its children,
recursively) whose every agent keeps its knowledge, token bank, heart
rate and both heartbeat clocks, and whose static (non-callable) purpose
and self binding leaves equal the original ones.  Hypotheses: tree ids
are unique, and each agent is Python-well-formed (`agentWF`: knowledge
is a dict; binding maps have no duplicate keys and no static self leaf
shadows a dynamic default — all guaranteed by Python's dict semantics). -/
theorem C6_round_trip (t : HTree)
    (hnd : (idsOf t).Nodup)
    (hwf : ∀ s ∈ t.flatten, agentWF s) :
    restoreTree (saveTree emptyStore none t) t.state.id = some (expTree t) ∧
    (expTree t).flatten = t.flatten.map restOf ∧
    idsOf (expTree t) = idsOf t ∧
    ∀ s ∈ t.flatten,
      (restOf s).id = s.id ∧
      (restOf s).knowledge = s.knowledge ∧
      (restOf s).tokenBank = s.tokenBank ∧
      (restOf s).heartRate = s.heartRate ∧
      (restOf s).lastHeartbeat = s.lastHeartbeat ∧
      (restOf s).nextHeartbeat = s.nextHeartbeat ∧
      staticOf (restOf s).purposeBindings = staticOf s.purposeBindings ∧
      staticOf (restOf s).selfBindings = staticOf s.selfBindings := by
  have hflat := expTree_flatten t
  refine ⟨?_, hflat, ?_, ?_⟩
  · rw [saveTree_empty t hnd]
    unfold restoreTree
    have hlen1 : (savedStore t).hobjs.length = t.flatten.length := by
      show (hobjRowsOf none t).length = t.flatten.length
      unfold hobjRowsOf
      rw [List.length_map]
      have h2 := congrArg List.length (treeNodes_ids t none)
      rw [List.length_map] at h2
      rw [h2]
      unfold idsOf
      rw [List.length_map]
    rw [loadTree_spec t hnd ((savedStore t).hobjs.length + 1) none t
      (treeNodes_head t none) (by rw [hlen1]; omega)]
    rw [show (some (rtreeSpec none t)).map (restoreRTree (savedStore t))
          = some (restoreRTree (savedStore t) (rtreeSpec none t)) from rfl]
    rw [restoreRTree_spec t (savedStore t) none rfl hwf]
  · unfold idsOf
    rw [hflat, List.map_map]
    rfl
  · intro s _
    refine ⟨rfl, rfl, rfl, rfl, rfl, rfl, staticOf_map_static _, ?_⟩
    rw [show (restOf s).selfBindings
          = defaultSelfBindings ++
            (staticOf s.selfBindings).map (fun p => (p.1, Leaf.static p.2))
        from rfl,
      staticOf_append, staticOf_map_static]
    rfl

/-- C6 fixture: a root with knowledge, a static purpose leaf next to a
dynamic one, nontrivial clocks and bank, and one child. -/
def tC6 : HTree :=
  .node { mkAgent "r" 7 5 none with
          knowledge := .obj [("k", .str "v")]
          purposeBindings := [("goal", .static (.str "g")),
                              ("dyn", .dyn .currentTime)]
          lastHeartbeat := some 3
          heartRate := 2 }
    [.node (mkAgent "c" 1 9 none) []]

/-- C6 witness: the round-trip theorem at the concrete two-agent tree. -/
theorem C6_witness :
    restoreTree (saveTree emptyStore none tC6) tC6.state.id
      = some (expTree tC6) ∧
    (expTree tC6).flatten = tC6.flatten.map restOf ∧
    idsOf (expTree tC6) = idsOf tC6 ∧
    ∀ s ∈ tC6.flatten,
      (restOf s).id = s.id ∧
      (restOf s).knowledge = s.knowledge ∧
      (restOf s).tokenBank = s.tokenBank ∧
      (restOf s).heartRate = s.heartRate ∧
      (restOf s).lastHeartbeat = s.lastHeartbeat ∧
      (restOf s).nextHeartbeat = s.nextHeartbeat ∧
      staticOf (restOf s).purposeBindings = staticOf s.purposeBindings ∧
      staticOf (restOf s).selfBindings = staticOf s.selfBindings :=
  C6_round_trip tC6 (by decide) (by decide)

/-! ### C7: HUD snapshot immutability -/

/-- Forget the in-flight marker of one state (the HUD reads everything
but the marker, so hud computations factor through this). -/
def scrubS (s : AgentState) : AgentState := { s with activeHeartbeat := none }

mutual

/-- Forget every in-flight marker of a tree. -/
def HTree.scrub : HTree → HTree
  | .node s cs => .node (scrubS s) (HTree.scrubList cs)

/-- `HTree.scrub` over a forest. -/
def HTree.scrubList : List HTree → List HTree
  | [] => []
  | t :: ts => HTree.scrub t :: HTree.scrubList ts

end

theorem scrubList_eq_map :
    ∀ ts : List HTree, HTree.scrubList ts = ts.map HTree.scrub := by
  intro ts
  induction ts with
  | nil => rfl
  | cons t rest ih => simp only [HTree.scrubList, List.map_cons, ih]

theorem scrub_state : ∀ t : HTree, (HTree.scrub t).state = scrubS t.state
  | .node s cs => rfl

theorem scrub_children :
    ∀ t : HTree, (HTree.scrub t).children = t.children.map HTree.scrub
  | .node s cs => by
      rw [show (HTree.scrub (HTree.node s cs)).children
            = HTree.scrubList cs from rfl, scrubList_eq_map]
      rfl

theorem holonRel_scrub (p : Option AgentState) (t : HTree) :
    holonRelationships (p.map scrubS) (HTree.scrub t) = holonRelationships p t := by
  unfold holonRelationships
  have hch : (HTree.scrub t).children.map (fun c =>
        Json.obj [("id", .str c.state.id), ("token_bank", .num c.state.tokenBank)])
      = t.children.map (fun c =>
        Json.obj [("id", .str c.state.id), ("token_bank", .num c.state.tokenBank)]) := by
    rw [scrub_children, List.map_map]
    refine List.map_congr_left ?_
    intro c _
    show Json.obj [("id", .str (HTree.scrub c).state.id),
        ("token_bank", .num (HTree.scrub c).state.tokenBank)] = _
    rw [scrub_state]
    rfl
  cases p with
  | none => simp only [Option.map]; rw [hch]
  | some q => simp only [Option.map]; rw [hch]; rfl

theorem resolveLeaf_scrub (p : Option AgentState) (t : HTree) (now : Time) :
    ∀ leaf : Leaf,
      resolveLeaf (p.map scrubS) (HTree.scrub t) now leaf
        = resolveLeaf p t now leaf := by
  intro leaf
  cases leaf with
  | static j => rfl
  | dyn d =>
      cases d with
      | currentTime => rfl
      | holonId =>
          show Json.str (HTree.scrub t).state.id = Json.str t.state.id
          rw [scrub_state]
          rfl
      | holonTree => exact holonRel_scrub p t
      | knowledgeRef =>
          show (HTree.scrub t).state.knowledge = t.state.knowledge
          rw [scrub_state]
          rfl
      | tokenBankRef =>
          show Json.num (HTree.scrub t).state.tokenBank = Json.num t.state.tokenBank
          rw [scrub_state]
          rfl
      | lastHeartbeatRef =>
          show (match (HTree.scrub t).state.lastHeartbeat with
                | none => Json.null
                | some t2 => Json.str (isoOf t2))
              = (match t.state.lastHeartbeat with
                | none => Json.null
                | some t2 => Json.str (isoOf t2))
          rw [scrub_state]
          rfl
      | nextHeartbeatRef =>
          show Json.str (isoOf (HTree.scrub t).state.nextHeartbeat)
              = Json.str (isoOf t.state.nextHeartbeat)
          rw [scrub_state]
          rfl
      | heartRateRef =>
          show Json.num (HTree.scrub t).state.heartRate
              = Json.num t.state.heartRate
          rw [scrub_state]
          rfl

theorem resolveBindings_scrub (p : Option AgentState) (t : HTree) (now : Time)
    (b : Bindings) :
    resolveBindings (p.map scrubS) (HTree.scrub t) now b
      = resolveBindings p t now b := by
  unfold resolveBindings
  congr 1
  refine List.map_congr_left ?_
  intro q _
  rw [resolveLeaf_scrub p t now q.2]

theorem hudAt_def (p : Option AgentState) (t : HTree) (now : Time) :
    hudAt p t now =
      Json.obj (((if t.state.purposeBindings.isEmpty then []
          else [("purpose", resolveBindings p t now t.state.purposeBindings)]) ++
        (if t.state.selfBindings.isEmpty then []
          else [("self", resolveBindings p t now t.state.selfBindings)]) ++
        (if t.state.actions.isEmpty then []
          else [("actions", Json.arr (t.state.actions.map serializeAction))])) ++
        [("hud_tokens", .num (count_tokens (Json.dumps (Json.obj
          ((if t.state.purposeBindings.isEmpty then []
            else [("purpose", resolveBindings p t now t.state.purposeBindings)]) ++
           (if t.state.selfBindings.isEmpty then []
            else [("self", resolveBindings p t now t.state.selfBindings)]) ++
           (if t.state.actions.isEmpty then []
            else [("actions", Json.arr (t.state.actions.map serializeAction))]))))))]) :=
  rfl

theorem hudAt_scrub (p : Option AgentState) (t : HTree) (now : Time) :
    hudAt (p.map scrubS) (HTree.scrub t) now = hudAt p t now := by
  rw [hudAt_def, hudAt_def, scrub_state t,
    show (scrubS t.state).purposeBindings = t.state.purposeBindings from rfl,
    show (scrubS t.state).selfBindings = t.state.selfBindings from rfl,
    show (scrubS t.state).actions = t.state.actions from rfl,
    resolveBindings_scrub p t now t.state.purposeBindings,
    resolveBindings_scrub p t now t.state.selfBindings]

mutual

theorem locate_scrub :
    ∀ (t : HTree) (aid : String) (p : Option AgentState),
      HTree.locate aid (p.map scrubS) (HTree.scrub t)
        = (HTree.locate aid p t).map
            (fun r => (r.1.map scrubS, HTree.scrub r.2))
  | .node s cs => by
      intro aid p
      rw [show HTree.scrub (HTree.node s cs)
            = HTree.node (scrubS s) (HTree.scrubList cs) from rfl]
      simp only [HTree.locate]
      by_cases hs : s.id = aid
      · rw [if_pos (show (scrubS s).id = aid from hs), if_pos hs]
        rfl
      · rw [if_neg (show ¬ (scrubS s).id = aid from hs), if_neg hs]
        exact locateList_scrub cs aid s

theorem locateList_scrub :
    ∀ (ts : List HTree) (aid : String) (q : AgentState),
      HTree.locateList aid (scrubS q) (HTree.scrubList ts)
        = (HTree.locateList aid q ts).map
            (fun r => (r.1.map scrubS, HTree.scrub r.2))
  | [] => by intro aid q; rfl
  | t :: ts => by
      intro aid q
      rw [show HTree.scrubList (t :: ts)
            = HTree.scrub t :: HTree.scrubList ts from rfl]
      simp only [HTree.locateList]
      rw [show (some (scrubS q) : Option AgentState)
            = (some q : Option AgentState).map scrubS from rfl,
        locate_scrub t aid (some q)]
      cases HTree.locate aid (some q) t with
      | some r => rfl
      | none =>
          simp only [Option.map]
          exact locateList_scrub ts aid q

end

theorem hudOfId_scrub (t : HTree) (aid : String) (now : Time) :
    hudOfId (HTree.scrub t) aid now = hudOfId t aid now := by
  unfold hudOfId
  conv_lhs => rw [show (none : Option AgentState)
        = (none : Option AgentState).map scrubS from rfl,
    locate_scrub t aid none]
  cases hl : HTree.locate aid none t with
  | none => rfl
  | some r =>
      show hudAt (r.1.map scrubS) (HTree.scrub r.2) now = hudAt r.1 r.2 now
      exact hudAt_scrub r.1 r.2 now

mutual

theorem scrub_upd? (aid : String) (f : AgentState → AgentState)
    (hf : ∀ s, scrubS (f s) = scrubS s) :
    ∀ (t t2 : HTree), HTree.upd? aid f t = some t2 →
      HTree.scrub t2 = HTree.scrub t
  | .node s cs, t2 => by
      intro h
      simp only [HTree.upd?] at h
      by_cases hs : s.id = aid
      · rw [if_pos hs] at h
        simp only [Option.some.injEq] at h
        subst h
        show HTree.node (scrubS (f s)) (HTree.scrubList cs)
            = HTree.node (scrubS s) (HTree.scrubList cs)
        rw [hf]
      · rw [if_neg hs] at h
        cases hcs : HTree.updList? aid f cs with
        | none => rw [hcs] at h; exact Option.noConfusion h
        | some cs2 =>
            rw [hcs] at h
            simp only [Option.some.injEq] at h
            subst h
            show HTree.node (scrubS s) (HTree.scrubList cs2)
                = HTree.node (scrubS s) (HTree.scrubList cs)
            rw [scrubList_upd? aid f hf cs cs2 hcs]

theorem scrubList_upd? (aid : String) (f : AgentState → AgentState)
    (hf : ∀ s, scrubS (f s) = scrubS s) :
    ∀ (ts ts2 : List HTree), HTree.updList? aid f ts = some ts2 →
      HTree.scrubList ts2 = HTree.scrubList ts
  | [], ts2 => by intro h; simp [HTree.updList?] at h
  | t :: ts, ts2 => by
      intro h
      simp only [HTree.updList?] at h
      cases ht : HTree.upd? aid f t with
      | some u =>
          rw [ht] at h
          simp only [Option.some.injEq] at h
          subst h
          show HTree.scrub u :: HTree.scrubList ts
              = HTree.scrub t :: HTree.scrubList ts
          rw [scrub_upd? aid f hf t u ht]
      | none =>
          rw [ht] at h
          cases hts : HTree.updList? aid f ts with
          | none => rw [hts] at h; exact Option.noConfusion h
          | some us =>
              rw [hts] at h
              simp only [Option.some.injEq] at h
              subst h
              show HTree.scrub t :: HTree.scrubList us
                  = HTree.scrub t :: HTree.scrubList ts
              rw [scrubList_upd? aid f hf ts us hts]

end

theorem scrub_upd (aid : String) (f : AgentState → AgentState)
    (hf : ∀ s, scrubS (f s) = scrubS s) (t : HTree) :
    HTree.scrub (t.upd aid f) = HTree.scrub t := by
  unfold HTree.upd
  cases h : HTree.upd? aid f t with
  | some t2 =>
      simp only [Option.getD]
      exact scrub_upd? aid f hf t t2 h
  | none => rfl

theorem markFold_hud (now : Time) :
    ∀ (due : List (AgentState × Time)) (acc : World × List HRecord),
      HTree.scrub ((due.foldl (markRecStep now) acc).1).tree
        = HTree.scrub acc.1.tree ∧
      ∀ r ∈ (due.foldl (markRecStep now) acc).2,
        r ∈ acc.2 ∨ r.hudSent = hudOfId acc.1.tree r.agentId now := by
  intro due
  induction due with
  | nil => intro acc; exact ⟨rfl, fun r hr => Or.inl hr⟩
  | cons p rest ih =>
      intro acc
      rw [List.foldl_cons]
      obtain ⟨hscrub, hrec⟩ := ih (markRecStep now acc p)
      have hstep_scrub : HTree.scrub (markRecStep now acc p).1.tree
          = HTree.scrub acc.1.tree := by
        show HTree.scrub ((updState acc.1 p.1.id
            (fun s => { s with activeHeartbeat := some p.2 })).tree)
          = HTree.scrub acc.1.tree
        exact scrub_upd p.1.id
          (fun s => { s with activeHeartbeat := some p.2 })
          (fun s => rfl) acc.1.tree
      constructor
      · rw [hscrub, hstep_scrub]
      · intro r hr
        rcases hrec r hr with h2 | h2
        · rcases List.mem_append.mp h2 with h3 | h3
          · exact Or.inl h3
          · right
            rw [List.mem_singleton.mp h3]
        · right
          rw [h2, ← hudOfId_scrub (markRecStep now acc p).1.tree r.agentId now,
            hstep_scrub, hudOfId_scrub acc.1.tree r.agentId now]

/-- A later mutation of the world's agents: any state rewrite (covering
knowledge, purpose, self, token bank and clock writes) or an auto-save. -/
inductive WOp where
  | upd (aid : String) (f : AgentState → AgentState)
  | save (aid : String)

/-- Apply one mutation. -/
def applyOp (w : World) : WOp → World
  | .upd aid f => updState w aid f
  | .save aid => w.autoSave aid

/-- Apply a sequence of mutations in order. -/
def applyOps (w : World) : List WOp → World
  | [] => w
  | op :: rest => applyOps (applyOp w op) rest

theorem applyOps_history :
    ∀ (ops : List WOp) (w : World), (applyOps w ops).history = w.history := by
  intro ops
  induction ops with
  | nil => intro w; rfl
  | cons op rest ih =>
      intro w
      show (applyOps (applyOp w op) rest).history = w.history
      rw [ih]
      cases op with
      | upd aid f => rfl
      | save aid => exact (autoSave_fields w aid).2.1

/-- C7: snapshot immutability.  When a tick selects a heartbeat, every
record's stored `hud_sent` equals the agent's serialized HUD as rendered
at add time (on the post-allocation tree — the in-flight markers written
during selection never enter a HUD), the heartbeat is appended to
history, and after ANY later sequence of agent mutations — knowledge,
purpose, self, token-bank or clock writes, auto-saves — the history, and
with it every stored snapshot, is byte-for-byte unchanged: the deep copy
taken by `add_holonicobject` froze it. -/
theorem C7_snapshot_immutable (w : World) (now : Time) (w1 : World) (hb : HB)
    (hsel : beatSelect w now = (w1, some hb)) (ops : List WOp) :
    (∀ r ∈ hb.records,
        r.hudSent = hudOfId (applyAllocations w).tree r.agentId now) ∧
    w1.history = w.history ++ [hb] ∧
    (applyOps w1 ops).history = w.history ++ [hb] := by
  unfold beatSelect at hsel
  simp only [] at hsel
  split at hsel
  · simp at hsel
  · simp only [Prod.mk.injEq, Option.some.injEq] at hsel
    obtain ⟨hw1, hhb⟩ := hsel
    have hrec := (markFold_hud now (dueListOf w now) (applyAllocations w, [])).2
    have hhist : w1.history
        = ((dueListOf w now).foldl (markRecStep now)
            (applyAllocations w, [])).1.history ++ [hb] := by
      rw [← hw1, ← hhb]
    have hfold := (markFold_frame now (dueListOf w now)
      (applyAllocations w, [])).1
    refine ⟨?_, ?_, ?_⟩
    · intro r hr
      have hr2 : r ∈ ((dueListOf w now).foldl (markRecStep now)
          (applyAllocations w, [])).2 := by
        rw [← hhb] at hr
        exact hr
      rcases hrec r hr2 with h3 | h3
      · simp at h3
      · exact h3
    · rw [hhist, hfold, (applyAllocations_frame w).1]
    · rw [applyOps_history ops w1, hhist, hfold, (applyAllocations_frame w).1]

/-- C7 fixture: one due agent. -/
def wC7 : World :=
  { tree := .node (mkAgent "a" 0 0 none) []
    history := []
    allocations := []
    fresh := 0
    store := emptyStore }

/-- The world after the selection phase of the tick at `t = 10.5s`. -/
def w1C7 : World := (beatSelect wC7 10500000).1

/-- The heartbeat that tick selects. -/
def hbC7 : HB :=
  ((beatSelect wC7 10500000).2).getD
    { heartbeatTime := 0, executionTime := none, completionTime := none,
      records := [], rawResponse := "" }

/-- A later mutation: overwrite the agent's knowledge. -/
def opsC7 : List WOp :=
  [.upd "a" (fun s => { s with knowledge := .obj [("x", .num 1)] })]

set_option maxRecDepth 100000 in
/-- C7 witness: the immutability theorem at a concrete tick, plus the
live contrast — after the knowledge write, the agent's current HUD
differs from the stored snapshot, which is unchanged in history. -/
theorem C7_witness :
    ((∀ r ∈ hbC7.records,
        r.hudSent = hudOfId (applyAllocations wC7).tree r.agentId 10500000) ∧
     w1C7.history = wC7.history ++ [hbC7] ∧
     (applyOps w1C7 opsC7).history = wC7.history ++ [hbC7]) ∧
    hudOfId (applyOps w1C7 opsC7).tree "a" 10500000
      ≠ hudOfId (applyAllocations wC7).tree "a" 10500000 := by
  constructor
  · have h2 : (beatSelect wC7 10500000).2 = some hbC7 := by decide
    have hsel : beatSelect wC7 10500000 = (w1C7, some hbC7) := by
      calc beatSelect wC7 10500000
          = ((beatSelect wC7 10500000).1, (beatSelect wC7 10500000).2) := rfl
        _ = (w1C7, some hbC7) := by rw [h2]; rfl
    exact C7_snapshot_immutable wC7 10500000 w1C7 hbC7 hsel opsC7
  · decide

end HolonAI
